import Mathlib

/-! # Port reservation engine of `gears/ports.go`

A shallow embedding of the port model, the reservation/reuse protocol
(`AtomicReserveExternalPorts` and its helpers) and the background allocator
(`findPorts`, `fail`, `namesToPorts`), followed by theorems about them.

Conventions of the embedding.

* `Port` is Go's `uint`; it is embedded as `Nat`, and the places where the
  source can wrap around (the block arithmetic of `findPorts`, the conversion
  `Port(v)` of a signed `int`) reduce modulo `uintSize = 2 ^ 64`.
* The marker tree is a map from an external port to the target of the link at
  its leaf path (`none` when there is no link).  `os.Symlink` fails when the
  leaf path already exists, `os.Remove` fails when it does not.
* The allocator's output channel, as seen by one reservation call, is the list
  of values the call will receive; a closed channel delivers `0`.
* Slices that the source mutates in place are passed and returned explicitly.
-/

namespace Gears

/-! ## Data model (ports.go 18-47) -/

/-- Go `type Port uint`. -/
abbrev Port := Nat

/-- Number of values of Go's `uint` on a 64-bit platform. -/
def uintSize : Nat := 18446744073709551616

/-- Go `type PortPair struct { Internal Port; External Port }`. -/
structure PortPair where
  Internal : Port
  External : Port
deriving DecidableEq, Repr

/-- Go `type portReservation struct { PortPair; reserved, allocated, exists bool }`.
The field `exists` of the source is spelled `exists_` here. -/
structure portReservation extends PortPair where
  reserved : Bool
  allocated : Bool
  exists_ : Bool
deriving DecidableEq, Repr

/-- Go `type PortPairs []PortPair`. -/
abbrev PortPairs := List PortPair

/-- Go `type portReservations []portReservation`. -/
abbrev portReservations := List portReservation

/-- Errors a reservation call can return. -/
inductive ReserveError where
  /-- The error built at ports.go 102, naming the internal port. -/
  | duplicateInternal (internal : Port)
  /-- The value `ErrAllocationFailed` (ports.go 183). -/
  | allocationFailed
  /-- An error of `os.Symlink` handed on by the persist pass. -/
  | linkFailed
deriving DecidableEq, Repr

/-! ## Marker tree -/

/-- On-disk markers: external port to link target. -/
abbrev Markers := Port → Option String

/-- The call `os.Symlink(path, direct)` for the leaf path of `port`: fails
(`none`) when a link is already there, otherwise creates it. -/
def symlink (fs : Markers) (path : String) (port : Port) : Option Markers :=
  match fs port with
  | some _ => none
  | none => some (fun q => if q = port then some path else fs q)

/-- The call `os.Remove(direct)` for the leaf path of `port`: fails (`none`)
when there is no link, otherwise removes it. -/
def remove (fs : Markers) (port : Port) : Option Markers :=
  match fs port with
  | none => none
  | some _ => some (fun q => if q = port then none else fs q)

/-! ## Reservation/reuse protocol (ports.go 83-213) -/

/-- Go `func (p PortPairs) reserve() (portReservations, error)` (ports.go 83-90):
one reservation per pair, all flags false; the error is always nil. -/
def PortPairs.reserve (p : PortPairs) : portReservations :=
  p.map fun pair => { toPortPair := pair, reserved := false, allocated := false, exists_ := false }

/-- State of the inner loop of `reuse` (ports.go 98-115) for one existing pair. -/
structure InnerState where
  p : portReservations
  unreserve : List Port
  matched : Bool
  err : Option ReserveError
deriving DecidableEq, Repr

/-- The loop `for i := range p` at ports.go 98-115 for the existing pair `ex`,
run on the not yet visited part of `p`.  On the early return of line 102 the
rest of `p` is left as it is. -/
def reuseInner (ex : PortPair) : portReservations → List Port → Bool → InnerState
  | [], unreserve, matched => { p := [], unreserve := unreserve, matched := matched, err := none }
  | res :: rest, unreserve, matched =>
    if res.Internal = ex.Internal then
      if res.exists_ then
        { p := res :: rest, unreserve := unreserve, matched := matched,
          err := some (ReserveError.duplicateInternal res.Internal) }
      else if res.External = 0 then
        let r := reuseInner ex rest unreserve true
        { r with p := { res with External := ex.External, exists_ := true } :: r.p }
      else if res.External ≠ ex.External then
        let r := reuseInner ex rest (unreserve ++ [ex.External]) true
        { r with p := res :: r.p }
      else
        let r := reuseInner ex rest unreserve true
        { r with p := { res with exists_ := true } :: r.p }
    else
      let r := reuseInner ex rest unreserve matched
      { r with p := res :: r.p }

/-- State after the loop over `existing` of `reuse` (ports.go 95-119). -/
structure ReuseState where
  p : portReservations
  unreserve : List Port
  err : Option ReserveError
deriving DecidableEq, Repr

/-- The loop `for j := range existing` at ports.go 95-119. -/
def reuseExisting : PortPairs → portReservations → List Port → ReuseState
  | [], p, unreserve => { p := p, unreserve := unreserve, err := none }
  | ex :: rest, p, unreserve =>
    let r := reuseInner ex p unreserve false
    match r.err with
    | some e => { p := r.p, unreserve := r.unreserve, err := some e }
    | none =>
      if !r.matched then reuseExisting rest r.p (r.unreserve ++ [ex.External])
      else reuseExisting rest r.p r.unreserve

/-- Go `func allocatePort() Port` (ports.go 224-228): one receive on the
allocator's channel; a closed channel delivers the zero value. -/
def allocatePort : List Port → Port × List Port
  | [] => (0, [])
  | port :: rest => (port, rest)

/-- State after the allocation loop of `reuse`. -/
structure AllocState where
  p : portReservations
  ports : List Port
  err : Option ReserveError
deriving DecidableEq, Repr

/-- The loop at ports.go 120-129: every entry whose external port is still 0
draws one port; a drawn 0 returns `ErrAllocationFailed` at once. -/
def allocateMissing : portReservations → List Port → AllocState
  | [], ports => { p := [], ports := ports, err := none }
  | res :: rest, ports =>
    if res.External = 0 then
      let drawn := allocatePort ports
      if drawn.1 = 0 then
        { p := { res with External := drawn.1 } :: rest, ports := drawn.2,
          err := some ReserveError.allocationFailed }
      else
        let r := allocateMissing rest drawn.2
        { r with p := { res with External := drawn.1, reserved := true } :: r.p }
    else
      let r := allocateMissing rest ports
      { r with p := res :: r.p }

/-- Result of `reuse`: the slice `p` as mutated, the unreserve list, the rest
of the allocator's channel and the error. -/
structure ReuseResult where
  p : portReservations
  unreserve : List Port
  ports : List Port
  err : Option ReserveError
deriving DecidableEq, Repr

/-- Go `func (p portReservations) reuse(existing PortPairs) ([]Port, error)`
(ports.go 93-131). -/
def portReservations.reuse (p : portReservations) (existing : PortPairs)
    (ports : List Port) : ReuseResult :=
  let r := reuseExisting existing p []
  match r.err with
  | some e => { p := r.p, unreserve := r.unreserve, ports := ports, err := some e }
  | none =>
    let a := allocateMissing r.p ports
    { p := a.p, unreserve := r.unreserve, ports := a.ports, err := a.err }

/-- The first loop of `portReservations.reserve` (ports.go 138-150): create the
marker of every entry that does not exist yet, and `break` at the first
failure of `os.Symlink`.  The `err` assigned at line 143 is declared by `:=`
inside the loop body, so nothing of it leaves the loop. -/
def reserveLinks (path : String) : portReservations → Markers → portReservations × Markers
  | [], fs => ([], fs)
  | res :: rest, fs =>
    if !res.exists_ then
      match symlink fs path res.External with
      | none => (res :: rest, fs)
      | some fs1 =>
        let r := reserveLinks path rest fs1
        ({ res with allocated := true } :: r.1, r.2)
    else
      let r := reserveLinks path rest fs
      (res :: r.1, r.2)

/-- The rollback loop of `portReservations.reserve` (ports.go 153-162): remove
the marker of every entry flagged `allocated`. -/
def rollback : portReservations → Markers → portReservations × Markers
  | [], fs => ([], fs)
  | res :: rest, fs =>
    if res.allocated then
      match remove fs res.External with
      | some fs1 =>
        let r := rollback rest fs1
        ({ res with allocated := false } :: r.1, r.2)
      | none =>
        let r := rollback rest fs
        (res :: r.1, r.2)
    else
      let r := rollback rest fs
      (res :: r.1, r.2)

/-- Result of `portReservations.reserve`. -/
structure PersistResult where
  p : portReservations
  fs : Markers
  err : Option ReserveError

/-- Go `func (p portReservations) reserve(path string) error` (ports.go 136-167).
The variable `err` of line 137 is the one tested at line 152; the loop never
assigns it (line 143 declares a new `err`), so it is still nil there. -/
def portReservations.reserve (p : portReservations) (path : String) (fs : Markers) :
    PersistResult :=
  let err : Option ReserveError := none
  let linked := reserveLinks path p fs
  match err with
  | some e =>
    let undone := rollback linked.1 linked.2
    { p := undone.1, fs := undone.2, err := some e }
  | none => { p := linked.1, fs := linked.2, err := none }

/-- The release loop of `AtomicReserveExternalPorts` (ports.go 207-210): remove
the marker of every port of the unreserve list, ignoring failures. -/
def releasePorts : List Port → Markers → Markers
  | [], fs => fs
  | port :: rest, fs =>
    match remove fs port with
    | some fs1 => releasePorts rest fs1
    | none => releasePorts rest fs

/-- Outcome of one call of `AtomicReserveExternalPorts`: the two returned
values, the marker tree and the allocator channel after the call, and (for
reference in the theorems) the working set and the unreserve list at the
point of return. -/
structure ReserveOutcome where
  pairs : PortPairs
  err : Option ReserveError
  fs : Markers
  ports : List Port
  working : portReservations
  unreserve : List Port

/-- Go `func AtomicReserveExternalPorts(path string, ports, existing PortPairs)
(PortPairs, error)` (ports.go 185-213), run on the marker tree `fs` with the
allocator channel `chan`. -/
def AtomicReserveExternalPorts (path : String) (ports existing : PortPairs)
    (fs : Markers) (chan : List Port) : ReserveOutcome :=
  let reservations := PortPairs.reserve ports
  let reused := portReservations.reuse reservations existing chan
  match reused.err with
  | some erru =>
    { pairs := ports, err := some erru, fs := fs, ports := reused.ports,
      working := reused.p, unreserve := reused.unreserve }
  | none =>
    let reserved : PortPairs := reused.p.map fun res => res.toPortPair
    let persisted := portReservations.reserve reused.p path fs
    match persisted.err with
    | some err =>
      { pairs := ports, err := some err, fs := persisted.fs, ports := reused.ports,
        working := persisted.p, unreserve := reused.unreserve }
    | none =>
      { pairs := reserved, err := none, fs := releasePorts reused.unreserve persisted.fs,
        ports := reused.ports, working := persisted.p, unreserve := reused.unreserve }

/-- The marker tree with the given links and nothing else. -/
def markersOf (links : List (Port × String)) : Markers :=
  fun q => (links.find? fun l => l.1 == q).map fun l => l.2

/-! ## Background allocator (ports.go 215-370) -/

/-- Go `const portsPerBlock = Port(100)`. -/
def portsPerBlock : Port := 100

/-- Go `const maxReadFailures = 3`. -/
def maxReadFailures : Int := 3

/-- Reduction of a value to Go's `uint` (64 bits). -/
def wrapUint (n : Nat) : Nat := n % uintSize

/-- Reduction of a value to Go's `int` (64 bits, two's complement). -/
def wrapInt (v : Int) : Int := (v + 9223372036854775808) % 18446744073709551616 - 9223372036854775808

/-- The conversion `Port(v)` of an `int` (ports.go 358). -/
def intToPort (v : Int) : Port := (v % 18446744073709551616).toNat

/-- The library function `strconv.Atoi` on a 64-bit platform: an optional sign,
then one or more decimal digits, and a value that fits `int`; anything else is
an error (`none`). -/
def Atoi (s : String) : Option Int :=
  match s.data with
  | [] => none
  | c :: cs =>
    let body := if c = '-' ∨ c = '+' then cs else c :: cs
    if body.isEmpty then none
    else if body.all Char.isDigit then
      let n : Int := (body.foldl (fun acc ch => acc * 10 + (ch.toNat - 48)) 0 : Nat)
      let v : Int := if c = '-' then -n else n
      if -9223372036854775808 ≤ v ∧ v < 9223372036854775808 then some v else none
    else none

/-- The conversion loop of `namesToPorts` (ports.go 353-360): the slice
`reserved`, zero where a name does not parse. -/
def convertNames (reservedNames : List String) : List Port :=
  reservedNames.map fun name =>
    match Atoi name with
    | some v => intToPort v
    | none => 0

/-- Go `func namesToPorts(reservedNames []string) ports` (ports.go 349-370).
`sort.Sort` is an ascending sort of the port values. -/
def namesToPorts (reservedNames : List String) : List Port :=
  if reservedNames.length = 0 then []
  else
    let reserved := convertNames reservedNames
    let converted := reservedNames.any fun name => (Atoi name).isSome
    if converted then
      (reserved.insertionSort (fun a b => a ≤ b)).dropWhile (fun port => port == 0)
    else []

/-- Go `type portAllocator struct` (ports.go 243-250); the two channels are
not fields here: what is sent on `ports` is the trace of a run, and `done` is
the shutdown oracle of `trySend`. -/
structure portAllocator where
  block : Nat
  failures : Int
  min : Port
  max : Port
deriving DecidableEq, Repr

/-- Go `var internalPortAllocator` (ports.go 252). -/
def internalPortAllocator : portAllocator := { block := 1, failures := 0, min := 0, max := 0 }

/-- The assignments of `StartPortAllocator(min, max)` (ports.go 231-233); the
worker it then starts is `findPorts`. -/
def StartPortAllocator (a : portAllocator) (min max : Port) : portAllocator :=
  { a with min := min, max := max, block := min / portsPerBlock }

/-- One `select` between a send on `ports` and a receive on `done` (ports.go
297-302, 306-311, 330-334).  The oracle `done` is the number of sends that
still get through before the shutdown signal wins; `none` means that no
shutdown is ever signalled.  The result is the oracle after a send, or `none`
when the shutdown branch is taken. -/
def trySend (done : Option Nat) : Option (Option Nat) :=
  match done with
  | none => some none
  | some 0 => none
  | some (k + 1) => some (some k)

/-- What a part of a run of the worker did: the allocator state, the values
sent on `ports` in order, the shutdown oracle, and whether `finished` was
reached. -/
structure Run where
  a : portAllocator
  offered : List Port
  done : Option Nat
  finished : Bool
deriving DecidableEq, Repr

/-- Go `func (p *portAllocator) fail() bool` (ports.go 327-337); `finished` is
the returned value. -/
def portAllocator.fail (a : portAllocator) (done : Option Nat) : Run :=
  let a1 := { a with failures := wrapInt (a.failures + 1) }
  if a1.failures > maxReadFailures then
    match trySend done with
    | some done1 => { a := a1, offered := [0], done := done1, finished := false }
    | none => { a := a1, offered := [], done := done, finished := true }
  else { a := a1, offered := [], done := done, finished := false }

/-- Go `func (p *portAllocator) foundPorts()` (ports.go 339-341). -/
def portAllocator.foundPorts (a : portAllocator) : portAllocator :=
  { a with failures := 0 }

/-- Result of a walk over a window. -/
structure Walk where
  offered : List Port
  foundInBlock : Nat
  done : Option Nat
  finished : Bool
deriving DecidableEq, Repr

/-- The loop at ports.go 289-303 over the remaining ports `n` of the window,
with the loop variables `existing` and `other`. -/
def walkReserved (reserved : List Port) : List Port → Port → Nat → Option Nat → Walk
  | [], _, _, done => { offered := [], foundInBlock := 0, done := done, finished := false }
  | n :: rest, existing, other, done =>
    if existing = n then
      if other < reserved.length then
        walkReserved reserved rest (reserved.getD other 0) (other + 1) done
      else walkReserved reserved rest existing other done
    else
      match trySend done with
      | some done1 =>
        let w := walkReserved reserved rest existing other done1
        { w with offered := n :: w.offered, foundInBlock := w.foundInBlock + 1 }
      | none => { offered := [], foundInBlock := 0, done := done, finished := true }

/-- The loop at ports.go 305-312 over the remaining ports `n` of the window. -/
def walkFree : List Port → Option Nat → Walk
  | [], done => { offered := [], foundInBlock := 0, done := done, finished := false }
  | n :: rest, done =>
    match trySend done with
    | some done1 =>
      let w := walkFree rest done1
      { w with offered := n :: w.offered, foundInBlock := w.foundInBlock + 1 }
    | none => { offered := [], foundInBlock := 0, done := done, finished := true }

/-- The window walk of `findPorts` (ports.go 286-313) for the listed names
`taken` and the window from `start` up to, not including, `stop` (the
variable `end` of the source). -/
def scanWindow (taken : List String) (start stop : Port) (done : Option Nat) : Walk :=
  let reserved := namesToPorts taken
  if reserved.length > 0 then
    walkReserved reserved (List.range' start (stop - start)) (reserved.getD 0 0) 1 done
  else walkFree (List.range' start (stop - start)) done

/-- What listing a block directory gives (ports.go 272-284): `os.OpenFile`
fails, or `Readdirnames` fails, or up to `portsPerBlock` names are read. -/
inductive Listing where
  | openFailed
  | readFailed
  | names (l : List String)
deriving DecidableEq, Repr

/-- Start of the window of `findPorts` for the cursor `block` (ports.go 257-260). -/
def windowStart (a : portAllocator) : Port :=
  if wrapUint (a.block * portsPerBlock) < a.min then a.min else wrapUint (a.block * portsPerBlock)

/-- End of the window of `findPorts` for the cursor `block` (ports.go 261-264). -/
def windowEnd (a : portAllocator) : Port :=
  if wrapUint (wrapUint (a.block + 1) * portsPerBlock) > a.max then a.max
  else wrapUint (wrapUint (a.block + 1) * portsPerBlock)

/-- The cursor after the window was computed (ports.go 262-267). -/
def nextBlock (a : portAllocator) : Nat :=
  if wrapUint (wrapUint (a.block + 1) * portsPerBlock) > a.max then a.min / portsPerBlock
  else wrapUint (a.block + 1)

/-- The second half of an iteration of `findPorts` (ports.go 286-322): the
window walk for the listed names `taken`, then the failure count. -/
def scanTaken (taken : List String) (start stop : Port) (a1 : portAllocator)
    (done : Option Nat) : Run :=
  let w := scanWindow taken start stop done
  if w.finished then { a := a1, offered := w.offered, done := w.done, finished := true }
  else if w.foundInBlock = 0 then
    let r := portAllocator.fail a1 w.done
    { r with offered := w.offered ++ r.offered }
  else
    { a := portAllocator.foundPorts a1, offered := w.offered, done := w.done, finished := false }

/-- One iteration of the loop of `findPorts` (ports.go 255-323); `dir` gives
the listing of a block directory by block number.  When the directory cannot
be opened, `taken` stays nil. -/
def scanBlock (dir : Nat → Listing) (a : portAllocator) (done : Option Nat) : Run :=
  let start := windowStart a
  let stop := windowEnd a
  let a1 := { a with block := nextBlock a }
  match dir (start / portsPerBlock) with
  | Listing.readFailed => portAllocator.fail a1 done
  | Listing.openFailed => scanTaken [] start stop a1 done
  | Listing.names l => scanTaken l start stop a1 done

/-- Go `func (p *portAllocator) findPorts()` (ports.go 254-325), run for at most
`fuel` iterations of its loop, the first of which is iteration `t`; `dirAt t`
is the content of the block directories during iteration `t`.  `finished` is
false when the loop is still running after `fuel` iterations. -/
def portAllocator.findPorts (dirAt : Nat → Nat → Listing) :
    Nat → Nat → portAllocator → Option Nat → Run
  | 0, _, a, done => { a := a, offered := [], done := done, finished := false }
  | fuel + 1, t, a, done =>
    let r := scanBlock (dirAt t) a done
    if r.finished then r
    else
      let rest := portAllocator.findPorts dirAt fuel (t + 1) r.a r.done
      { rest with offered := r.offered ++ rest.offered }

/-! ## Vocabulary of the theorems -/

/-- What the reuse and allocation passes keep of an entry: the internal port,
and the external port when it was already set. -/
def Keeps (x y : portReservation) : Prop :=
  y.Internal = x.Internal ∧ (x.External ≠ 0 → y.External = x.External)

/-- The entry the reuse pass makes of a working entry matched with the
recorded pair `q`, when it adopts or confirms the external port of `q`. -/
def adopted (q : PortPair) : portReservation :=
  { toPortPair := q, reserved := false, allocated := false, exists_ := true }

/-- The pair `q` is a possible result for the desired pair `d`: same internal
port, an external port that is set, and the requested one when one was
requested. -/
def Settles (d q : PortPair) : Prop :=
  q.Internal = d.Internal ∧ q.External ≠ 0 ∧ (d.External ≠ 0 → q.External = d.External)

/-- What one existing pair `ex` does to one working entry (ports.go 100-113)
when the entry is not yet flagged `exists`. -/
def stepEntry (ex : PortPair) (x : portReservation) : portReservation :=
  if x.Internal = ex.Internal then
    if x.External = 0 then { x with External := ex.External, exists_ := true }
    else if x.External ≠ ex.External then x
    else { x with exists_ := true }
  else x

/-- The entry asks, for the internal port of `ex`, for another external port. -/
def disagrees (ex : PortPair) (x : portReservation) : Bool :=
  decide (x.Internal = ex.Internal ∧ x.External ≠ 0 ∧ x.External ≠ ex.External)

/-- No working entry flagged `exists` has the internal port of a pair of `exs`. -/
def Fresh (exs : PortPairs) (p : portReservations) : Prop :=
  ∀ x ∈ p, x.exists_ = true → x.Internal ∉ exs.map (fun ex => ex.Internal)

/-- In the words of the specification: the existing pair `ex` is stale for the
desired pairs when its internal port matches no desired pair, or a desired
pair with that internal port asks for a different non-zero external port. -/
def stale (desired : PortPairs) (ex : PortPair) : Bool :=
  desired.all (fun d => decide (d.Internal ≠ ex.Internal)) ||
    desired.any (fun d =>
      decide (d.Internal = ex.Internal ∧ d.External ≠ 0 ∧ d.External ≠ ex.External))

/-- In the words of the specification: the unreserve list for the desired and
existing pairs, the external ports of the stale existing pairs in the order of
the existing pairs. -/
def unreserveSpec (desired existing : PortPairs) : List Port :=
  (existing.filter (stale desired)).map fun ex => ex.External

/-- Number of working entries that still lack an external port. -/
def missing (p : portReservations) : Nat :=
  p.countP fun x => decide (x.External = 0)

/-- The cursor after `i` iterations of the loop of `findPorts` that do not end
the worker: every iteration replaces the cursor by `nextBlock`. -/
def cursorAfter (a : portAllocator) : Nat → Nat
  | 0 => a.block
  | i + 1 => cursorAfter { a with block := nextBlock a } i

/-- The allocator with its cursor after `i` iterations. -/
def allocatorAfter (a : portAllocator) (i : Nat) : portAllocator :=
  { a with block := cursorAfter a i }

/-- No port was offered and the walk ran to the end of the window. -/
def emptyWalk (done : Option Nat) : Walk :=
  { offered := [], foundInBlock := 0, done := done, finished := false }

/-- Every scan window of the worker started on the range from `min` up to, not
including, `max` is taken: whenever the window of iteration `t` (the window
that `findPorts` computes from the state it has reached after `t` iterations
without a shutdown signal) is not empty, the directory of its block can be
read during that iteration and the listed names parse, in ascending order, to
exactly the ports of the window followed by any further ports. -/
def Exhausted (dirAt : Nat → Nat → Listing) (min max : Port) : Prop :=
  ∀ t : Nat,
    windowStart (portAllocator.findPorts dirAt t 0
        (StartPortAllocator internalPortAllocator min max) none).a <
      windowEnd (portAllocator.findPorts dirAt t 0
        (StartPortAllocator internalPortAllocator min max) none).a →
    ∃ l extra,
      dirAt t (windowStart (portAllocator.findPorts dirAt t 0
        (StartPortAllocator internalPortAllocator min max) none).a / portsPerBlock) =
        Listing.names l ∧
      namesToPorts l =
        List.range' (windowStart (portAllocator.findPorts dirAt t 0
            (StartPortAllocator internalPortAllocator min max) none).a)
          (windowEnd (portAllocator.findPorts dirAt t 0
              (StartPortAllocator internalPortAllocator min max) none).a -
            windowStart (portAllocator.findPorts dirAt t 0
              (StartPortAllocator internalPortAllocator min max) none).a) ++
          extra

/-- In the words of the specification, a range whose every port has a marker:
the directory of a block lists, at all times and in ascending order, the
decimal names of the ports of the block that lie in the range from `min` up
to, not including, `max`, and nothing else. -/
def markedDir (min max : Port) : Nat → Nat → Listing :=
  fun _ block =>
    Listing.names
      ((List.range' (if block * 100 < min then min else block * 100)
        ((if max < (block + 1) * 100 then max else (block + 1) * 100) -
          (if block * 100 < min then min else block * 100))).map
        fun q => String.mk (Nat.toDigits 10 q))

/-- The block directories of the range 9000 to 9001 when both ports have a
marker: block 90 lists the two markers, no other block directory exists. -/
def takenDir : Nat → Nat → Listing :=
  fun _ block => if block = 90 then Listing.names ["9000", "9001"] else Listing.openFailed

/-- The block directories when block 90 holds the markers of ports 9010 and
9051 and no other block directory exists. -/
def staleDir : Nat → Listing :=
  fun block => if block = 90 then Listing.names ["9010", "9051"] else Listing.openFailed

/-- The block directories of the range 9050 to 9051 when both ports have a
marker and block 90 also holds the marker of port 9010. -/
def crowdedDir : Nat → Nat → Listing :=
  fun _ block =>
    if block = 90 then Listing.names ["9010", "9050", "9051"] else Listing.openFailed

/-! ## Header string (ports.go 34-45) -/

/-- The conversion `int(p)` of a `Port` to Go's `int` (64 bits, two's
complement): values from 2^63 on become negative. -/
def portToInt (p : Port) : Int :=
  if p % uintSize < 9223372036854775808 then ((p % uintSize : Nat) : Int)
  else ((p % uintSize : Nat) : Int) - 18446744073709551616

/-- The library function `strconv.Itoa`: the decimal digits of the value, after
a minus sign when it is negative. -/
def Itoa (v : Int) : String :=
  if v < 0 then String.mk ('-' :: Nat.toDigits 10 v.natAbs)
  else String.mk (Nat.toDigits 10 v.natAbs)

/-- The body of the loop of `ToHeader` (ports.go 36-43) for the index and pair
`x`, with the buffer `pairs` written so far. -/
def toHeaderStep (pairs : String) (x : Nat × PortPair) : String :=
  (if x.1 ≠ 0 then pairs ++ "," else pairs) ++ Itoa (portToInt x.2.Internal) ++ "=" ++
    Itoa (portToInt x.2.External)

/-- Go `func (p PortPairs) ToHeader() string` (ports.go 34-45). -/
def PortPairs.ToHeader (p : PortPairs) : String := p.enum.foldl toHeaderStep ""

/-- In the words of the specification: the header entry of a pair, the internal
port in decimal, an equals sign, the external port in decimal. -/
def headerEntry (q : PortPair) : List Char :=
  Nat.toDigits 10 q.Internal ++ '=' :: Nat.toDigits 10 q.External

/-- In the words of the specification: an entry split on the equals sign into
two decimals, both parsed. -/
def parseEntry (entry : List Char) : Option (Int × Int) :=
  match entry.splitOn '=' with
  | [a, b] =>
    match Atoi (String.mk a), Atoi (String.mk b) with
    | some x, some y => some (x, y)
    | _, _ => none
  | _ => none

/-- All entries parsed, or `none` when one of them does not parse. -/
def parseEntries : List (List Char) → Option (List (Int × Int))
  | [] => some []
  | entry :: rest =>
    match parseEntry entry, parseEntries rest with
    | some x, some xs => some (x :: xs)
    | _, _ => none

/-- In the words of the specification: the header split on commas and each
entry split on the equals sign and parsed; the empty header has no entry. -/
def splitHeader (header : String) : Option (List (Int × Int)) :=
  if header.data = [] then some [] else parseEntries (header.data.splitOn ',')

/-! ## Unit-file codec (ports.go 49-79) -/

/-- The verb `%d` of `fmt.Fprintf` for an unsigned value (and
`strconv.FormatUint(n, 10)`): the decimal digits. -/
def FormatUint (n : Nat) : String := String.mk (Nat.toDigits 10 n)

/-- What `fmt.Fprintf(w, "X-PortMapping=%d,%d\n", p[i].Internal, p[i].External)`
writes (ports.go 74). -/
def mappingLine (q : PortPair) : String :=
  "X-PortMapping=" ++ FormatUint q.Internal ++ "," ++ FormatUint q.External ++ "\n"

/-- Go `func (p PortPairs) WritePortsToUnitFile(w io.Writer) error` (ports.go
72-79) on a writer that accepts every write: the text written.  The returned
error is then nil. -/
def PortPairs.WritePortsToUnitFile (p : PortPairs) : String :=
  p.foldl (fun w q => w ++ mappingLine q) ""

/-- The space characters of the package `fmt` (its table `space`). -/
def isSpace (c : Char) : Bool :=
  decide ((9 ≤ c.toNat ∧ c.toNat ≤ 13) ∨ c.toNat = 32 ∨ c.toNat = 133 ∨ c.toNat = 160 ∨
    c.toNat = 5760 ∨ (8192 ≤ c.toNat ∧ c.toNat ≤ 8202) ∨ c.toNat = 8232 ∨ c.toNat = 8233 ∨
    c.toNat = 8239 ∨ c.toNat = 8287 ∨ c.toNat = 12288)

/-- The method `SkipSpace` of the scanner of `fmt.Sscanf`: leading spaces are
dropped; a newline is an error (`none`). -/
def skipSpace : List Char → Option (List Char)
  | [] => some []
  | c :: rest =>
    if c = '\n' then none
    else if isSpace c then skipSpace rest
    else some (c :: rest)

/-- The token of the verb `%d`: an optional sign and one or more decimal
digits; the result is the token and the rest of the input, or `none` at the
end of the input or when no digit follows. -/
def scanNumber : List Char → Option (List Char × List Char)
  | [] => none
  | c :: rest =>
    let signed := decide (c = '+' ∨ c = '-')
    let body := if signed then rest else c :: rest
    let digits := body.takeWhile Char.isDigit
    if digits.isEmpty then none
    else some ((if signed then c :: digits else digits), body.dropWhile Char.isDigit)

/-- The verb `%d` of `fmt.Sscanf` into an `int`: spaces are skipped, the token
is read and parsed as `strconv.ParseInt(tok, 10, 64)` does. -/
def scanInt (input : List Char) : Option (Int × List Char) :=
  match skipSpace input with
  | none => none
  | some input1 =>
    match scanNumber input1 with
    | none => none
    | some (tok, rest) =>
      match Atoi (String.mk tok) with
      | none => none
      | some v => some (v, rest)

/-- The library call `fmt.Sscanf(str, "%d,%d", &internal, &external)`: the two
values, or `none` when it returns an error.  Input after the second number is
not looked at. -/
def Sscanf (str : String) : Option (Int × Int) :=
  match scanInt str.data with
  | none => none
  | some (internal, rest) =>
    match rest with
    | c :: rest1 =>
      if c = ',' then
        match scanInt rest1 with
        | none => none
        | some (external, _) => some (internal, external)
      else none
    | [] => none

/-- The prefix of a port mapping line. -/
def mappingPrefix : List Char := "X-PortMapping=".data

/-- The body of the loop of `ReadPortsFromUnitFile` (ports.go 53-64) for one
line, with the pairs collected so far; the argument of `Sscanf` is the line
without the prefix (`strings.TrimPrefix`). -/
def readLine (pairs : PortPairs) (line : String) : PortPairs :=
  if mappingPrefix.isPrefixOf line.data then
    match Sscanf (String.mk (line.data.drop mappingPrefix.length)) with
    | none => pairs
    | some (internal, external) =>
      if internal > 0 ∧ internal < 65536 ∧ external > 0 ∧ external < 65536 then
        pairs ++ [{ Internal := intToPort internal, External := intToPort external }]
      else pairs
  else pairs

/-- The constant `bufio.MaxScanTokenSize`. -/
def maxScanTokenSize : Nat := 65536

/-- Length of a text in bytes. -/
def utf8Len (data : List Char) : Nat := (data.map Char.utf8Size).sum

/-- The helper `dropCR` of `bufio.ScanLines`. -/
def dropCR (data : List Char) : List Char :=
  if data.getLast? = some '\r' then data.dropLast else data

/-- The error `bufio.ErrTooLong`. -/
inductive ScanError where
  | tooLong
deriving DecidableEq, Repr

/-- The tokens a `bufio.Scanner` with the split function `ScanLines` yields for
the segments between the newlines of a text, and the final `scan.Err()`: every
segment but the last is a line, the last one is a line when it is not empty,
and a line of `maxScanTokenSize` bytes or more stops the scanner. -/
def scanTokens : List (List Char) → List String × Option ScanError
  | [] => ([], none)
  | [last] =>
    if last.isEmpty then ([], none)
    else if utf8Len last ≥ maxScanTokenSize then ([], some ScanError.tooLong)
    else ([String.mk (dropCR last)], none)
  | seg :: rest =>
    if utf8Len seg ≥ maxScanTokenSize then ([], some ScanError.tooLong)
    else ((String.mk (dropCR seg)) :: (scanTokens rest).1, (scanTokens rest).2)

/-- Go `func ReadPortsFromUnitFile(r io.Reader) (PortPairs, error)` (ports.go
49-70) for a reader that delivers the text `r` and then the end of input. -/
def ReadPortsFromUnitFile (r : String) : PortPairs × Option ScanError :=
  let scanned := scanTokens (r.data.splitOn '\n')
  (scanned.1.foldl readLine [], scanned.2)

/-- The line `X-PortMapping=<i>,<e>` for two integers written in decimal. -/
def mappingText (i e : Int) : String :=
  String.mk (mappingPrefix ++ ((Itoa i).data ++ ',' :: (Itoa e).data))

/-! ## Reservation paths (ports.go 169-181) -/

/-- The buffer of Go `filepath.Clean`, read by path elements: the elements
written so far, the last one first, and the mark `dotdot`, the number of
written elements that are leading `..` elements and cannot be removed. -/
structure CleanBuf where
  out : List (List Char)
  dotdot : Nat
deriving DecidableEq

/-- One round of the loop of Go `filepath.Clean` on a Unix path, for the path
element `c` (the characters between two separators): an empty element and `.`
are skipped, `..` removes the last written element when there is one above
the mark, is written (and moves the mark) when the path is not rooted, and is
dropped at the root; any other element is written. -/
def cleanElem (rooted : Bool) (b : CleanBuf) (c : List Char) : CleanBuf :=
  if c = [] then b
  else if c = ['.'] then b
  else if c = ['.', '.'] then
    if b.out.length > b.dotdot then { b with out := b.out.tail }
    else if rooted = false then { out := c :: b.out, dotdot := b.out.length + 1 }
    else b
  else { b with out := c :: b.out }

/-- The string in the buffer of `filepath.Clean` at the end: the written
elements with one separator between them, after the root separator when the
path is rooted, and `.` when nothing was written. -/
def cleanRender (rooted : Bool) (b : CleanBuf) : List Char :=
  if rooted = true then '/' :: ['/'].intercalate b.out.reverse
  else if b.out = [] then ['.']
  else ['/'].intercalate b.out.reverse

/-- Whether a path starts with the separator. -/
def cleanRooted (path : List Char) : Bool := path.head? == some '/'

/-- The buffer of `filepath.Clean` after the loop over the path. -/
def cleanBuf (path : List Char) : CleanBuf :=
  (path.splitOn '/').foldl (cleanElem (cleanRooted path)) ⟨[], 0⟩

/-- Go `filepath.Clean` on Unix. -/
def filepath.Clean (path : String) : String :=
  if path.data = [] then "."
  else String.mk (cleanRender (cleanRooted path.data) (cleanBuf path.data))

/-- Go `filepath.Join` on Unix: the elements from the first non-empty one on
are joined with the separator and cleaned; the result is empty when every
element is empty. -/
def filepath.Join (elem : List String) : String :=
  match elem.dropWhile (fun e => e.data.isEmpty) with
  | [] => ""
  | rest => filepath.Clean (String.mk (['/'].intercalate (rest.map String.data)))

/-- Go `func (d device) DevicePath() string` (ports.go 171-173). The directory
`config.GearBasePath()` is the parameter `gearBasePath`. -/
def device.DevicePath (gearBasePath : String) (d : String) : String :=
  filepath.Join [gearBasePath, "ports", "interfaces", d]

/-- Go `func (p Port) PortPathsFor() (base string, path string)` (ports.go
175-181). `uint64` of a `uint` is the value itself. -/
def Port.PortPathsFor (gearBasePath : String) (p : Port) : String × String :=
  let root := device.DevicePath gearBasePath "1"
  let pfx := p / portsPerBlock
  let base := filepath.Join [root, FormatUint pfx]
  let path := filepath.Join [base, FormatUint p]
  (base, path)

/-- A path element that `filepath.Clean` writes as it stands. -/
def pathElem (c : List Char) : Prop := c ≠ [] ∧ c ≠ ['.'] ∧ c ≠ ['.', '.'] ∧ '/' ∉ c

/-- The buffers `filepath.Clean` can hold: `dotdot` elements `..` (none in a
rooted path) and plain elements after them. -/
def CleanInv (rooted : Bool) (b : CleanBuf) : Prop :=
  ∃ elems : List (List Char), b.out = elems ++ List.replicate b.dotdot ['.', '.'] ∧
    (∀ c ∈ elems, pathElem c) ∧ (rooted = true → b.dotdot = 0)

/-! ## Vocabulary of the allocator theorems -/

/-- The ports the window walk of an iteration of `findPorts` offers: none when
the block directory cannot be read. -/
def windowYield (dir : Nat → Listing) (a : portAllocator) (done : Option Nat) : List Port :=
  match dir (windowStart a / portsPerBlock) with
  | Listing.readFailed => []
  | Listing.openFailed => (scanWindow [] (windowStart a) (windowEnd a) done).offered
  | Listing.names l => (scanWindow l (windowStart a) (windowEnd a) done).offered

/-- The window yields of the iterations of a run of `findPorts`, in order, up
to the iteration that ends the worker. -/
def yields (dirAt : Nat → Nat → Listing) :
    Nat → Nat → portAllocator → Option Nat → List (List Port)
  | 0, _, _, _ => []
  | fuel + 1, t, a, done =>
    if (scanBlock (dirAt t) a done).finished then []
    else windowYield (dirAt t) a done ::
      yields dirAt fuel (t + 1) (scanBlock (dirAt t) a done).a (scanBlock (dirAt t) a done).done

/-- In the words of the specification: the number of scan failures (iterations
whose window yielded no port) since the last window that yielded at least
one port. -/
def failuresSince (ys : List (List Port)) : Nat :=
  (ys.reverse.takeWhile fun y => y.isEmpty).length

/-! ## Lemmas on the reuse pass -/

theorem Keeps.refl (x : portReservation) : Keeps x x := ⟨rfl, fun _ => rfl⟩

theorem Keeps.trans {x y z : portReservation} (h1 : Keeps x y) (h2 : Keeps y z) : Keeps x z := by
  refine ⟨h2.1.trans h1.1, fun hx => ?_⟩
  have hy : y.External = x.External := h1.2 hx
  have : y.External ≠ 0 := by rw [hy]; exact hx
  rw [h2.2 this, hy]

theorem keeps_forall₂_refl (l : portReservations) : List.Forall₂ Keeps l l := by
  induction l with
  | nil => exact List.Forall₂.nil
  | cons x l ih => exact List.Forall₂.cons (Keeps.refl x) ih

theorem keeps_forall₂_trans {a b c : portReservations} (h1 : List.Forall₂ Keeps a b)
    (h2 : List.Forall₂ Keeps b c) : List.Forall₂ Keeps a c := by
  induction h1 generalizing c with
  | nil => cases h2; exact List.Forall₂.nil
  | cons hxy _ ih =>
    cases h2 with
    | cons hyz htl => exact List.Forall₂.cons (hxy.trans hyz) (ih htl)

theorem reuseInner_keeps (ex : PortPair) (p : portReservations) (u : List Port) (m : Bool) :
    List.Forall₂ Keeps p (reuseInner ex p u m).p := by
  induction p generalizing u m with
  | nil => simp [reuseInner]
  | cons res rest ih =>
    simp only [reuseInner]
    split_ifs with h1 h2 h3 h4
    · exact keeps_forall₂_refl _
    · exact List.Forall₂.cons ⟨rfl, fun hx => absurd h3 hx⟩ (ih _ _)
    · exact List.Forall₂.cons (Keeps.refl _) (ih _ _)
    · exact List.Forall₂.cons ⟨rfl, fun _ => rfl⟩ (ih _ _)
    · exact List.Forall₂.cons (Keeps.refl _) (ih _ _)

theorem reuseExisting_keeps (existing : PortPairs) (p : portReservations) (u : List Port) :
    List.Forall₂ Keeps p (reuseExisting existing p u).p := by
  induction existing generalizing p u with
  | nil => simpa [reuseExisting] using keeps_forall₂_refl p
  | cons ex rest ih =>
    simp only [reuseExisting]
    have h := reuseInner_keeps ex p u false
    split
    · exact h
    · split_ifs
      · exact keeps_forall₂_trans h (ih _ _)
      · exact keeps_forall₂_trans h (ih _ _)

theorem allocateMissing_keeps (p : portReservations) (ports : List Port) :
    List.Forall₂ Keeps p (allocateMissing p ports).p := by
  induction p generalizing ports with
  | nil => simp [allocateMissing]
  | cons res rest ih =>
    simp only [allocateMissing]
    split_ifs with h1 h2
    · exact List.Forall₂.cons ⟨rfl, fun hx => absurd h1 hx⟩ (keeps_forall₂_refl _)
    · exact List.Forall₂.cons ⟨rfl, fun hx => absurd h1 hx⟩ (ih _)
    · exact List.Forall₂.cons (Keeps.refl _) (ih _)

theorem allocateMissing_nonzero (p : portReservations) (ports : List Port)
    (h : (allocateMissing p ports).err = none) :
    ∀ x ∈ (allocateMissing p ports).p, x.External ≠ 0 := by
  induction p generalizing ports with
  | nil => simp [allocateMissing]
  | cons res rest ih =>
    by_cases h1 : res.External = 0
    · by_cases h2 : (allocatePort ports).1 = 0
      · simp [allocateMissing, h1, h2] at h
      · simp only [allocateMissing, h1, h2, if_true, if_false] at h ⊢
        intro x hx
        simp only [List.mem_cons] at hx
        rcases hx with rfl | hx
        · exact h2
        · exact ih _ h x hx
    · simp only [allocateMissing, h1, if_false] at h ⊢
      intro x hx
      simp only [List.mem_cons] at hx
      rcases hx with rfl | hx
      · exact h1
      · exact ih _ h x hx

theorem reuseInner_nomatch (ex : PortPair) (l : portReservations) (u : List Port) (m : Bool)
    (h : ∀ x ∈ l, x.Internal ≠ ex.Internal) :
    reuseInner ex l u m = { p := l, unreserve := u, matched := m, err := none } := by
  induction l with
  | nil => simp [reuseInner]
  | cons res rest ih =>
    have h1 : res.Internal ≠ ex.Internal := h res (List.mem_cons_self _ _)
    have h2 := ih fun x hx => h x (List.mem_cons_of_mem _ hx)
    simp [reuseInner, h1, h2]

theorem reuseInner_append (ex : PortPair) (pre l : portReservations) (u : List Port) (m : Bool)
    (h : ∀ x ∈ pre, x.Internal ≠ ex.Internal) :
    reuseInner ex (pre ++ l) u m =
      { reuseInner ex l u m with p := pre ++ (reuseInner ex l u m).p } := by
  induction pre with
  | nil => simp
  | cons res rest ih =>
    have h1 : res.Internal ≠ ex.Internal := h res (List.mem_cons_self _ _)
    have h2 := ih fun x hx => h x (List.mem_cons_of_mem _ hx)
    simp [reuseInner, h1, h2]

theorem settles_internals {ds rs : PortPairs} (h : List.Forall₂ Settles ds rs) :
    rs.map (fun q => q.Internal) = ds.map (fun d => d.Internal) := by
  induction h with
  | nil => rfl
  | cons hdq _ ih => simp [hdq.1, ih]

theorem reserve_internal_mem {ds : PortPairs} {x : portReservation}
    (hx : x ∈ PortPairs.reserve ds) : x.Internal ∈ ds.map (fun d => d.Internal) := by
  simp only [PortPairs.reserve, List.mem_map] at hx ⊢
  obtain ⟨d, hd, rfl⟩ := hx
  exact ⟨d, hd, rfl⟩

/-- The reuse loop run on a fresh working set against a result `rs` of its own
desired pairs marks every entry as existing with the external port of `rs`. -/
theorem reuseExisting_settled {ds rs : PortPairs} (h : List.Forall₂ Settles ds rs)
    (hnd : (ds.map fun d => d.Internal).Nodup) (pre : portReservations)
    (hpre : ∀ x ∈ pre, ∀ q ∈ rs, x.Internal ≠ q.Internal) (u : List Port) :
    reuseExisting rs (pre ++ PortPairs.reserve ds) u =
      { p := pre ++ rs.map adopted, unreserve := u, err := none } := by
  induction h generalizing pre u with
  | nil => simp [reuseExisting, PortPairs.reserve]
  | @cons d q ds1 rs1 hdq htl ih =>
    have hq : q.Internal = d.Internal := hdq.1
    rw [List.map_cons, List.nodup_cons] at hnd
    have hrest : ∀ x ∈ PortPairs.reserve ds1, x.Internal ≠ q.Internal := by
      intro x hx hxq
      exact hnd.1 (by rw [← hq, ← hxq]; exact reserve_internal_mem hx)
    have hpre1 : ∀ x ∈ pre, x.Internal ≠ q.Internal :=
      fun x hx => hpre x hx q (List.mem_cons_self _ _)
    have hinner : reuseInner q (pre ++ PortPairs.reserve (d :: ds1)) u false =
        { p := (pre ++ [adopted q]) ++ PortPairs.reserve ds1, unreserve := u,
          matched := true, err := none } := by
      rw [reuseInner_append q pre _ u false hpre1]
      have hnm := reuseInner_nomatch q (PortPairs.reserve ds1) u true hrest
      by_cases hz : d.External = 0
      · simp [PortPairs.reserve, reuseInner, hq, hz, adopted] at hnm ⊢
        simp [hnm, ← hq]
      · have he : q.External = d.External := hdq.2.2 hz
        have hdq1 : d = q := by
          cases d
          cases q
          simp_all
        subst hdq1
        simp [PortPairs.reserve, reuseInner, hz, adopted] at hnm ⊢
        simp [hnm]
    have hpre2 : ∀ x ∈ pre ++ [adopted q], ∀ q1 ∈ rs1, x.Internal ≠ q1.Internal := by
      intro x hx q1 hq1
      rcases List.mem_append.1 hx with hx | hx
      · exact hpre x hx q1 (List.mem_cons_of_mem _ hq1)
      · simp only [List.mem_singleton] at hx
        subst hx
        intro hcontra
        apply hnd.1
        rw [← settles_internals htl, ← hq]
        exact List.mem_map.2 ⟨q1, hq1, hcontra.symm⟩
    rw [reuseExisting, hinner]
    simp only [Bool.not_true, Bool.false_eq_true, if_false]
    rw [ih hnd.2 _ hpre2 u]
    simp

theorem allocateMissing_id (p : portReservations) (ports : List Port)
    (h : ∀ x ∈ p, x.External ≠ 0) :
    allocateMissing p ports = { p := p, ports := ports, err := none } := by
  induction p with
  | nil => simp [allocateMissing]
  | cons res rest ih =>
    have h1 : res.External ≠ 0 := h res (List.mem_cons_self _ _)
    have h2 := ih fun x hx => h x (List.mem_cons_of_mem _ hx)
    simp [allocateMissing, h1, h2]

theorem reserveLinks_exists (path : String) (p : portReservations) (fs : Markers)
    (h : ∀ x ∈ p, x.exists_ = true) : reserveLinks path p fs = (p, fs) := by
  induction p with
  | nil => simp [reserveLinks]
  | cons res rest ih =>
    have h1 : res.exists_ = true := h res (List.mem_cons_self _ _)
    have h2 := ih fun x hx => h x (List.mem_cons_of_mem _ hx)
    simp [reserveLinks, h1, h2]

theorem settles_of_keeps {ds : PortPairs} {p : portReservations}
    (h : List.Forall₂ Keeps (PortPairs.reserve ds) p) (hnz : ∀ x ∈ p, x.External ≠ 0) :
    List.Forall₂ Settles ds (p.map fun x => x.toPortPair) := by
  induction ds generalizing p with
  | nil =>
    simp only [PortPairs.reserve, List.map_nil] at h
    cases h
    exact List.Forall₂.nil
  | cons d ds1 ih =>
    simp only [PortPairs.reserve, List.map_cons] at h
    cases h with
    | cons hxy htl =>
      rename_i y p1
      refine List.Forall₂.cons ⟨hxy.1, hnz y (List.mem_cons_self _ _), hxy.2⟩ ?_
      exact ih htl fun x hx => hnz x (List.mem_cons_of_mem _ hx)

/-- The persist pass never reports an error: the error of a call is the one of
the reuse pass. -/
theorem atomic_err (path : String) (ds existing : PortPairs) (fs : Markers) (chan : List Port) :
    (AtomicReserveExternalPorts path ds existing fs chan).err =
      (portReservations.reuse (PortPairs.reserve ds) existing chan).err := by
  unfold AtomicReserveExternalPorts
  cases h : (portReservations.reuse (PortPairs.reserve ds) existing chan).err <;>
    simp [h, portReservations.reserve]

/-- What a successful call returns and leaves behind. -/
theorem atomic_ok (path : String) (ds existing : PortPairs) (fs : Markers) (chan : List Port)
    (h : (AtomicReserveExternalPorts path ds existing fs chan).err = none) :
    AtomicReserveExternalPorts path ds existing fs chan =
      { pairs := (portReservations.reuse (PortPairs.reserve ds) existing chan).p.map
          fun res => res.toPortPair,
        err := none,
        fs := releasePorts (portReservations.reuse (PortPairs.reserve ds) existing chan).unreserve
          (reserveLinks path (portReservations.reuse (PortPairs.reserve ds) existing chan).p fs).2,
        ports := (portReservations.reuse (PortPairs.reserve ds) existing chan).ports,
        working :=
          (reserveLinks path (portReservations.reuse (PortPairs.reserve ds) existing chan).p fs).1,
        unreserve := (portReservations.reuse (PortPairs.reserve ds) existing chan).unreserve } := by
  rw [atomic_err] at h
  unfold AtomicReserveExternalPorts
  simp [h, portReservations.reserve]

/-- The pairs of a successful call settle the desired pairs. -/
theorem atomic_ok_settles (path : String) (ds existing : PortPairs) (fs : Markers)
    (chan : List Port) (h : (AtomicReserveExternalPorts path ds existing fs chan).err = none) :
    List.Forall₂ Settles ds (AtomicReserveExternalPorts path ds existing fs chan).pairs := by
  rw [atomic_ok path ds existing fs chan h]
  rw [atomic_err] at h
  simp only
  unfold portReservations.reuse at h ⊢
  cases he : (reuseExisting existing (PortPairs.reserve ds) []).err with
  | some e => simp [he] at h
  | none =>
    simp only [he] at h ⊢
    apply settles_of_keeps
    · exact keeps_forall₂_trans (reuseExisting_keeps existing _ [])
        (allocateMissing_keeps _ chan)
    · exact allocateMissing_nonzero _ chan h

theorem settles_mem_right {ds rs : PortPairs} (h : List.Forall₂ Settles ds rs) {q : PortPair}
    (hq : q ∈ rs) : ∃ d, d ∈ ds ∧ Settles d q := by
  induction h with
  | nil => cases hq
  | cons hab _ ih =>
    rcases List.mem_cons.1 hq with rfl | hq1
    · exact ⟨_, List.mem_cons_self _ _, hab⟩
    · obtain ⟨d, hd, hs⟩ := ih hq1
      exact ⟨d, List.mem_cons_of_mem _ hd, hs⟩

/-- A call whose recorded pairs already settle the desired pairs touches
nothing and returns the recorded pairs. -/
theorem atomic_settled (path : String) {ds rs : PortPairs} (h : List.Forall₂ Settles ds rs)
    (hnd : (ds.map fun d => d.Internal).Nodup) (fs : Markers) (chan : List Port) :
    AtomicReserveExternalPorts path ds rs fs chan =
      { pairs := rs, err := none, fs := fs, ports := chan, working := rs.map adopted,
        unreserve := [] } := by
  have hloop := reuseExisting_settled h hnd [] (by simp) []
  simp only [List.nil_append] at hloop
  have hnz : ∀ x ∈ rs.map adopted, x.External ≠ 0 := by
    intro x hx
    obtain ⟨q, hq, rfl⟩ := List.mem_map.1 hx
    obtain ⟨d, _, hdq⟩ := settles_mem_right h hq
    exact hdq.2.1
  have hex : ∀ x ∈ rs.map adopted, x.exists_ = true := by
    intro x hx
    obtain ⟨q, _, rfl⟩ := List.mem_map.1 hx
    rfl
  unfold AtomicReserveExternalPorts portReservations.reuse portReservations.reserve
  simp [hloop, allocateMissing_id _ chan hnz, reserveLinks_exists path _ fs hex, releasePorts,
    adopted, Function.comp_def]

/-! ## Persistence failures (C1, C2) -/

/-- C1: a call for the pairs 80:8080, 81:8081, 82:8082 while the marker of 8081
is already on disk creates the marker of 8080, fails to create the one of 8081
(the second of three), and nevertheless returns a nil error with the three
pairs; nothing is rolled back: the marker of 8080, absent before the call, is
still there after it, and its entry is still flagged `allocated`. -/
theorem reserve_link_failure_not_rolled_back :
    (symlink (markersOf [(8080, "b"), (8081, "a")]) "b" 8081).isNone = true ∧
    (AtomicReserveExternalPorts "b" [⟨80, 8080⟩, ⟨81, 8081⟩, ⟨82, 8082⟩] []
      (markersOf [(8081, "a")]) []).err = none ∧
    (AtomicReserveExternalPorts "b" [⟨80, 8080⟩, ⟨81, 8081⟩, ⟨82, 8082⟩] []
      (markersOf [(8081, "a")]) []).pairs = [⟨80, 8080⟩, ⟨81, 8081⟩, ⟨82, 8082⟩] ∧
    (AtomicReserveExternalPorts "b" [⟨80, 8080⟩, ⟨81, 8081⟩, ⟨82, 8082⟩] []
      (markersOf [(8081, "a")]) []).working.map (fun res => res.allocated) = [true, false, false] ∧
    markersOf [(8081, "a")] 8080 = none ∧
    (AtomicReserveExternalPorts "b" [⟨80, 8080⟩, ⟨81, 8081⟩, ⟨82, 8082⟩] []
      (markersOf [(8081, "a")]) []).fs 8080 = some "b" ∧
    (AtomicReserveExternalPorts "b" [⟨80, 8080⟩, ⟨81, 8081⟩, ⟨82, 8082⟩] []
      (markersOf [(8081, "a")]) []).fs 8081 = some "a" ∧
    (AtomicReserveExternalPorts "b" [⟨80, 8080⟩, ⟨81, 8081⟩, ⟨82, 8082⟩] []
      (markersOf [(8081, "a")]) []).fs 8082 = none := by
  decide

/-- C2: a call that asks for the specific external port 8080, not recorded in
the (empty) existing pairs, while the marker of 8080 is on disk and points at
another workload, fails to create the marker and nevertheless returns a nil
error and reports 80:8080 as reserved; the marker still points at the other
workload. -/
theorem reserve_lost_conflict_reported_as_success :
    (symlink (markersOf [(8080, "other")]) "mine" 8080).isNone = true ∧
    (AtomicReserveExternalPorts "mine" [⟨80, 8080⟩] [] (markersOf [(8080, "other")]) []).err
      = none ∧
    (AtomicReserveExternalPorts "mine" [⟨80, 8080⟩] [] (markersOf [(8080, "other")]) []).pairs
      = [⟨80, 8080⟩] ∧
    (AtomicReserveExternalPorts "mine" [⟨80, 8080⟩] [] (markersOf [(8080, "other")]) []).fs 8080
      = some "other" := by
  decide

/-! ## Idempotence (C3) -/

/-- C3, as stated, fails: for the desired pairs 80:0, 80:0 the first call
succeeds with 80:9000, 80:9001, and the second call, given that result as the
existing pairs, returns the error for a doubly recorded internal port 80. -/
theorem reserve_not_idempotent_on_repeated_internal :
    (AtomicReserveExternalPorts "u" [⟨80, 0⟩, ⟨80, 0⟩] [] (markersOf []) [9000, 9001]).err
      = none ∧
    (AtomicReserveExternalPorts "u" [⟨80, 0⟩, ⟨80, 0⟩] [] (markersOf []) [9000, 9001]).pairs
      = [⟨80, 9000⟩, ⟨80, 9001⟩] ∧
    (AtomicReserveExternalPorts "u" [⟨80, 0⟩, ⟨80, 0⟩]
      (AtomicReserveExternalPorts "u" [⟨80, 0⟩, ⟨80, 0⟩] [] (markersOf []) [9000, 9001]).pairs
      (AtomicReserveExternalPorts "u" [⟨80, 0⟩, ⟨80, 0⟩] [] (markersOf []) [9000, 9001]).fs
      (AtomicReserveExternalPorts "u" [⟨80, 0⟩, ⟨80, 0⟩] [] (markersOf []) [9000, 9001]).ports).err
      = some (ReserveError.duplicateInternal 80) := by
  decide

/-- C3 (amended): when the internal ports of the desired pairs are pairwise
distinct and a call succeeds with result `r`, the same call with `r` as the
existing pairs, run on the marker tree and the allocator channel the first
call left, succeeds and returns `r`; the marker tree and the channel are
unchanged, the unreserve list is empty, and every working entry is the
recorded pair flagged `exists`, neither `reserved` (no port drawn) nor
`allocated` (no marker created). -/
theorem reserve_idempotent (path : String) (desired existing0 : PortPairs) (fs : Markers)
    (chan : List Port) (hnd : (desired.map fun d => d.Internal).Nodup)
    (hok : (AtomicReserveExternalPorts path desired existing0 fs chan).err = none) :
    AtomicReserveExternalPorts path desired
        (AtomicReserveExternalPorts path desired existing0 fs chan).pairs
        (AtomicReserveExternalPorts path desired existing0 fs chan).fs
        (AtomicReserveExternalPorts path desired existing0 fs chan).ports =
      { pairs := (AtomicReserveExternalPorts path desired existing0 fs chan).pairs,
        err := none,
        fs := (AtomicReserveExternalPorts path desired existing0 fs chan).fs,
        ports := (AtomicReserveExternalPorts path desired existing0 fs chan).ports,
        working := (AtomicReserveExternalPorts path desired existing0 fs chan).pairs.map
          fun q => { toPortPair := q, reserved := false, allocated := false, exists_ := true },
        unreserve := [] } :=
  atomic_settled path (atomic_ok_settles path desired existing0 fs chan hok) hnd _ _

/-- Witness of `reserve_idempotent`: desired 80:0, 443:8443 with 80:8080
recorded and one port on the allocator channel. -/
theorem reserve_idempotent_witness :
    ([⟨80, 0⟩, ⟨443, 8443⟩, ⟨22, 0⟩].map fun d : PortPair => d.Internal).Nodup ∧
    (AtomicReserveExternalPorts "u" [⟨80, 0⟩, ⟨443, 8443⟩, ⟨22, 0⟩] [⟨80, 8080⟩]
      (markersOf [(8080, "u")]) [9000]).err = none ∧
    AtomicReserveExternalPorts "u" [⟨80, 0⟩, ⟨443, 8443⟩, ⟨22, 0⟩]
        (AtomicReserveExternalPorts "u" [⟨80, 0⟩, ⟨443, 8443⟩, ⟨22, 0⟩] [⟨80, 8080⟩]
          (markersOf [(8080, "u")]) [9000]).pairs
        (AtomicReserveExternalPorts "u" [⟨80, 0⟩, ⟨443, 8443⟩, ⟨22, 0⟩] [⟨80, 8080⟩]
          (markersOf [(8080, "u")]) [9000]).fs
        (AtomicReserveExternalPorts "u" [⟨80, 0⟩, ⟨443, 8443⟩, ⟨22, 0⟩] [⟨80, 8080⟩]
          (markersOf [(8080, "u")]) [9000]).ports =
      { pairs := (AtomicReserveExternalPorts "u" [⟨80, 0⟩, ⟨443, 8443⟩, ⟨22, 0⟩] [⟨80, 8080⟩]
          (markersOf [(8080, "u")]) [9000]).pairs,
        err := none,
        fs := (AtomicReserveExternalPorts "u" [⟨80, 0⟩, ⟨443, 8443⟩, ⟨22, 0⟩] [⟨80, 8080⟩]
          (markersOf [(8080, "u")]) [9000]).fs,
        ports := (AtomicReserveExternalPorts "u" [⟨80, 0⟩, ⟨443, 8443⟩, ⟨22, 0⟩] [⟨80, 8080⟩]
          (markersOf [(8080, "u")]) [9000]).ports,
        working := (AtomicReserveExternalPorts "u" [⟨80, 0⟩, ⟨443, 8443⟩, ⟨22, 0⟩] [⟨80, 8080⟩]
          (markersOf [(8080, "u")]) [9000]).pairs.map
          fun q => { toPortPair := q, reserved := false, allocated := false, exists_ := true },
        unreserve := [] } :=
  ⟨by decide, by decide,
    reserve_idempotent "u" [⟨80, 0⟩, ⟨443, 8443⟩, ⟨22, 0⟩] [⟨80, 8080⟩]
      (markersOf [(8080, "u")]) [9000] (by decide) (by decide)⟩

/-! ## The reuse loop in closed form -/

theorem reuseInner_ok (ex : PortPair) (p : portReservations) (u : List Port) (m : Bool)
    (h : ∀ x ∈ p, x.Internal = ex.Internal → x.exists_ = false) :
    reuseInner ex p u m =
      { p := p.map (stepEntry ex),
        unreserve := u ++ (p.filter (disagrees ex)).map (fun _ => ex.External),
        matched := m || p.any (fun x => decide (x.Internal = ex.Internal)),
        err := none } := by
  induction p generalizing u m with
  | nil => simp [reuseInner]
  | cons res rest ih =>
    have hrest : ∀ x ∈ rest, x.Internal = ex.Internal → x.exists_ = false :=
      fun x hx => h x (List.mem_cons_of_mem _ hx)
    by_cases h1 : res.Internal = ex.Internal
    · have h2 : res.exists_ = false := h res (List.mem_cons_self _ _) h1
      by_cases h3 : res.External = 0
      · simp [reuseInner, h1, h2, h3, ih _ _ hrest, stepEntry, disagrees]
      · by_cases h4 : res.External = ex.External
        · have h5 : ex.External ≠ 0 := h4 ▸ h3
          simp [reuseInner, h1, h2, h4, h5, ih _ _ hrest, stepEntry, disagrees]
        · simp [reuseInner, h1, h2, h3, h4, ih _ _ hrest, stepEntry, disagrees]
    · simp [reuseInner, h1, ih _ _ hrest, stepEntry, disagrees]

theorem reuseExisting_cons_ok (ex : PortPair) (rest : PortPairs) (p : portReservations)
    (u : List Port) (h : ∀ x ∈ p, x.Internal = ex.Internal → x.exists_ = false) :
    reuseExisting (ex :: rest) p u =
      reuseExisting rest (p.map (stepEntry ex))
        ((u ++ (p.filter (disagrees ex)).map (fun _ => ex.External)) ++
          if p.any (fun x => decide (x.Internal = ex.Internal)) then [] else [ex.External]) := by
  rw [reuseExisting, reuseInner_ok ex p u false h]
  by_cases hm : p.any (fun x => decide (x.Internal = ex.Internal)) = true
  · simp [hm]
  · simp only [Bool.not_eq_true] at hm
    simp [hm]

theorem stepEntry_internal (ex : PortPair) (x : portReservation) :
    (stepEntry ex x).Internal = x.Internal := by
  unfold stepEntry
  split_ifs <;> rfl

theorem stepEntry_other (ex : PortPair) (x : portReservation) (h : x.Internal ≠ ex.Internal) :
    stepEntry ex x = x := by
  simp [stepEntry, h]

theorem stepEntry_exists (ex : PortPair) (x : portReservation)
    (h : (stepEntry ex x).exists_ = true) : x.exists_ = true ∨ x.Internal = ex.Internal := by
  by_cases h1 : x.Internal = ex.Internal
  · exact Or.inr h1
  · rw [stepEntry_other ex x h1] at h
    exact Or.inl h

theorem fresh_head {ex : PortPair} {rest : PortPairs} {p : portReservations}
    (h : Fresh (ex :: rest) p) : ∀ x ∈ p, x.Internal = ex.Internal → x.exists_ = false := by
  intro x hx hxe
  by_contra hne
  have ht : x.exists_ = true := by simpa using hne
  exact h x hx ht (by simp [hxe])

theorem fresh_step {ex : PortPair} {rest : PortPairs} {p : portReservations}
    (hnd : ((ex :: rest).map fun q => q.Internal).Nodup) (h : Fresh (ex :: rest) p) :
    Fresh rest (p.map (stepEntry ex)) := by
  intro y hy hye
  obtain ⟨x, hx, rfl⟩ := List.mem_map.1 hy
  rw [stepEntry_internal]
  rw [List.map_cons, List.nodup_cons] at hnd
  rcases stepEntry_exists ex x hye with hx1 | hx1
  · intro hmem
    exact h x hx hx1 (List.mem_cons_of_mem _ hmem)
  · rw [hx1]
    exact hnd.1

/-- An entry whose internal port no existing pair of `exs` has is left alone by
the reuse loop, and a port that is no external port of `exs` does not get on
the unreserve list. -/
theorem reuseExisting_frame (exs : PortPairs) (p : portReservations) (u : List Port) (i : Nat)
    (a : portReservation) (e : Port) (hnd : (exs.map fun q => q.Internal).Nodup)
    (hfresh : Fresh exs p) (hi : p[i]? = some a)
    (ha : a.Internal ∉ exs.map (fun q => q.Internal)) (he : e ∉ exs.map (fun q => q.External))
    (hu : e ∉ u) :
    (reuseExisting exs p u).err = none ∧ (reuseExisting exs p u).p[i]? = some a ∧
      e ∉ (reuseExisting exs p u).unreserve := by
  induction exs generalizing p u with
  | nil => simp [reuseExisting, hi, hu]
  | cons ex rest ih =>
    rw [reuseExisting_cons_ok ex rest p u (fresh_head hfresh)]
    simp only [List.map_cons, List.mem_cons, not_or] at ha he
    apply ih
    · exact (List.nodup_cons.1 hnd).2
    · exact fresh_step hnd hfresh
    · rw [List.getElem?_map, hi]
      simp [stepEntry_other ex a ha.1]
    · exact ha.2
    · exact he.2
    · simp only [List.mem_append, List.mem_map, not_or]
      refine ⟨⟨hu, ?_⟩, ?_⟩
      · rintro ⟨_, _, h⟩
        exact he.1 h.symm
      · split_ifs
        · simp
        · simpa using he.1

/-- The reuse loop gives an entry without external port the external port `e`
recorded for its internal port `n`, and keeps `e` off the unreserve list. -/
theorem reuseExisting_adopts (exs : PortPairs) (p : portReservations) (u : List Port) (i : Nat)
    (x0 : portReservation) (n e : Port) (hnd : (exs.map fun q => q.Internal).Nodup)
    (hne : (exs.map fun q => q.External).Nodup) (hfresh : Fresh exs p) (hi : p[i]? = some x0)
    (hn : x0.Internal = n) (hz : x0.External = 0)
    (hmem : (⟨n, e⟩ : PortPair) ∈ exs)
    (hreq : ∀ x ∈ p, x.Internal = n → x.External = 0 ∨ x.External = e) (hu : e ∉ u) :
    (reuseExisting exs p u).err = none ∧
      (reuseExisting exs p u).p[i]? = some { x0 with External := e, exists_ := true } ∧
      e ∉ (reuseExisting exs p u).unreserve := by
  induction exs generalizing p u with
  | nil => cases hmem
  | cons ex rest ih =>
    rw [reuseExisting_cons_ok ex rest p u (fresh_head hfresh)]
    have hnd1 : ex.Internal ∉ rest.map (fun q => q.Internal) ∧
        (rest.map fun q => q.Internal).Nodup := List.nodup_cons.1 hnd
    have hne1 : ex.External ∉ rest.map (fun q => q.External) ∧
        (rest.map fun q => q.External).Nodup := List.nodup_cons.1 hne
    have hx0 : x0 ∈ p := List.mem_iff_getElem?.2 ⟨i, hi⟩
    rcases List.mem_cons.1 hmem with heq | hrest
    · subst heq
      apply reuseExisting_frame
      · exact hnd1.2
      · exact fresh_step hnd hfresh
      · rw [List.getElem?_map, hi]
        simp [stepEntry, hn, hz]
      · simpa [hn] using hnd1.1
      · exact hne1.1
      · have hfil : p.filter (disagrees ⟨n, e⟩) = [] := by
          rw [List.filter_eq_nil_iff]
          intro x hxp
          simp only [disagrees, decide_eq_true_eq, not_and]
          intro h1 h2 h3
          rcases hreq x hxp h1 with h | h
          · exact h2 h
          · exact h3 h
        have hany : p.any (fun x => decide (x.Internal = n)) = true :=
          List.any_eq_true.2 ⟨x0, hx0, by simp [hn]⟩
        simp [hfil, hany, hu]
    · have hin : n ∈ rest.map (fun q => q.Internal) := List.mem_map.2 ⟨_, hrest, rfl⟩
      have hie : e ∈ rest.map (fun q => q.External) := List.mem_map.2 ⟨_, hrest, rfl⟩
      have h1 : ex.Internal ≠ n := fun h => hnd1.1 (h ▸ hin)
      have h2 : ex.External ≠ e := fun h => hne1.1 (h ▸ hie)
      apply ih
      · exact hnd1.2
      · exact hne1.2
      · exact fresh_step hnd hfresh
      · rw [List.getElem?_map, hi]
        simp [stepEntry_other ex x0 (by rw [hn]; exact fun h => h1 h.symm)]
      · exact hrest
      · intro y hy hyn
        obtain ⟨x, hxp, rfl⟩ := List.mem_map.1 hy
        rw [stepEntry_internal] at hyn
        rw [stepEntry_other ex x (by rw [hyn]; exact fun h => h1 h.symm)]
        exact hreq x hxp hyn
      · simp only [List.mem_append, List.mem_map, not_or]
        refine ⟨⟨hu, ?_⟩, ?_⟩
        · rintro ⟨_, _, h⟩
          exact h2 h
        · split_ifs
          · simp
          · simpa using fun h => h2 h.symm

theorem allocateMissing_get (p : portReservations) (ports : List Port) (i : Nat)
    (a : portReservation) (hi : p[i]? = some a) (ha : a.External ≠ 0) :
    (allocateMissing p ports).p[i]? = some a := by
  induction p generalizing ports i with
  | nil => simp at hi
  | cons res rest ih =>
    cases i with
    | zero =>
      simp only [List.getElem?_cons_zero, Option.some.injEq] at hi
      subst hi
      simp [allocateMissing, ha]
    | succ k =>
      simp only [List.getElem?_cons_succ] at hi
      simp only [allocateMissing]
      split_ifs
      · simpa using hi
      · simpa using ih _ k hi
      · simpa using ih _ k hi

theorem reserveLinks_get (path : String) (p : portReservations) (fs : Markers) (i : Nat)
    (a : portReservation) (hi : p[i]? = some a) (ha : a.exists_ = true) :
    (reserveLinks path p fs).1[i]? = some a := by
  induction p generalizing fs i with
  | nil => simp at hi
  | cons res rest ih =>
    cases i with
    | zero =>
      simp only [List.getElem?_cons_zero, Option.some.injEq] at hi
      subst hi
      simp [reserveLinks, ha]
    | succ k =>
      simp only [List.getElem?_cons_succ] at hi
      simp only [reserveLinks]
      split_ifs
      · split
        · simpa using hi
        · simpa using ih _ k hi
      · simpa using ih _ k hi

theorem allocateMissing_err (p : portReservations) (ports : List Port) :
    (allocateMissing p ports).err = none ∨
      (allocateMissing p ports).err = some ReserveError.allocationFailed := by
  induction p generalizing ports with
  | nil => simp [allocateMissing]
  | cons res rest ih =>
    simp only [allocateMissing]
    split_ifs
    · exact Or.inr rfl
    · exact ih _
    · exact ih _

/-! ## Reuse of a recorded external port (C4) -/

/-- C4, as stated, fails in two ways, both with existing pairs whose internal
and whose external ports are pairwise distinct.  With desired 80:0, 80:9999
and existing 80:8080 the first entry reuses 8080 and 8080 is nevertheless put
on the unreserve list.  With desired 80:0 and existing 80:0 the entry takes the
recorded external port 0 and then draws port 9000 from the allocator. -/
theorem reuse_recorded_port_counterexample :
    ((portReservations.reuse (PortPairs.reserve [⟨80, 0⟩, ⟨80, 9999⟩]) [⟨80, 8080⟩] []).p.map
        (fun res => res.toPortPair) = [⟨80, 8080⟩, ⟨80, 9999⟩] ∧
      8080 ∈ (portReservations.reuse (PortPairs.reserve [⟨80, 0⟩, ⟨80, 9999⟩])
        [⟨80, 8080⟩] []).unreserve) ∧
    ((portReservations.reuse (PortPairs.reserve [⟨80, 0⟩]) [⟨80, 0⟩] [9000]).p =
        [{ Internal := 80, External := 9000, reserved := true, allocated := false,
           exists_ := true }] ∧
      (portReservations.reuse (PortPairs.reserve [⟨80, 0⟩]) [⟨80, 0⟩] [9000]).ports = []) := by
  decide

/-- C4 (amended): let the internal ports of the existing pairs be pairwise
distinct and their external ports pairwise distinct, let the desired pair at
index `i` be `n:0`, let `n:e` be an existing pair with `e` non-zero, and let no
desired pair with internal port `n` ask for an external port other than 0 and
`e`.  Then the reuse pass does not report a doubly recorded internal port,
leaves entry `i` as `n:e` flagged `exists` and not `reserved` (no port was
drawn for it) whatever the allocator delivers, and keeps `e` off the unreserve
list; and the whole call leaves entry `i` not `allocated` (no marker was
created for it). -/
theorem reuse_adopts_recorded_port (path : String) (desired existing : PortPairs) (fs : Markers)
    (chan : List Port) (i : Nat) (n e : Port)
    (hnd : (existing.map fun q => q.Internal).Nodup)
    (hne : (existing.map fun q => q.External).Nodup)
    (hi : desired[i]? = some ⟨n, 0⟩) (hmem : (⟨n, e⟩ : PortPair) ∈ existing) (he : e ≠ 0)
    (hreq : ∀ d ∈ desired, d.Internal = n → d.External = 0 ∨ d.External = e) :
    ((portReservations.reuse (PortPairs.reserve desired) existing chan).err = none ∨
      (portReservations.reuse (PortPairs.reserve desired) existing chan).err =
        some ReserveError.allocationFailed) ∧
    (portReservations.reuse (PortPairs.reserve desired) existing chan).p[i]? =
      some { Internal := n, External := e, reserved := false, allocated := false,
             exists_ := true } ∧
    e ∉ (portReservations.reuse (PortPairs.reserve desired) existing chan).unreserve ∧
    (AtomicReserveExternalPorts path desired existing fs chan).working[i]? =
      some { Internal := n, External := e, reserved := false, allocated := false,
             exists_ := true } := by
  have hfresh : Fresh existing (PortPairs.reserve desired) := by
    intro x hx hxe
    simp only [PortPairs.reserve, List.mem_map] at hx
    obtain ⟨d, _, rfl⟩ := hx
    simp at hxe
  have hi0 : (PortPairs.reserve desired)[i]? =
      some { Internal := n, External := 0, reserved := false, allocated := false,
             exists_ := false } := by
    simp [PortPairs.reserve, List.getElem?_map, hi]
  have hreq0 : ∀ x ∈ PortPairs.reserve desired, x.Internal = n →
      x.External = 0 ∨ x.External = e := by
    intro x hx hxn
    simp only [PortPairs.reserve, List.mem_map] at hx
    obtain ⟨d, hd, rfl⟩ := hx
    exact hreq d hd hxn
  obtain ⟨h1, h2, h3⟩ := reuseExisting_adopts existing (PortPairs.reserve desired) [] i _ n e
    hnd hne hfresh hi0 rfl rfl hmem hreq0 (by simp)
  have h4 := allocateMissing_get _ chan i _ h2 he
  have h5 := allocateMissing_err (reuseExisting existing (PortPairs.reserve desired) []).p chan
  have hreuse : portReservations.reuse (PortPairs.reserve desired) existing chan =
      { p := (allocateMissing (reuseExisting existing (PortPairs.reserve desired) []).p chan).p,
        unreserve := (reuseExisting existing (PortPairs.reserve desired) []).unreserve,
        ports := (allocateMissing (reuseExisting existing (PortPairs.reserve desired) []).p
          chan).ports,
        err := (allocateMissing (reuseExisting existing (PortPairs.reserve desired) []).p
          chan).err } := by
    simp [portReservations.reuse, h1]
  refine ⟨by rw [hreuse]; exact h5, by rw [hreuse]; exact h4, by rw [hreuse]; exact h3, ?_⟩
  simp only [AtomicReserveExternalPorts, hreuse]
  rcases h5 with h5 | h5
  · simp only [h5, portReservations.reserve]
    exact reserveLinks_get path _ fs i _ h4 rfl
  · simp only [h5]
    exact h4

/-- Witness of `reuse_adopts_recorded_port`: existing 80:8080, desired 80:0. -/
theorem reuse_adopts_recorded_port_witness :
    ([⟨80, 8080⟩].map fun q : PortPair => q.Internal).Nodup ∧
    ([⟨80, 8080⟩].map fun q : PortPair => q.External).Nodup ∧
    ([⟨80, 0⟩] : PortPairs)[0]? = some ⟨80, 0⟩ ∧
    (⟨80, 8080⟩ : PortPair) ∈ ([⟨80, 8080⟩] : PortPairs) ∧
    ((portReservations.reuse (PortPairs.reserve [⟨80, 0⟩]) [⟨80, 8080⟩] [9000]).err = none ∨
      (portReservations.reuse (PortPairs.reserve [⟨80, 0⟩]) [⟨80, 8080⟩] [9000]).err =
        some ReserveError.allocationFailed) ∧
    (portReservations.reuse (PortPairs.reserve [⟨80, 0⟩]) [⟨80, 8080⟩] [9000]).p[0]? =
      some { Internal := 80, External := 8080, reserved := false, allocated := false,
             exists_ := true } ∧
    8080 ∉ (portReservations.reuse (PortPairs.reserve [⟨80, 0⟩]) [⟨80, 8080⟩] [9000]).unreserve ∧
    (AtomicReserveExternalPorts "u" [⟨80, 0⟩] [⟨80, 8080⟩] (markersOf [(8080, "u")])
      [9000]).working[0]? =
      some { Internal := 80, External := 8080, reserved := false, allocated := false,
             exists_ := true } :=
  ⟨by decide, by decide, by decide, by decide,
    reuse_adopts_recorded_port "u" [⟨80, 0⟩] [⟨80, 8080⟩] (markersOf [(8080, "u")]) [9000] 0 80
      8080 (by decide) (by decide) (by decide) (by decide) (by decide) (by decide)⟩

/-! ## Contents of the unreserve list (C5) -/

theorem reuseInner_err_none (ex : PortPair) (p : portReservations) (u : List Port) (m : Bool)
    (h : (reuseInner ex p u m).err = none) :
    ∀ x ∈ p, x.Internal = ex.Internal → x.exists_ = false := by
  induction p generalizing u m with
  | nil => simp
  | cons res rest ih =>
    intro x hx hxe
    by_cases h1 : res.Internal = ex.Internal
    · by_cases h2 : res.exists_ = true
      · simp [reuseInner, h1, h2] at h
      · rcases List.mem_cons.1 hx with rfl | hx
        · simpa using h2
        · simp only [reuseInner, h1, h2, if_true] at h
          split_ifs at h
          all_goals exact ih _ _ h x hx hxe
    · rcases List.mem_cons.1 hx with rfl | hx
      · exact absurd hxe h1
      · simp only [reuseInner, h1, if_false] at h
        exact ih _ _ h x hx hxe

theorem reuseExisting_err_none_head (ex : PortPair) (rest : PortPairs) (p : portReservations)
    (u : List Port) (h : (reuseExisting (ex :: rest) p u).err = none) :
    ∀ x ∈ p, x.Internal = ex.Internal → x.exists_ = false := by
  apply reuseInner_err_none ex p u false
  rw [reuseExisting] at h
  cases he : (reuseInner ex p u false).err with
  | none => rfl
  | some e => simp [he] at h

theorem filter_unique (p : portReservations) (hnd : (p.map fun x => x.Internal).Nodup)
    (x : portReservation) (hx : x ∈ p) (q : portReservation → Bool)
    (hq : ∀ y, q y = true → y.Internal = x.Internal) :
    p.filter q = if q x = true then [x] else [] := by
  have hsub : ∀ y ∈ p.filter q, y = x := by
    intro y hy
    rw [List.mem_filter] at hy
    exact List.inj_on_of_nodup_map hnd hy.1 hx (hq y hy.2)
  have hnd2 : (p.filter q).Nodup := (List.Nodup.of_map _ hnd).filter _
  by_cases hqx : q x = true
  · rw [if_pos hqx]
    have hmem : x ∈ p.filter q := List.mem_filter.2 ⟨hx, hqx⟩
    cases hl : p.filter q with
    | nil => rw [hl] at hmem; cases hmem
    | cons a l =>
      rw [hl] at hsub hnd2
      have ha : a = x := hsub a (List.mem_cons_self _ _)
      cases l with
      | nil => rw [ha]
      | cons b l2 =>
        have hb : b = x := hsub b (by simp)
        rw [ha, hb] at hnd2
        simp at hnd2
  · rw [if_neg hqx]
    rw [List.filter_eq_nil_iff]
    intro y hy hqy
    have : y = x := List.inj_on_of_nodup_map hnd hy hx (hq y hqy)
    exact hqx (this ▸ hqy)

/-- One existing pair adds its external port to the unreserve list exactly when
it is stale. -/
theorem unreserve_increment (desired : PortPairs) (p : portReservations) (ex : PortPair)
    (hnd : (desired.map fun d => d.Internal).Nodup)
    (hmap : p.map (fun x => x.Internal) = desired.map (fun d => d.Internal))
    (hfalse : ∀ x ∈ p, x.exists_ = false → x.toPortPair ∈ desired)
    (hok : ∀ x ∈ p, x.Internal = ex.Internal → x.exists_ = false) :
    ((p.filter (disagrees ex)).map (fun _ => ex.External) ++
      if p.any (fun x => decide (x.Internal = ex.Internal)) then [] else [ex.External]) =
      if stale desired ex = true then [ex.External] else [] := by
  by_cases hm : ∃ x ∈ p, x.Internal = ex.Internal
  · obtain ⟨x, hx, hxe⟩ := hm
    have hany : p.any (fun x => decide (x.Internal = ex.Internal)) = true :=
      List.any_eq_true.2 ⟨x, hx, by simpa using hxe⟩
    have hd : x.toPortPair ∈ desired := hfalse x hx (hok x hx hxe)
    have hfil := filter_unique p (hmap ▸ hnd) x hx (disagrees ex) (by
      intro y hy
      simp only [disagrees, decide_eq_true_eq] at hy
      rw [hy.1, hxe])
    have hst : stale desired ex = disagrees ex x := by
      cases hdis : disagrees ex x with
      | true =>
        simp only [disagrees, decide_eq_true_eq] at hdis
        simp only [stale, Bool.or_eq_true, List.any_eq_true, decide_eq_true_eq]
        exact Or.inr ⟨x.toPortPair, hd, hdis⟩
      | false =>
        simp only [disagrees, decide_eq_false_iff_not] at hdis
        simp only [stale, Bool.or_eq_false_iff, List.any_eq_false, decide_eq_true_eq]
        constructor
        · rw [Bool.eq_false_iff]
          intro hall
          rw [List.all_eq_true] at hall
          have := hall x.toPortPair hd
          simp only [decide_eq_true_eq] at this
          exact this hxe
        · intro d hdm hdd
          have hdx : d = x.toPortPair :=
            List.inj_on_of_nodup_map hnd hdm hd (by rw [hdd.1, ← hxe])
          rw [hdx] at hdd
          exact hdis hdd
    rw [hfil, hany, hst]
    cases disagrees ex x <;> simp
  · have hany : p.any (fun x => decide (x.Internal = ex.Internal)) = false := by
      rw [List.any_eq_false]
      intro x hx hxe
      exact hm ⟨x, hx, by simpa using hxe⟩
    have hfil : p.filter (disagrees ex) = [] := by
      rw [List.filter_eq_nil_iff]
      intro x hx hdis
      simp only [disagrees, decide_eq_true_eq] at hdis
      exact hm ⟨x, hx, hdis.1⟩
    have hst : stale desired ex = true := by
      simp only [stale, Bool.or_eq_true, List.all_eq_true, decide_eq_true_eq]
      left
      intro d hdm hde
      have : d.Internal ∈ p.map (fun x => x.Internal) := by
        rw [hmap]
        exact List.mem_map.2 ⟨d, hdm, rfl⟩
      obtain ⟨x, hx, hxd⟩ := List.mem_map.1 this
      exact hm ⟨x, hx, hxd.trans hde⟩
    rw [hfil, hany, hst]
    simp

theorem stepEntry_not_exists (ex : PortPair) (x : portReservation)
    (h : (stepEntry ex x).exists_ = false) : stepEntry ex x = x := by
  unfold stepEntry at h ⊢
  split_ifs at h ⊢ <;> simp_all

/-- The unreserve list of a reuse loop that reports no error, run on a working
set whose untouched entries are desired pairs. -/
theorem reuseExisting_unreserve (desired : PortPairs) (exs : PortPairs) (p : portReservations)
    (u : List Port) (hnd : (desired.map fun d => d.Internal).Nodup)
    (hmap : p.map (fun x => x.Internal) = desired.map (fun d => d.Internal))
    (hfalse : ∀ x ∈ p, x.exists_ = false → x.toPortPair ∈ desired)
    (hok : (reuseExisting exs p u).err = none) :
    (reuseExisting exs p u).unreserve = u ++ unreserveSpec desired exs := by
  induction exs generalizing p u with
  | nil => simp [reuseExisting, unreserveSpec]
  | cons ex rest ih =>
    have hhead := reuseExisting_err_none_head ex rest p u hok
    rw [reuseExisting_cons_ok ex rest p u hhead] at hok ⊢
    rw [ih _ _ _ _ hok]
    · rw [List.append_assoc u, unreserve_increment desired p ex hnd hmap hfalse hhead]
      simp only [unreserveSpec, List.filter_cons]
      split_ifs <;> simp
    · rw [List.map_map, ← hmap]
      apply List.map_congr_left
      intro x _
      exact stepEntry_internal ex x
    · intro y hy hye
      obtain ⟨x, hx, rfl⟩ := List.mem_map.1 hy
      have hsame := stepEntry_not_exists ex x hye
      rw [hsame] at hye ⊢
      exact hfalse x hx hye

theorem keeps_get {a b : portReservations} (h : List.Forall₂ Keeps a b) (i : Nat)
    (x : portReservation) (hi : a[i]? = some x) : ∃ y, b[i]? = some y ∧ Keeps x y := by
  induction h generalizing i with
  | nil => simp at hi
  | cons hxy _ ih =>
    cases i with
    | zero =>
      simp only [List.getElem?_cons_zero, Option.some.injEq] at hi
      subst hi
      exact ⟨_, by simp, hxy⟩
    | succ k =>
      simp only [List.getElem?_cons_succ] at hi ⊢
      exact ih k hi

theorem reuse_keeps (p : portReservations) (existing : PortPairs) (chan : List Port) :
    List.Forall₂ Keeps p (portReservations.reuse p existing chan).p := by
  unfold portReservations.reuse
  cases he : (reuseExisting existing p []).err with
  | some e => simpa [he] using reuseExisting_keeps existing p []
  | none =>
    simpa [he] using keeps_forall₂_trans (reuseExisting_keeps existing p [])
      (allocateMissing_keeps _ chan)

/-- C5: when the internal ports of the desired pairs are pairwise distinct and
the reuse pass succeeds, its unreserve list is, in the order of the existing
pairs, the external port of each existing pair whose internal port matches no
desired pair or whose matching desired pair asks for a different non-zero
external port; and every working entry whose desired pair asks for a non-zero
external port keeps that pair. -/
theorem unreserve_list_contents (desired existing : PortPairs) (chan : List Port)
    (hnd : (desired.map fun d => d.Internal).Nodup)
    (hok : (portReservations.reuse (PortPairs.reserve desired) existing chan).err = none) :
    (portReservations.reuse (PortPairs.reserve desired) existing chan).unreserve =
      unreserveSpec desired existing ∧
    ∀ (i : Nat) (d : PortPair), desired[i]? = some d → d.External ≠ 0 →
      ((portReservations.reuse (PortPairs.reserve desired) existing chan).p[i]?).map
        (fun w => w.toPortPair) = some d := by
  constructor
  · have hloop : (reuseExisting existing (PortPairs.reserve desired) []).err = none := by
      unfold portReservations.reuse at hok
      cases he : (reuseExisting existing (PortPairs.reserve desired) []).err with
      | none => rfl
      | some e => simp [he] at hok
    have hun := reuseExisting_unreserve desired existing (PortPairs.reserve desired) [] hnd
      (by simp [PortPairs.reserve, Function.comp_def])
      (by
        intro x hx _
        simp only [PortPairs.reserve, List.mem_map] at hx
        obtain ⟨d, hd, rfl⟩ := hx
        exact hd)
      hloop
    simp only [portReservations.reuse, hloop, List.nil_append] at hun ⊢
    exact hun
  · intro i d hi hd
    have h0 : (PortPairs.reserve desired)[i]? =
        some { toPortPair := d, reserved := false, allocated := false, exists_ := false } := by
      simp [PortPairs.reserve, List.getElem?_map, hi]
    obtain ⟨y, hy, hk⟩ := keeps_get (reuse_keeps (PortPairs.reserve desired) existing chan) i _ h0
    rw [hy]
    simp only [Option.map_some', Option.some.injEq]
    have h1 : y.Internal = d.Internal := hk.1
    have h2 : y.External = d.External := hk.2 hd
    cases y with
    | mk pair r a e =>
      cases pair
      cases d
      simp_all

/-- Witness of `unreserve_list_contents`: existing 80:8080, 22:2200 and desired
443:0, 22:2222 give the unreserve list 8080, 2200. -/
theorem unreserve_list_contents_witness :
    ([⟨443, 0⟩, ⟨22, 2222⟩].map fun d : PortPair => d.Internal).Nodup ∧
    (portReservations.reuse (PortPairs.reserve [⟨443, 0⟩, ⟨22, 2222⟩])
      [⟨80, 8080⟩, ⟨22, 2200⟩] [9000]).err = none ∧
    unreserveSpec [⟨443, 0⟩, ⟨22, 2222⟩] [⟨80, 8080⟩, ⟨22, 2200⟩] = [8080, 2200] ∧
    ((portReservations.reuse (PortPairs.reserve [⟨443, 0⟩, ⟨22, 2222⟩])
        [⟨80, 8080⟩, ⟨22, 2200⟩] [9000]).unreserve =
      unreserveSpec [⟨443, 0⟩, ⟨22, 2222⟩] [⟨80, 8080⟩, ⟨22, 2200⟩] ∧
    ∀ (i : Nat) (d : PortPair), ([⟨443, 0⟩, ⟨22, 2222⟩] : PortPairs)[i]? = some d →
      d.External ≠ 0 →
      ((portReservations.reuse (PortPairs.reserve [⟨443, 0⟩, ⟨22, 2222⟩])
        [⟨80, 8080⟩, ⟨22, 2200⟩] [9000]).p[i]?).map (fun w => w.toPortPair) = some d) :=
  ⟨by decide, by decide, by decide,
    unreserve_list_contents [⟨443, 0⟩, ⟨22, 2222⟩] [⟨80, 8080⟩, ⟨22, 2200⟩] [9000]
      (by decide) (by decide)⟩

/-! ## Doubly recorded internal port (C6) -/

theorem stepEntry_exists_mono (ex : PortPair) (x : portReservation) (h : x.exists_ = true) :
    (stepEntry ex x).exists_ = true := by
  unfold stepEntry
  split_ifs <;> simp [h]

/-- An entry flagged `exists` whose internal port a later existing pair has
makes the reuse loop fail. -/
theorem reuseExisting_fails_after (exs : PortPairs) (p : portReservations) (u : List Port)
    (x : portReservation) (hx : x ∈ p) (hxe : x.exists_ = true) (ex2 : PortPair)
    (h2 : ex2 ∈ exs) (hint : x.Internal = ex2.Internal) :
    (reuseExisting exs p u).err ≠ none := by
  induction exs generalizing p u x with
  | nil => cases h2
  | cons ex rest ih =>
    intro hnone
    have hhead := reuseExisting_err_none_head ex rest p u hnone
    rw [reuseExisting_cons_ok ex rest p u hhead] at hnone
    rcases List.mem_cons.1 h2 with heq | hmem
    · subst heq
      have := hhead x hx hint
      rw [hxe] at this
      cases this
    · exact ih _ _ (stepEntry ex x) (List.mem_map.2 ⟨x, hx, rfl⟩)
        (stepEntry_exists_mono ex x hxe) hmem (by rw [stepEntry_internal]; exact hint) hnone

/-- A working entry with the internal port of two existing pairs, which is
flagged `exists` or has no external port or the external port of the earlier
one, makes the reuse loop fail. -/
theorem reuseExisting_fails (pre : PortPairs) (ex1 : PortPair) (rest : PortPairs)
    (ex2 : PortPair) (h2 : ex2 ∈ rest) (hsame : ex1.Internal = ex2.Internal)
    (p : portReservations) (u : List Port) (x : portReservation) (hx : x ∈ p)
    (hint : x.Internal = ex1.Internal)
    (hq : x.exists_ = true ∨ x.External = 0 ∨ x.External = ex1.External) :
    (reuseExisting (pre ++ ex1 :: rest) p u).err ≠ none := by
  induction pre generalizing p u x with
  | nil =>
    intro hnone
    rw [List.nil_append] at hnone
    have hhead := reuseExisting_err_none_head ex1 rest p u hnone
    rw [reuseExisting_cons_ok ex1 rest p u hhead] at hnone
    have hfalse : x.exists_ = false := hhead x hx hint
    have hstep : (stepEntry ex1 x).exists_ = true := by
      rcases hq with h | h | h
      · rw [hfalse] at h
        cases h
      · simp [stepEntry, hint, h]
      · by_cases hz : x.External = 0
        · simp [stepEntry, hint, hz]
        · have hz1 : ex1.External ≠ 0 := h ▸ hz
          simp [stepEntry, hint, hz1, h]
    exact reuseExisting_fails_after rest _ _ (stepEntry ex1 x) (List.mem_map.2 ⟨x, hx, rfl⟩)
      hstep ex2 h2 (by rw [stepEntry_internal, hint, hsame]) hnone
  | cons a pre1 ih =>
    intro hnone
    rw [List.cons_append] at hnone
    have hhead := reuseExisting_err_none_head a _ p u hnone
    rw [reuseExisting_cons_ok a _ p u hhead] at hnone
    refine ih _ _ (stepEntry a x) (List.mem_map.2 ⟨x, hx, rfl⟩)
      (by rw [stepEntry_internal]; exact hint) ?_ hnone
    by_cases hs : (stepEntry a x).exists_ = true
    · exact Or.inl hs
    · have hs1 : (stepEntry a x).exists_ = false := by simpa using hs
      rw [stepEntry_not_exists a x hs1]
      exact hq

theorem reuseInner_err_shape (ex : PortPair) (p : portReservations) (u : List Port) (m : Bool) :
    (reuseInner ex p u m).err = none ∨
      ∃ k, (reuseInner ex p u m).err = some (ReserveError.duplicateInternal k) := by
  induction p generalizing u m with
  | nil => simp [reuseInner]
  | cons res rest ih =>
    simp only [reuseInner]
    split_ifs
    · exact Or.inr ⟨_, rfl⟩
    · exact ih _ _
    · exact ih _ _
    · exact ih _ _
    · exact ih _ _

theorem reuseExisting_err_shape (exs : PortPairs) (p : portReservations) (u : List Port) :
    (reuseExisting exs p u).err = none ∨
      ∃ k, (reuseExisting exs p u).err = some (ReserveError.duplicateInternal k) := by
  induction exs generalizing p u with
  | nil => simp [reuseExisting]
  | cons ex rest ih =>
    simp only [reuseExisting]
    rcases reuseInner_err_shape ex p u false with h | ⟨k, h⟩
    · simp only [h]
      split_ifs
      · exact ih _ _
      · exact ih _ _
    · simp only [h]
      exact Or.inr ⟨k, rfl⟩

/-- C6, as stated, fails: with the existing pairs 80:8080 and 80:8081 and the
desired pair 443:0 the call returns a nil error, creates the marker of the
drawn port 9000 and removes the markers of 8080 and 8081. -/
theorem duplicate_existing_not_always_rejected :
    (AtomicReserveExternalPorts "u" [⟨443, 0⟩] [⟨80, 8080⟩, ⟨80, 8081⟩]
      (markersOf [(8080, "u"), (8081, "u")]) [9000]).err = none ∧
    (AtomicReserveExternalPorts "u" [⟨443, 0⟩] [⟨80, 8080⟩, ⟨80, 8081⟩]
      (markersOf [(8080, "u"), (8081, "u")]) [9000]).pairs = [⟨443, 9000⟩] ∧
    (AtomicReserveExternalPorts "u" [⟨443, 0⟩] [⟨80, 8080⟩, ⟨80, 8081⟩]
      (markersOf [(8080, "u"), (8081, "u")]) [9000]).fs 9000 = some "u" ∧
    (AtomicReserveExternalPorts "u" [⟨443, 0⟩] [⟨80, 8080⟩, ⟨80, 8081⟩]
      (markersOf [(8080, "u"), (8081, "u")]) [9000]).fs 8080 = none ∧
    (AtomicReserveExternalPorts "u" [⟨443, 0⟩] [⟨80, 8080⟩, ⟨80, 8081⟩]
      (markersOf [(8080, "u"), (8081, "u")]) [9000]).fs 8081 = none := by
  decide

/-- C6 (amended): if the existing pairs contain `ex1` and, later, `ex2` with the
same internal port, and some desired pair has that internal port and either no
external port or the external port of `ex1`, then the call returns the error
for a doubly recorded internal port, returns the desired pairs as they were,
leaves the marker tree as it was and draws no port. -/
theorem duplicate_existing_rejected (path : String) (desired : PortPairs) (fs : Markers)
    (chan : List Port) (pre mid post : PortPairs) (ex1 ex2 d : PortPair)
    (hsame : ex1.Internal = ex2.Internal) (hd : d ∈ desired)
    (hint : d.Internal = ex1.Internal) (hext : d.External = 0 ∨ d.External = ex1.External) :
    (∃ k, (AtomicReserveExternalPorts path desired (pre ++ ex1 :: (mid ++ ex2 :: post)) fs
      chan).err = some (ReserveError.duplicateInternal k)) ∧
    (AtomicReserveExternalPorts path desired (pre ++ ex1 :: (mid ++ ex2 :: post)) fs chan).pairs
      = desired ∧
    (AtomicReserveExternalPorts path desired (pre ++ ex1 :: (mid ++ ex2 :: post)) fs chan).fs
      = fs ∧
    (AtomicReserveExternalPorts path desired (pre ++ ex1 :: (mid ++ ex2 :: post)) fs chan).ports
      = chan := by
  have hfail := reuseExisting_fails pre ex1 (mid ++ ex2 :: post) ex2 (by simp) hsame
    (PortPairs.reserve desired) []
    { toPortPair := d, reserved := false, allocated := false, exists_ := false }
    (by simp only [PortPairs.reserve, List.mem_map]; exact ⟨d, hd, rfl⟩) hint (Or.inr hext)
  rcases reuseExisting_err_shape (pre ++ ex1 :: (mid ++ ex2 :: post))
      (PortPairs.reserve desired) [] with h | ⟨k, h⟩
  · exact absurd h hfail
  · simp [AtomicReserveExternalPorts, portReservations.reuse, h]

/-- Witness of `duplicate_existing_rejected`: existing 80:8080, 80:8081 and
desired 80:0. -/
theorem duplicate_existing_rejected_witness :
    (⟨80, 8080⟩ : PortPair).Internal = (⟨80, 8081⟩ : PortPair).Internal ∧
    (⟨80, 0⟩ : PortPair) ∈ ([⟨80, 0⟩] : PortPairs) ∧
    ((∃ k, (AtomicReserveExternalPorts "u" [⟨80, 0⟩] ([] ++ ⟨80, 8080⟩ :: ([] ++ ⟨80, 8081⟩ :: []))
      (markersOf [(8080, "u"), (8081, "u")]) [9000]).err =
        some (ReserveError.duplicateInternal k)) ∧
    (AtomicReserveExternalPorts "u" [⟨80, 0⟩] ([] ++ ⟨80, 8080⟩ :: ([] ++ ⟨80, 8081⟩ :: []))
      (markersOf [(8080, "u"), (8081, "u")]) [9000]).pairs = [⟨80, 0⟩] ∧
    (AtomicReserveExternalPorts "u" [⟨80, 0⟩] ([] ++ ⟨80, 8080⟩ :: ([] ++ ⟨80, 8081⟩ :: []))
      (markersOf [(8080, "u"), (8081, "u")]) [9000]).fs = markersOf [(8080, "u"), (8081, "u")] ∧
    (AtomicReserveExternalPorts "u" [⟨80, 0⟩] ([] ++ ⟨80, 8080⟩ :: ([] ++ ⟨80, 8081⟩ :: []))
      (markersOf [(8080, "u"), (8081, "u")]) [9000]).ports = [9000]) :=
  ⟨by decide, by decide,
    duplicate_existing_rejected "u" [⟨80, 0⟩] (markersOf [(8080, "u"), (8081, "u")]) [9000]
      [] [] [] ⟨80, 8080⟩ ⟨80, 8081⟩ ⟨80, 0⟩ (by decide) (by decide) (by decide) (by decide)⟩

/-! ## Allocation exhaustion (C7) -/

/-- The allocation loop fails when one of the values it receives is 0. -/
theorem allocateMissing_fails (p : portReservations) (chan : List Port)
    (h : ∃ m, m < missing p ∧ chan.getD m 0 = 0) :
    (allocateMissing p chan).err = some ReserveError.allocationFailed := by
  induction p generalizing chan with
  | nil =>
    obtain ⟨m, hm, _⟩ := h
    simp [missing] at hm
  | cons res rest ih =>
    obtain ⟨m, hm, hz⟩ := h
    by_cases h1 : res.External = 0
    · by_cases h2 : (allocatePort chan).1 = 0
      · simp [allocateMissing, h1, h2]
      · simp only [allocateMissing, h1, h2, if_true, if_false]
        apply ih
        cases chan with
        | nil => simp [allocatePort] at h2
        | cons c tail =>
          cases m with
          | zero =>
            simp only [allocatePort] at h2
            simp only [List.getD_cons_zero] at hz
            exact absurd hz h2
          | succ k =>
            refine ⟨k, ?_, ?_⟩
            · simp only [missing, List.countP_cons, h1, decide_True, if_true] at hm
              simpa [missing] using hm
            · simpa [allocatePort] using hz
    · simp only [allocateMissing, h1, if_false]
      apply ih
      refine ⟨m, ?_, hz⟩
      simpa [missing, List.countP_cons, h1] using hm

/-- C7: if the reuse loop reports no error and the allocator channel delivers 0
as one of the values drawn for the working entries that still lack an external
port, the call returns `ErrAllocationFailed` together with the desired pairs as
they were, and the marker tree is the one before the call. -/
theorem allocation_exhaustion_atomic (path : String) (desired existing : PortPairs)
    (fs : Markers) (chan : List Port)
    (hloop : (reuseExisting existing (PortPairs.reserve desired) []).err = none)
    (hzero : ∃ m, m < missing (reuseExisting existing (PortPairs.reserve desired) []).p ∧
      chan.getD m 0 = 0) :
    (AtomicReserveExternalPorts path desired existing fs chan).err =
      some ReserveError.allocationFailed ∧
    (AtomicReserveExternalPorts path desired existing fs chan).pairs = desired ∧
    (AtomicReserveExternalPorts path desired existing fs chan).fs = fs := by
  have h := allocateMissing_fails _ chan hzero
  simp [AtomicReserveExternalPorts, portReservations.reuse, hloop, h]

/-- Witness of `allocation_exhaustion_atomic`: two ports are needed and the
second value delivered is 0. -/
theorem allocation_exhaustion_atomic_witness :
    (reuseExisting [⟨22, 2200⟩] (PortPairs.reserve [⟨80, 0⟩, ⟨81, 0⟩]) []).err = none ∧
    (∃ m, m < missing (reuseExisting [⟨22, 2200⟩] (PortPairs.reserve [⟨80, 0⟩, ⟨81, 0⟩]) []).p ∧
      ([9000, 0] : List Port).getD m 0 = 0) ∧
    ((AtomicReserveExternalPorts "u" [⟨80, 0⟩, ⟨81, 0⟩] [⟨22, 2200⟩] (markersOf [(2200, "u")])
      [9000, 0]).err = some ReserveError.allocationFailed ∧
    (AtomicReserveExternalPorts "u" [⟨80, 0⟩, ⟨81, 0⟩] [⟨22, 2200⟩] (markersOf [(2200, "u")])
      [9000, 0]).pairs = [⟨80, 0⟩, ⟨81, 0⟩] ∧
    (AtomicReserveExternalPorts "u" [⟨80, 0⟩, ⟨81, 0⟩] [⟨22, 2200⟩] (markersOf [(2200, "u")])
      [9000, 0]).fs = markersOf [(2200, "u")]) :=
  ⟨by decide, ⟨1, by decide, by decide⟩,
    allocation_exhaustion_atomic "u" [⟨80, 0⟩, ⟨81, 0⟩] [⟨22, 2200⟩] (markersOf [(2200, "u")])
      [9000, 0] (by decide) ⟨1, by decide, by decide⟩⟩

/-! ## The result and the markers on disk (C8) -/

/-- C8: a call for 80:8080, 81:8081 with no existing pairs, while the marker of
8080 is on disk for another workload, returns a nil error and both pairs, and
port 8081 of the result has no marker after the call (the failure to create
the marker of 8080 ends the persist loop and is not reported). -/
theorem result_port_without_marker :
    (AtomicReserveExternalPorts "mine" [⟨80, 8080⟩, ⟨81, 8081⟩] []
      (markersOf [(8080, "other")]) []).err = none ∧
    (AtomicReserveExternalPorts "mine" [⟨80, 8080⟩, ⟨81, 8081⟩] []
      (markersOf [(8080, "other")]) []).pairs = [⟨80, 8080⟩, ⟨81, 8081⟩] ∧
    (AtomicReserveExternalPorts "mine" [⟨80, 8080⟩, ⟨81, 8081⟩] []
      (markersOf [(8080, "other")]) []).fs 8081 = none ∧
    (AtomicReserveExternalPorts "mine" [⟨80, 8080⟩, ⟨81, 8081⟩] []
      (markersOf [(8080, "other")]) []).fs 8080 = some "other" := by
  decide

/-! ## The worker on an exhausted range (C9) -/

theorem walkReserved_full (s len : Nat) (extra : List Port) (done : Option Nat) (k i : Nat)
    (e : Port) (he : 0 < k → e = s + i) (hk : i + k = len) :
    walkReserved (List.range' s len ++ extra) (List.range' (s + i) k) e (i + 1) done =
      emptyWalk done := by
  induction k generalizing i e with
  | zero => simp [walkReserved, emptyWalk]
  | succ k ih =>
    have hei : e = s + i := he (Nat.succ_pos k)
    rw [List.range'_succ, walkReserved, if_pos hei]
    split_ifs with hlt
    · apply ih (i + 1)
      · intro hk0
        have h1 : i + 1 < (List.range' s len).length := by
          rw [List.length_range']
          omega
        rw [List.getD_eq_getElem?_getD, List.getElem?_append_left h1,
          List.getElem?_eq_getElem h1]
        simp
      · omega
    · have hk0 : k = 0 := by
        simp only [List.length_append, List.length_range'] at hlt
        omega
      subst hk0
      simp [walkReserved, emptyWalk]

theorem scanWindow_full (l : List String) (s t : Nat) (extra : List Port) (done : Option Nat)
    (hl : namesToPorts l = List.range' s (t - s) ++ extra) (hst : s < t) :
    scanWindow l s t done = emptyWalk done := by
  unfold scanWindow
  simp only [hl]
  have hpos : (List.range' s (t - s) ++ extra).length > 0 := by
    simp only [List.length_append, List.length_range']
    omega
  rw [if_pos hpos]
  have hlen : 0 < (List.range' s (t - s)).length := by
    rw [List.length_range']
    omega
  have h := walkReserved_full s (t - s) extra done (t - s) 0
    ((List.range' s (t - s) ++ extra).getD 0 0)
    (by
      intro _
      rw [List.getD_eq_getElem?_getD, List.getElem?_append_left hlen]
      rw [List.getElem?_eq_getElem hlen]
      simp)
    (by omega)
  simpa using h

theorem scanWindow_empty (l : List String) (s t : Nat) (done : Option Nat) (hst : t ≤ s) :
    scanWindow l s t done = emptyWalk done := by
  have h0 : t - s = 0 := by omega
  simp only [scanWindow, h0, List.range'_zero]
  split_ifs <;> simp [walkReserved, walkFree, emptyWalk]

theorem scanTaken_emptyWalk (taken : List String) (s t : Nat) (a1 : portAllocator)
    (done : Option Nat) (h : scanWindow taken s t done = emptyWalk done) :
    scanTaken taken s t a1 done = portAllocator.fail a1 done := by
  simp [scanTaken, h, emptyWalk]

/-- An iteration whose window, when not empty, is taken (its block directory
lists exactly the ports of the window, then any further ports) offers no
port and counts as a failure. -/
theorem scanBlock_taken (dir : Nat → Listing) (a : portAllocator) (done : Option Nat)
    (htaken : windowStart a < windowEnd a →
      ∃ l extra, dir (windowStart a / portsPerBlock) = Listing.names l ∧
        namesToPorts l = List.range' (windowStart a) (windowEnd a - windowStart a) ++ extra) :
    scanBlock dir a done = portAllocator.fail { a with block := nextBlock a } done := by
  by_cases hst : windowStart a < windowEnd a
  · obtain ⟨l, extra, hdir, hl⟩ := htaken hst
    simp only [scanBlock, hdir]
    exact scanTaken_emptyWalk _ _ _ _ _ (scanWindow_full l _ _ extra done hl hst)
  · have hle : windowEnd a ≤ windowStart a := Nat.le_of_not_lt hst
    simp only [scanBlock]
    split
    · rfl
    · exact scanTaken_emptyWalk _ _ _ _ _ (scanWindow_empty _ _ _ done hle)
    · exact scanTaken_emptyWalk _ _ _ _ _ (scanWindow_empty _ _ _ done hle)

theorem fail_none (a : portAllocator) (f : Nat) (hf : a.failures = f)
    (hb : f + 1 < 9223372036854775808) :
    portAllocator.fail a none =
      { a := { a with failures := ((f + 1 : Nat) : Int) },
        offered := if 3 < f + 1 then [0] else [],
        done := none, finished := false } := by
  have hw : wrapInt (a.failures + 1) = ((f + 1 : Nat) : Int) := by
    rw [hf]
    unfold wrapInt
    push_cast
    omega
  unfold portAllocator.fail
  simp only [hw, maxReadFailures]
  by_cases h3 : 3 < f + 1
  · rw [if_pos (by omega : ((f + 1 : Nat) : Int) > 3), if_pos h3]
    rfl
  · rw [if_neg (by omega : ¬ ((f + 1 : Nat) : Int) > 3), if_neg h3]

/-- A run without a shutdown signal all of whose windows are taken: `inv` is
a property of the iteration number and the allocator that holds at the start,
is kept by an iteration and makes the window taken.  `k` iterations starting
with the failure count `f` offer one 0 for each failure beyond the third. -/
theorem findPorts_taken (dirAt : Nat → Nat → Listing) (inv : Nat → portAllocator → Prop)
    (hkeep : ∀ (t : Nat) (a : portAllocator) (f : Int), inv t a →
      inv (t + 1) { block := nextBlock a, failures := f, min := a.min, max := a.max })
    (htaken : ∀ (t : Nat) (a : portAllocator), inv t a → windowStart a < windowEnd a →
      ∃ l extra, dirAt t (windowStart a / portsPerBlock) = Listing.names l ∧
        namesToPorts l = List.range' (windowStart a) (windowEnd a - windowStart a) ++ extra)
    (k t : Nat) (a : portAllocator) (h0 : inv t a) (f : Nat) (hf : a.failures = f)
    (hb : f + k < 9223372036854775808) :
    (portAllocator.findPorts dirAt k t a none).offered =
        List.replicate ((f + k - 3) - (f - 3)) 0 ∧
      (portAllocator.findPorts dirAt k t a none).finished = false ∧
      (portAllocator.findPorts dirAt k t a none).a.failures = ((f + k : Nat) : Int) := by
  induction k generalizing t a f with
  | zero =>
    simp [portAllocator.findPorts, hf]
  | succ k ih =>
    have hstep := scanBlock_taken (dirAt t) a none (htaken t a h0)
    rw [fail_none { a with block := nextBlock a } f hf (by omega)] at hstep
    obtain ⟨h1, h2, h3⟩ := ih (t + 1)
      { block := nextBlock a, failures := ((f + 1 : Nat) : Int), min := a.min, max := a.max }
      (hkeep t a _ h0) (f + 1) rfl (by omega)
    simp only [portAllocator.findPorts, hstep, Bool.false_eq_true, if_false]
    refine ⟨?_, h2, ?_⟩
    · rw [h1]
      by_cases hlt : 3 < f + 1
      · rw [if_pos hlt]
        have : f + (k + 1) - 3 - (f - 3) = (f + 1 + k - 3 - (f + 1 - 3)) + 1 := by omega
        rw [this, List.replicate_succ]
        rfl
      · rw [if_neg hlt]
        have : f + (k + 1) - 3 - (f - 3) = f + 1 + k - 3 - (f + 1 - 3) := by omega
        rw [this]
        rfl
    · rw [h3]
      congr 1
      omega

theorem wrapped_block_mod_four (x : Nat) : wrapUint (x * portsPerBlock) % 4 = 0 := by
  unfold wrapUint uintSize portsPerBlock
  rw [Nat.mod_mod_of_dvd _ (by norm_num)]
  omega

/-- With the markers 9000 and 9001 on disk, every window of an allocator of the
range 9000 to 9002 is taken, wherever its cursor stands. -/
theorem takenDir_taken (t : Nat) (a : portAllocator) (hmin : a.min = 9000) (hmax : a.max = 9002)
    (hst : windowStart a < windowEnd a) :
    ∃ l extra, takenDir t (windowStart a / portsPerBlock) = Listing.names l ∧
      namesToPorts l = List.range' (windowStart a) (windowEnd a - windowStart a) ++ extra := by
  have e1 := wrapped_block_mod_four a.block
  have e2 := wrapped_block_mod_four (wrapUint (a.block + 1))
  have hs : windowStart a = 9000 ∧ windowEnd a = 9002 := by
    unfold windowStart windowEnd at *
    rw [hmin, hmax] at *
    generalize wrapUint (a.block * portsPerBlock) = s0 at *
    generalize wrapUint (wrapUint (a.block + 1) * portsPerBlock) = s1 at *
    delta Port at *
    constructor <;> split_ifs at hst ⊢ <;> omega
  rw [hs.1, hs.2]
  refine ⟨["9000", "9001"], [], ?_, ?_⟩
  · simp [takenDir, portsPerBlock]
  · decide

/-- C9, as stated, fails: on the range 9000 to 9001 with both markers on disk
and no shutdown signal, the worker has offered its first 0 after four
iterations and is still running; the fifth iteration offers a second 0, and
the worker is still running after it.  Moreover, on the range 9050 to 9051
with both markers on disk, when the block directory also lists the marker of
port 9010, the first iteration offers the ports 9050 and 9051 of the range. -/
theorem exhausted_worker_does_not_terminate :
    (portAllocator.findPorts crowdedDir 1 0 (StartPortAllocator internalPortAllocator 9050 9052)
      none).offered = [9050, 9051] ∧
    (portAllocator.findPorts takenDir 3 0 (StartPortAllocator internalPortAllocator 9000 9002)
      none).offered = [] ∧
    (portAllocator.findPorts takenDir 4 0 (StartPortAllocator internalPortAllocator 9000 9002)
      none).offered = [0] ∧
    (portAllocator.findPorts takenDir 4 0 (StartPortAllocator internalPortAllocator 9000 9002)
      none).finished = false ∧
    (portAllocator.findPorts takenDir 5 0 (StartPortAllocator internalPortAllocator 9000 9002)
      none).offered = [0, 0] ∧
    (portAllocator.findPorts takenDir 5 0 (StartPortAllocator internalPortAllocator 9000 9002)
      none).finished = false := by
  decide

/-! ## Ports offered by a block scan (C10) -/

/-- C10: for the window from 9050 up to 9052 (allocator started on the range
9050 to 9052) and a block directory that lists the markers 9010 and 9051, the
window walk offers 9050, 9051 and 9052: port 9051 is offered although its
marker is listed, because the walk waits for the listed port 9010, which lies
below the window, and never moves on to 9051. -/
theorem window_walk_offers_listed_port :
    Atoi "9051" = some 9051 ∧
    namesToPorts ["9010", "9051"] = [9010, 9051] ∧
    (scanWindow ["9010", "9051"] 9050 9053 none).offered = [9050, 9051, 9052] ∧
    windowStart (StartPortAllocator internalPortAllocator 9050 9053) = 9050 ∧
    windowEnd (StartPortAllocator internalPortAllocator 9050 9053) = 9053 ∧
    (scanBlock staleDir (StartPortAllocator internalPortAllocator 9050 9053) none).offered =
      [9050, 9051, 9052] := by
  decide

/-! ## Decimal digits -/

theorem digitChar_cases (m : Nat) (h : m < 10) :
    (Nat.digitChar m).isDigit = true ∧ (Nat.digitChar m).toNat - 48 = m ∧
      Nat.digitChar m ≠ '-' ∧ Nat.digitChar m ≠ '+' ∧ Nat.digitChar m ≠ ',' ∧
      Nat.digitChar m ≠ '=' ∧ Nat.digitChar m ≠ '/' := by
  interval_cases m <;> decide

theorem toDigitsCore_mem (fuel n : Nat) (ds : List Char) :
    ∀ c ∈ Nat.toDigitsCore 10 fuel n ds, (∃ m, m < 10 ∧ c = Nat.digitChar m) ∨ c ∈ ds := by
  induction fuel generalizing n ds with
  | zero =>
    intro c hc
    exact Or.inr (by simpa [Nat.toDigitsCore] using hc)
  | succ fuel ih =>
    intro c hc
    simp only [Nat.toDigitsCore] at hc
    split_ifs at hc with h
    · rcases List.mem_cons.1 hc with rfl | hc
      · exact Or.inl ⟨n % 10, Nat.mod_lt _ (by norm_num), rfl⟩
      · exact Or.inr hc
    · rcases ih _ _ c hc with h1 | h1
      · exact Or.inl h1
      · rcases List.mem_cons.1 h1 with rfl | h1
        · exact Or.inl ⟨n % 10, Nat.mod_lt _ (by norm_num), rfl⟩
        · exact Or.inr h1

/-- Every character of a decimal rendering is one of the ten digits. -/
theorem toDigits_mem (n : Nat) : ∀ c ∈ Nat.toDigits 10 n, ∃ m, m < 10 ∧ c = Nat.digitChar m := by
  intro c hc
  rcases toDigitsCore_mem (n + 1) n [] c hc with h | h
  · exact h
  · cases h

theorem toDigitsCore_value (fuel n : Nat) (ds : List Char) (h : n < fuel) :
    (Nat.toDigitsCore 10 fuel n ds).foldl (fun acc ch => acc * 10 + (ch.toNat - 48)) 0 =
      ds.foldl (fun acc ch => acc * 10 + (ch.toNat - 48)) n := by
  induction fuel generalizing n ds with
  | zero => omega
  | succ fuel ih =>
    have hd := (digitChar_cases (n % 10) (Nat.mod_lt _ (by norm_num))).2.1
    simp only [Nat.toDigitsCore]
    split_ifs with h0
    · simp only [List.foldl_cons, hd]
      congr 1
      omega
    · rw [ih (n / 10) _ (by omega)]
      simp only [List.foldl_cons, hd]
      congr 1
      omega

/-- Reading a decimal rendering digit by digit gives the number back. -/
theorem toDigits_value (n : Nat) :
    (Nat.toDigits 10 n).foldl (fun acc ch => acc * 10 + (ch.toNat - 48)) 0 = n := by
  simpa using toDigitsCore_value (n + 1) n [] (by omega)

theorem toDigitsCore_ne_nil (fuel n : Nat) (ds : List Char) (h : ds ≠ []) :
    Nat.toDigitsCore 10 fuel n ds ≠ [] := by
  induction fuel generalizing n ds with
  | zero => simpa [Nat.toDigitsCore] using h
  | succ fuel ih =>
    simp only [Nat.toDigitsCore]
    split_ifs with h0
    · simp
    · exact ih _ _ (by simp)

theorem toDigits_ne_nil (n : Nat) : Nat.toDigits 10 n ≠ [] := by
  simp only [Nat.toDigits, Nat.toDigitsCore]
  split_ifs with h0
  · simp
  · exact toDigitsCore_ne_nil _ _ _ (by simp)

theorem toDigits_all_isDigit (n : Nat) : (Nat.toDigits 10 n).all Char.isDigit = true := by
  rw [List.all_eq_true]
  intro c hc
  obtain ⟨m, hm, rfl⟩ := toDigits_mem n c hc
  exact (digitChar_cases m hm).1

/-- The decimal rendering of a number below 2^63 parses back to it. -/
theorem Atoi_toDigits (n : Nat) (h : n < 9223372036854775808) :
    Atoi (String.mk (Nat.toDigits 10 n)) = some (n : Int) := by
  unfold Atoi
  cases hd : Nat.toDigits 10 n with
  | nil => exact absurd hd (toDigits_ne_nil n)
  | cons c cs =>
    obtain ⟨m, hm, hc⟩ := toDigits_mem n c (by rw [hd]; exact List.mem_cons_self _ _)
    have hcases := digitChar_cases m hm
    have h1 : c ≠ '-' := hc ▸ hcases.2.2.1
    have h2 : c ≠ '+' := hc ▸ hcases.2.2.2.1
    have hall := toDigits_all_isDigit n
    have hval := toDigits_value n
    rw [hd] at hall hval
    simp only [h1, h2, or_self, if_false, List.isEmpty_cons, Bool.false_eq_true, hall, if_true,
      hval]
    rw [if_pos]
    constructor <;> omega

/-- The decimal rendering of a negative number not below -2^63 parses back to
it. -/
theorem Atoi_neg_toDigits (n : Nat) (h : n ≤ 9223372036854775808) :
    Atoi (String.mk ('-' :: Nat.toDigits 10 n)) = some (-(n : Int)) := by
  unfold Atoi
  have hne := toDigits_ne_nil n
  have hall := toDigits_all_isDigit n
  have hval := toDigits_value n
  have hemp : (Nat.toDigits 10 n).isEmpty = false := by
    cases hd : Nat.toDigits 10 n with
    | nil => exact absurd hd hne
    | cons c cs => rfl
  simp only [true_or, if_true, hemp, Bool.false_eq_true, if_false, hall, hval]
  rw [if_pos]
  constructor <;> omega
/-! ## Header round trip (C11) -/

theorem intercalate_singleton_cons (c : Char) (x : List Char) (xs : List (List Char)) :
    [c].intercalate (x :: xs) = x ++ (xs.map fun y => c :: y).flatten := by
  induction xs generalizing x with
  | nil => simp [List.intercalate]
  | cons y ys ih =>
    have h := ih y
    simp only [List.intercalate, List.intersperse, List.flatten_cons, List.map_cons] at h ⊢
    simp [h]

/-- The loop of `ToHeader` with any two renderings `f` and `g` of the fields. -/
theorem header_fold (f g : PortPair → String) (acc : String) (i : Nat) (hi : i ≠ 0)
    (p : PortPairs) :
    ((p.enumFrom i).foldl
      (fun pairs x => (if x.1 ≠ 0 then pairs ++ "," else pairs) ++ f x.2 ++ "=" ++ g x.2)
      acc).data =
      acc.data ++ (p.map fun q => ',' :: ((f q).data ++ '=' :: (g q).data)).flatten := by
  induction p generalizing acc i with
  | nil => simp
  | cons q rest ih =>
    rw [List.enumFrom_cons, List.foldl_cons, ih _ (i + 1) (by omega)]
    simp only [ne_eq, hi, not_false_eq_true, if_true, String.data_append, List.map_cons,
      List.flatten_cons, List.append_assoc]
    simp

/-- The header is the list of entries joined by single commas: no leading and
no trailing separator, the empty string for no pair. -/
theorem ToHeader_data (p : PortPairs) :
    (PortPairs.ToHeader p).data = [','].intercalate (p.map fun q =>
      (Itoa (portToInt q.Internal)).data ++ '=' :: (Itoa (portToInt q.External)).data) := by
  cases p with
  | nil => rfl
  | cons q rest =>
    rw [List.map_cons, intercalate_singleton_cons, List.map_map]
    have h := header_fold (fun q => Itoa (portToInt q.Internal))
      (fun q => Itoa (portToInt q.External))
      ("" ++ Itoa (portToInt q.Internal) ++ "=" ++ Itoa (portToInt q.External)) 1 (by omega) rest
    rw [String.data_append, String.data_append, String.data_append] at h
    have hl : PortPairs.ToHeader (q :: rest) =
        (rest.enumFrom 1).foldl toHeaderStep
          ("" ++ Itoa (portToInt q.Internal) ++ "=" ++ Itoa (portToInt q.External)) := rfl
    rw [hl]
    refine h.trans ?_
    generalize (Itoa (portToInt q.Internal)).data = a
    generalize (Itoa (portToInt q.External)).data = b
    show ([] ++ a ++ ['='] ++ b) ++ _ = a ++ '=' :: b ++ _
    simp only [List.nil_append, List.append_assoc, List.singleton_append]
    rfl

theorem Itoa_portToInt (x : Nat) (h : x < 9223372036854775808) :
    Itoa (portToInt x) = String.mk (Nat.toDigits 10 x) := by
  have hw : portToInt x = (x : Int) := by
    unfold portToInt uintSize
    have hm : x % 18446744073709551616 = x := Nat.mod_eq_of_lt (by omega)
    rw [hm, if_pos h]
  rw [hw]
  unfold Itoa
  rw [if_neg (by omega), Int.natAbs_ofNat]

theorem toDigits_no_char (n : Nat) (c : Char) (hc : ∀ m, m < 10 → Nat.digitChar m ≠ c) :
    c ∉ Nat.toDigits 10 n := by
  intro hmem
  obtain ⟨m, hm, rfl⟩ := toDigits_mem n c hmem
  exact hc m hm rfl

theorem splitOn_two (sep : Char) (a b : List Char) (ha : sep ∉ a) (hb : sep ∉ b) :
    (a ++ sep :: b).splitOn sep = [a, b] := by
  unfold List.splitOn
  rw [List.splitOnP_first (fun x => x == sep) a (by
    intro x hx hxs
    have : x = sep := by simpa using hxs
    exact ha (this ▸ hx)) sep (by simp)]
  rw [List.splitOnP_eq_single (fun x => x == sep) b (by
    intro x hx hxs
    have : x = sep := by simpa using hxs
    exact hb (this ▸ hx))]

theorem parseEntry_headerEntry (q : PortPair) (hi : q.Internal < 9223372036854775808)
    (he : q.External < 9223372036854775808) :
    parseEntry (headerEntry q) = some ((q.Internal : Int), (q.External : Int)) := by
  unfold parseEntry headerEntry
  rw [splitOn_two '=' _ _
    (toDigits_no_char _ _ fun m hm => (digitChar_cases m hm).2.2.2.2.2.1)
    (toDigits_no_char _ _ fun m hm => (digitChar_cases m hm).2.2.2.2.2.1)]
  simp only [Atoi_toDigits _ hi, Atoi_toDigits _ he]

theorem parseEntries_headerEntry (p : PortPairs)
    (h : ∀ q ∈ p, q.Internal < 9223372036854775808 ∧ q.External < 9223372036854775808) :
    parseEntries (p.map headerEntry) =
      some (p.map fun q => ((q.Internal : Int), (q.External : Int))) := by
  induction p with
  | nil => rfl
  | cons q rest ih =>
    have hq := h q (List.mem_cons_self _ _)
    simp only [List.map_cons, parseEntries, parseEntry_headerEntry q hq.1 hq.2,
      ih fun x hx => h x (List.mem_cons_of_mem _ hx)]

theorem headerEntry_no_comma (q : PortPair) : ',' ∉ headerEntry q := by
  unfold headerEntry
  simp only [List.mem_append, List.mem_cons, not_or]
  exact ⟨toDigits_no_char _ _ fun m hm => (digitChar_cases m hm).2.2.2.2.1,
    by decide, toDigits_no_char _ _ fun m hm => (digitChar_cases m hm).2.2.2.2.1⟩

/-- C11, as stated, fails: the pair with internal port 2^63 is rendered with
the decimal of the negative `int` it converts to, so the header is
`-9223372036854775808=1` and parses to a pair other than the original. -/
theorem header_of_large_port_is_negative :
    PortPairs.ToHeader [⟨9223372036854775808, 1⟩] = "-9223372036854775808=1" ∧
    splitHeader (PortPairs.ToHeader [⟨9223372036854775808, 1⟩]) =
      some [(-9223372036854775808, 1)] ∧
    splitHeader (PortPairs.ToHeader [⟨9223372036854775808, 1⟩]) ≠
      some [(9223372036854775808, 1)] := by
  decide

/-- C11 (amended): for every sequence of pairs whose ports are all below 2^63,
the header is the entries internal=external in decimal, joined by single
commas in sequence order with no leading or trailing separator (the empty
string for the empty sequence), and splitting it on commas, each entry on the
equals sign, and parsing the decimals gives the original pairs in the original
order. -/
theorem header_round_trip (p : PortPairs)
    (h : ∀ q ∈ p, q.Internal < 9223372036854775808 ∧ q.External < 9223372036854775808) :
    (PortPairs.ToHeader p).data = [','].intercalate (p.map headerEntry) ∧
    splitHeader (PortPairs.ToHeader p) =
      some (p.map fun q => ((q.Internal : Int), (q.External : Int))) := by
  have hdata : (PortPairs.ToHeader p).data = [','].intercalate (p.map headerEntry) := by
    rw [ToHeader_data]
    congr 1
    apply List.map_congr_left
    intro q hq
    rw [Itoa_portToInt _ (h q hq).1, Itoa_portToInt _ (h q hq).2]
    rfl
  refine ⟨hdata, ?_⟩
  unfold splitHeader
  rw [hdata]
  cases p with
  | nil => rfl
  | cons q rest =>
    have hne : [','].intercalate ((q :: rest).map headerEntry) ≠ [] := by
      rw [List.map_cons, intercalate_singleton_cons]
      unfold headerEntry
      cases hd : Nat.toDigits 10 q.Internal <;> simp
    rw [if_neg hne]
    rw [List.splitOn_intercalate _ ',' (by
      intro l hl
      obtain ⟨x, _, rfl⟩ := List.mem_map.1 hl
      exact headerEntry_no_comma x) (by simp)]
    exact parseEntries_headerEntry _ h

/-- Witness of `header_round_trip`: the pairs 80:8080 and 443:0. -/
theorem header_round_trip_witness :
    (∀ q ∈ ([⟨80, 8080⟩, ⟨443, 0⟩] : PortPairs),
      q.Internal < 9223372036854775808 ∧ q.External < 9223372036854775808) ∧
    PortPairs.ToHeader [⟨80, 8080⟩, ⟨443, 0⟩] = "80=8080,443=0" ∧
    ((PortPairs.ToHeader [⟨80, 8080⟩, ⟨443, 0⟩]).data =
        [','].intercalate (([⟨80, 8080⟩, ⟨443, 0⟩] : PortPairs).map headerEntry) ∧
      splitHeader (PortPairs.ToHeader [⟨80, 8080⟩, ⟨443, 0⟩]) =
        some (([⟨80, 8080⟩, ⟨443, 0⟩] : PortPairs).map fun q =>
          ((q.Internal : Int), (q.External : Int)))) :=
  ⟨by decide, by decide, header_round_trip [⟨80, 8080⟩, ⟨443, 0⟩] (by decide)⟩

/-! ## The unit-file reader (C12) -/

/-- A pair as the specification requires of persisted pairs. -/
theorem intToPort_in_range (v : Int) (h1 : v > 0) (h2 : v < 65536) :
    0 < intToPort v ∧ intToPort v < 65536 := by
  unfold intToPort
  delta Port
  constructor <;> omega

theorem readLine_eq (pairs : PortPairs) (line : String) :
    readLine pairs line = pairs ++ readLine [] line := by
  unfold readLine
  split_ifs with h1
  · cases Sscanf (String.mk (line.data.drop mappingPrefix.length)) with
    | none => simp
    | some v =>
      simp only
      split_ifs <;> simp
  · simp

theorem readLines_eq (lines : List String) (pairs : PortPairs) :
    lines.foldl readLine pairs = pairs ++ lines.foldl readLine [] := by
  induction lines generalizing pairs with
  | nil => simp
  | cons line rest ih =>
    rw [List.foldl_cons, List.foldl_cons, ih (readLine pairs line), ih (readLine [] line),
      readLine_eq pairs line, List.append_assoc]

theorem readLines_append (pre post : List String) :
    (pre ++ post).foldl readLine [] = pre.foldl readLine [] ++ post.foldl readLine [] := by
  rw [List.foldl_append, readLines_eq post]

theorem readLine_in_range (line : String) :
    ∀ q ∈ readLine [] line,
      0 < q.Internal ∧ q.Internal < 65536 ∧ 0 < q.External ∧ q.External < 65536 := by
  intro q hq
  unfold readLine at hq
  split_ifs at hq with h1
  · cases hs : Sscanf (String.mk (line.data.drop mappingPrefix.length)) with
    | none =>
      rw [hs] at hq
      cases hq
    | some v =>
      rw [hs] at hq
      simp only at hq
      split_ifs at hq with h2
      · simp only [List.nil_append, List.mem_singleton] at hq
        subst hq
        have ha := intToPort_in_range v.1 h2.1 h2.2.1
        have hb := intToPort_in_range v.2 h2.2.2.1 h2.2.2.2
        exact ⟨ha.1, ha.2, hb.1, hb.2⟩
      · cases hq
  · cases hq

theorem readLines_in_range (lines : List String) :
    ∀ q ∈ lines.foldl readLine [],
      0 < q.Internal ∧ q.Internal < 65536 ∧ 0 < q.External ∧ q.External < 65536 := by
  induction lines with
  | nil =>
    intro q hq
    cases hq
  | cons line rest ih =>
    intro q hq
    rw [List.foldl_cons, readLines_eq] at hq
    rcases List.mem_append.1 hq with h | h
    · exact readLine_in_range line q h
    · exact ih q h

theorem digitChar_plain (m : Nat) (h : m < 10) :
    isSpace (Nat.digitChar m) = false ∧ Nat.digitChar m ≠ '\n' ∧ Nat.digitChar m ≠ '\r' ∧
      (Nat.digitChar m).utf8Size = 1 := by
  interval_cases m <;> decide

theorem takeWhile_isDigit_append (l rest : List Char) (hl : l.all Char.isDigit = true)
    (hrest : ∀ c, rest.head? = some c → c.isDigit = false) :
    (l ++ rest).takeWhile Char.isDigit = l ∧ (l ++ rest).dropWhile Char.isDigit = rest := by
  induction l with
  | nil =>
    cases rest with
    | nil => simp
    | cons c r =>
      have hc : c.isDigit = false := hrest c rfl
      simp [List.takeWhile, List.dropWhile, hc]
  | cons a l ih =>
    simp only [List.all_cons, Bool.and_eq_true] at hl
    have h := ih hl.2
    simp [List.takeWhile, List.dropWhile, hl.1, h.1, h.2]

/-- The decimal rendering of a natural number parses, as an `int`, to the
number when it is below 2^63 and not at all otherwise. -/
theorem Atoi_toDigits_any (n : Nat) :
    Atoi (String.mk (Nat.toDigits 10 n)) =
      if n < 9223372036854775808 then some (n : Int) else none := by
  unfold Atoi
  cases hd : Nat.toDigits 10 n with
  | nil => exact absurd hd (toDigits_ne_nil n)
  | cons c cs =>
    obtain ⟨m, hm, hc⟩ := toDigits_mem n c (by rw [hd]; exact List.mem_cons_self _ _)
    have hcases := digitChar_cases m hm
    have h1 : c ≠ '-' := hc ▸ hcases.2.2.1
    have h2 : c ≠ '+' := hc ▸ hcases.2.2.2.1
    have hall := toDigits_all_isDigit n
    have hval := toDigits_value n
    rw [hd] at hall hval
    simp only [h1, h2, or_self, if_false, List.isEmpty_cons, Bool.false_eq_true, hall, if_true,
      hval]
    by_cases hn : n < 9223372036854775808
    · rw [if_pos hn, if_pos]
      constructor <;> omega
    · rw [if_neg hn, if_neg]
      omega

theorem Atoi_neg_toDigits_any (n : Nat) :
    Atoi (String.mk ('-' :: Nat.toDigits 10 n)) =
      if n ≤ 9223372036854775808 then some (-(n : Int)) else none := by
  unfold Atoi
  have hne := toDigits_ne_nil n
  have hall := toDigits_all_isDigit n
  have hval := toDigits_value n
  have hemp : (Nat.toDigits 10 n).isEmpty = false := by
    cases hd : Nat.toDigits 10 n with
    | nil => exact absurd hd hne
    | cons c cs => rfl
  simp only [true_or, if_true, hemp, Bool.false_eq_true, if_false, hall, hval]
  by_cases hn : n ≤ 9223372036854775808
  · rw [if_pos hn, if_pos]
    constructor <;> omega
  · rw [if_neg hn, if_neg]
    omega

/-- Parsing the decimal rendering of an integer gives it back when it fits an
`int` and fails otherwise. -/
theorem Atoi_Itoa (v : Int) :
    Atoi (Itoa v) =
      if -9223372036854775808 ≤ v ∧ v < 9223372036854775808 then some v else none := by
  unfold Itoa
  by_cases hv : v < 0
  · rw [if_pos hv, Atoi_neg_toDigits_any]
    have habs : ((v.natAbs : Nat) : Int) = -v := by omega
    by_cases hr : v.natAbs ≤ 9223372036854775808
    · rw [if_pos hr, if_pos (by omega), habs, neg_neg]
    · rw [if_neg hr, if_neg (by omega)]
  · rw [if_neg hv, Atoi_toDigits_any]
    have habs : ((v.natAbs : Nat) : Int) = v := by omega
    by_cases hr : v.natAbs < 9223372036854775808
    · rw [if_pos hr, if_pos (by omega), habs]
    · rw [if_neg hr, if_neg (by omega)]

/-- The verb `%d` applied to the decimal rendering of an integer followed by
something that is not a digit: the integer, when it fits an `int`. -/
theorem scanInt_Itoa (v : Int) (rest : List Char)
    (hrest : ∀ c, rest.head? = some c → c.isDigit = false) :
    scanInt ((Itoa v).data ++ rest) =
      match Atoi (Itoa v) with
      | none => none
      | some x => some (x, rest) := by
  have hall := toDigits_all_isDigit v.natAbs
  have htd := takeWhile_isDigit_append (Nat.toDigits 10 v.natAbs) rest hall hrest
  cases hd : Nat.toDigits 10 v.natAbs with
  | nil => exact absurd hd (toDigits_ne_nil _)
  | cons c cs =>
    obtain ⟨m, hm, hc⟩ := toDigits_mem v.natAbs c (by rw [hd]; exact List.mem_cons_self _ _)
    have hcases := digitChar_cases m hm
    have hplain := digitChar_plain m hm
    have h1 : c ≠ '-' := hc ▸ hcases.2.2.1
    have h2 : c ≠ '+' := hc ▸ hcases.2.2.2.1
    have h3 : c ≠ '\n' := hc ▸ hplain.2.1
    have h4 : isSpace c = false := hc ▸ hplain.1
    rw [hd] at htd
    by_cases hv : v < 0
    · have hI : Itoa v = String.mk ('-' :: c :: cs) := by
        unfold Itoa
        rw [if_pos hv, hd]
      rw [hI]
      have hs : skipSpace ('-' :: c :: cs ++ rest) = some ('-' :: c :: cs ++ rest) := by
        simp [skipSpace, isSpace]
      have hn : scanNumber ('-' :: (c :: cs ++ rest)) = some ('-' :: c :: cs, rest) := by
        simp only [scanNumber, or_true, decide_True, if_true, htd.1, htd.2, List.isEmpty_cons,
          Bool.false_eq_true, if_false]
      show scanInt ('-' :: c :: cs ++ rest) = _
      unfold scanInt
      rw [hs]
      simp only [List.cons_append] at hn ⊢
      rw [hn]
    · have hI : Itoa v = String.mk (c :: cs) := by
        unfold Itoa
        rw [if_neg hv, hd]
      rw [hI]
      have hs : skipSpace (c :: cs ++ rest) = some (c :: cs ++ rest) := by
        simp [skipSpace, h3, h4]
      have hn : scanNumber (c :: (cs ++ rest)) = some (c :: cs, rest) := by
        have hsig : decide (c = '+' ∨ c = '-') = false := by simp [h1, h2]
        simp only [scanNumber, hsig, Bool.false_eq_true, if_false]
        simp only [List.cons_append] at htd
        simp only [htd.1, htd.2, List.isEmpty_cons, Bool.false_eq_true, if_false]
      show scanInt (c :: cs ++ rest) = _
      unfold scanInt
      rw [hs]
      simp only [List.cons_append] at hn ⊢
      rw [hn]

/-- The call `Sscanf` on two decimal renderings separated by a comma: both
integers, when both fit an `int`. -/
theorem Sscanf_Itoa (i e : Int) :
    Sscanf (String.mk ((Itoa i).data ++ ',' :: (Itoa e).data)) =
      match Atoi (Itoa i), Atoi (Itoa e) with
      | some a, some b => some (a, b)
      | _, _ => none := by
  unfold Sscanf
  have h1 := scanInt_Itoa i (',' :: (Itoa e).data) (by
    intro c hc
    simp only [List.head?_cons, Option.some.injEq] at hc
    subst hc
    decide)
  have h2 := scanInt_Itoa e [] (by
    intro c hc
    cases hc)
  rw [List.append_nil] at h2
  simp only [h1]
  cases Atoi (Itoa i) with
  | none => rfl
  | some a =>
    simp only [if_true, h2]
    cases Atoi (Itoa e) with
    | none => rfl
    | some b => rfl

/-- What the loop body does with the line `X-PortMapping=<i>,<e>`. -/
theorem readLine_mappingText (pairs : PortPairs) (i e : Int) :
    readLine pairs (mappingText i e) =
      if i > 0 ∧ i < 65536 ∧ e > 0 ∧ e < 65536 then
        pairs ++ [{ Internal := intToPort i, External := intToPort e }]
      else pairs := by
  unfold readLine mappingText
  have hp : mappingPrefix.isPrefixOf (mappingPrefix ++ ((Itoa i).data ++ ',' :: (Itoa e).data)) =
      true := by
    rw [List.isPrefixOf_iff_prefix]
    exact List.prefix_append _ _
  simp only [hp, if_true, List.drop_left, Sscanf_Itoa, Atoi_Itoa]
  by_cases hv : i > 0 ∧ i < 65536 ∧ e > 0 ∧ e < 65536
  · rw [if_pos (by omega : -9223372036854775808 ≤ i ∧ i < 9223372036854775808),
      if_pos (by omega : -9223372036854775808 ≤ e ∧ e < 9223372036854775808)]
  · rw [if_neg hv]
    split_ifs <;> simp_all

/-! ## Unit-file round trip (C18) -/

theorem foldl_append_data (f : PortPair → String) (p : PortPairs) (acc : String) :
    (p.foldl (fun w q => w ++ f q) acc).data = acc.data ++ (p.map fun q => (f q).data).flatten := by
  induction p generalizing acc with
  | nil => simp
  | cons q rest ih =>
    rw [List.foldl_cons, ih, String.data_append]
    simp

/-- The characters of a written line, without the newline. -/
theorem mappingLine_data (q : PortPair) :
    (mappingLine q).data =
      (mappingText (q.Internal : Int) (q.External : Int)).data ++ ['\n'] := by
  have hI : ∀ n : Nat, Itoa (n : Int) = FormatUint n := by
    intro n
    unfold Itoa FormatUint
    rw [if_neg (by omega), Int.natAbs_ofNat]
  unfold mappingLine mappingText
  rw [hI, hI, String.data_append, String.data_append, String.data_append, String.data_append]
  show mappingPrefix ++ _ ++ [','] ++ _ ++ ['\n'] = _
  simp

theorem splitOn_lines (lines : List (List Char)) (h : ∀ l ∈ lines, '\n' ∉ l) :
    ((lines.map fun l => l ++ ['\n']).flatten).splitOn '\n' = lines ++ [[]] := by
  induction lines with
  | nil => rfl
  | cons l rest ih =>
    have hl : ∀ x ∈ l, ¬ ((fun c => c == '\n') x = true) := by
      intro x hx hxs
      have : x = '\n' := by simpa using hxs
      exact h l (List.mem_cons_self _ _) (this ▸ hx)
    have ih1 := ih fun x hx => h x (List.mem_cons_of_mem _ hx)
    unfold List.splitOn at ih1 ⊢
    rw [List.map_cons, List.flatten_cons, List.append_assoc, List.singleton_append,
      List.splitOnP_first (fun c => c == '\n') l hl '\n' (by simp), ih1]
    rfl

theorem utf8Len_append (a b : List Char) : utf8Len (a ++ b) = utf8Len a + utf8Len b := by
  simp [utf8Len]

theorem utf8Len_toDigits (n : Nat) (h : n < 65536) : utf8Len (Nat.toDigits 10 n) ≤ 5 := by
  have hlen : (Nat.toDigits 10 n).length ≤ 5 := by
    have h5 : (Nat.repr n).length ≤ 5 := Nat.repr_length n 5 (by norm_num) (by omega)
    exact h5
  have hone : ∀ l : List Char, (∀ c ∈ l, c.utf8Size = 1) → utf8Len l = l.length := by
    intro l hl
    induction l with
    | nil => rfl
    | cons c cs ih =>
      have hc := hl c (List.mem_cons_self _ _)
      have := ih fun x hx => hl x (List.mem_cons_of_mem _ hx)
      simp only [utf8Len, List.map_cons, List.sum_cons, List.length_cons] at this ⊢
      omega
  rw [hone _ fun c hc => by
    obtain ⟨m, hm, rfl⟩ := toDigits_mem n c hc
    exact (digitChar_plain m hm).2.2.2]
  exact hlen

/-- A written line is a token of the scanner as it stands: it is shorter than
the largest token, has no newline in it and does not end in a carriage
return. -/
theorem mappingText_token (q : PortPair) (hi : q.Internal < 65536) (he : q.External < 65536) :
    utf8Len (mappingText (q.Internal : Int) (q.External : Int)).data < maxScanTokenSize ∧
    '\n' ∉ (mappingText (q.Internal : Int) (q.External : Int)).data ∧
    dropCR (mappingText (q.Internal : Int) (q.External : Int)).data =
      (mappingText (q.Internal : Int) (q.External : Int)).data := by
  have hI : ∀ n : Nat, (Itoa (n : Int)).data = Nat.toDigits 10 n := by
    intro n
    unfold Itoa
    rw [if_neg (by omega), Int.natAbs_ofNat]
  have hnl : ∀ n : Nat, '\n' ∉ Nat.toDigits 10 n := fun n =>
    toDigits_no_char _ _ fun m hm => (digitChar_plain m hm).2.1
  unfold mappingText
  simp only [hI]
  refine ⟨?_, ?_, ?_⟩
  · have h1 := utf8Len_toDigits _ hi
    have h2 := utf8Len_toDigits _ he
    have h3 : utf8Len mappingPrefix = 14 := by decide
    have h4 : utf8Len [','] = 1 := by decide
    rw [utf8Len_append, utf8Len_append, ← List.singleton_append, utf8Len_append, h3, h4]
    unfold maxScanTokenSize
    omega
  · simp only [List.mem_append, List.mem_cons, not_or]
    exact ⟨by decide, hnl _, by decide, hnl _⟩
  · have hcr : ∀ n : Nat, '\r' ∉ Nat.toDigits 10 n := fun n =>
      toDigits_no_char _ _ fun m hm => (digitChar_plain m hm).2.2.1
    unfold dropCR
    rw [if_neg]
    intro hc
    have hmem := List.mem_of_getLast?_eq_some hc
    simp only [List.mem_append, List.mem_cons] at hmem
    rcases hmem with h1 | h2 | h3 | h4
    · exact absurd h1 (by decide)
    · exact hcr _ h2
    · exact absurd h3 (by decide)
    · exact hcr _ h4

theorem scanTokens_lines (lines : List (List Char))
    (h : ∀ l ∈ lines, utf8Len l < maxScanTokenSize ∧ dropCR l = l) :
    scanTokens (lines ++ [[]]) = (lines.map String.mk, none) := by
  induction lines with
  | nil => rfl
  | cons l rest ih =>
    have hl := h l (List.mem_cons_self _ _)
    have ih1 := ih fun x hx => h x (List.mem_cons_of_mem _ hx)
    cases hr : rest ++ [[]] with
    | nil => simp at hr
    | cons x xs =>
      rw [List.cons_append, hr, scanTokens, if_neg (by omega), ← hr, ih1, hl.2]
      · rfl
      · simp

theorem intToPort_natCast (n : Nat) (h : n < 65536) : intToPort (n : Int) = n := by
  unfold intToPort
  delta Port
  omega

theorem readLines_mappingText (p : PortPairs)
    (h : ∀ q ∈ p, 0 < q.Internal ∧ q.Internal < 65536 ∧ 0 < q.External ∧ q.External < 65536) :
    (p.map fun q => mappingText (q.Internal : Int) (q.External : Int)).foldl readLine [] = p := by
  induction p with
  | nil => rfl
  | cons q rest ih =>
    have hq := h q (List.mem_cons_self _ _)
    have hc : (q.Internal : Int) > 0 ∧ (q.Internal : Int) < 65536 ∧ (q.External : Int) > 0 ∧
        (q.External : Int) < 65536 :=
      ⟨by exact_mod_cast hq.1, by exact_mod_cast hq.2.1, by exact_mod_cast hq.2.2.1,
        by exact_mod_cast hq.2.2.2⟩
    rw [List.map_cons, List.foldl_cons, readLines_eq, readLine_mappingText,
      ih fun x hx => h x (List.mem_cons_of_mem _ hx), if_pos hc,
      intToPort_natCast _ hq.2.1, intToPort_natCast _ hq.2.2.2]
    rfl

/-- C18: for every sequence of pairs whose internal and external ports all lie
in (0, 65536), reading the text that `WritePortsToUnitFile` writes returns
exactly the sequence, in the same order, and no error. -/
theorem unit_file_round_trip (p : PortPairs)
    (h : ∀ q ∈ p, 0 < q.Internal ∧ q.Internal < 65536 ∧ 0 < q.External ∧ q.External < 65536) :
    ReadPortsFromUnitFile (PortPairs.WritePortsToUnitFile p) = (p, none) := by
  have hdata : (PortPairs.WritePortsToUnitFile p).data =
      ((p.map fun q => (mappingText (q.Internal : Int) (q.External : Int)).data).map
        fun l => l ++ ['\n']).flatten := by
    unfold PortPairs.WritePortsToUnitFile
    rw [foldl_append_data, List.map_map]
    simp only [mappingLine_data]
    rfl
  have htok : ∀ l ∈ p.map (fun q => (mappingText (q.Internal : Int) (q.External : Int)).data),
      utf8Len l < maxScanTokenSize ∧ '\n' ∉ l ∧ dropCR l = l := by
    intro l hl
    obtain ⟨q, hq, rfl⟩ := List.mem_map.1 hl
    exact mappingText_token q (h q hq).2.1 (h q hq).2.2.2
  unfold ReadPortsFromUnitFile
  rw [hdata, splitOn_lines _ fun l hl => (htok l hl).2.1,
    scanTokens_lines _ fun l hl => ⟨(htok l hl).1, (htok l hl).2.2⟩]
  simp only [List.map_map]
  have hmap : (p.map (String.mk ∘ fun q =>
      (mappingText (q.Internal : Int) (q.External : Int)).data)) =
      p.map fun q => mappingText (q.Internal : Int) (q.External : Int) := by
    apply List.map_congr_left
    intro q _
    rfl
  rw [hmap, readLines_mappingText p h]

/-- Witness of `unit_file_round_trip`: the pairs 80:8080 and 443:8443. -/
theorem unit_file_round_trip_witness :
    (∀ q ∈ ([⟨80, 8080⟩, ⟨443, 8443⟩] : PortPairs),
      0 < q.Internal ∧ q.Internal < 65536 ∧ 0 < q.External ∧ q.External < 65536) ∧
    PortPairs.WritePortsToUnitFile [⟨80, 8080⟩, ⟨443, 8443⟩] =
      "X-PortMapping=80,8080\nX-PortMapping=443,8443\n" ∧
    ReadPortsFromUnitFile (PortPairs.WritePortsToUnitFile [⟨80, 8080⟩, ⟨443, 8443⟩]) =
      ([⟨80, 8080⟩, ⟨443, 8443⟩], none) :=
  ⟨by decide, by decide, unit_file_round_trip [⟨80, 8080⟩, ⟨443, 8443⟩] (by decide)⟩

/-! ## Reservation paths (C13) -/

theorem splitOn_append_sep (sep : Char) (xs ys : List Char) :
    (xs ++ sep :: ys).splitOn sep = xs.splitOn sep ++ ys.splitOn sep := by
  unfold List.splitOn
  induction xs with
  | nil => simp [List.splitOnP_cons]
  | cons x xs ih =>
    rw [List.cons_append, List.splitOnP_cons, List.splitOnP_cons, ih]
    by_cases hx : (x == sep) = true
    · simp [hx]
    · have hne := List.splitOnP_ne_nil (fun c => c == sep) xs
      cases hs : List.splitOnP (fun c => c == sep) xs with
      | nil => exact absurd hs hne
      | cons a as => simp [hx, List.modifyHead]

theorem splitOn_mem_no_sep (sep : Char) (xs : List Char) : ∀ l ∈ xs.splitOn sep, sep ∉ l := by
  unfold List.splitOn
  induction xs with
  | nil => simp
  | cons x xs ih =>
    rw [List.splitOnP_cons]
    by_cases hx : (x == sep) = true
    · intro l hl
      simp only [hx, if_true, List.mem_cons] at hl
      rcases hl with rfl | hl
      · simp
      · exact ih l hl
    · have hne := List.splitOnP_ne_nil (fun c => c == sep) xs
      cases hs : List.splitOnP (fun c => c == sep) xs with
      | nil => exact absurd hs hne
      | cons a as =>
        rw [hs] at ih
        intro l hl
        simp only [hx, List.modifyHead] at hl
        rcases List.mem_cons.1 hl with rfl | hl
        · have ha := ih a (List.mem_cons_self _ _)
          have hxs : sep ≠ x := fun h => hx (by simp [h])
          simp [ha, hxs]
        · exact ih l (List.mem_cons_of_mem _ hl)

theorem splitOn_plain (sep : Char) (xs : List Char) (h : sep ∉ xs) : xs.splitOn sep = [xs] := by
  unfold List.splitOn
  apply List.splitOnP_eq_single
  intro x hx hxs
  have : x = sep := by simpa using hxs
  exact h (this ▸ hx)

theorem intercalate_snoc (c : Char) (l : List (List Char)) (d : List Char) (h : l ≠ []) :
    [c].intercalate (l ++ [d]) = [c].intercalate l ++ c :: d := by
  cases l with
  | nil => exact absurd rfl h
  | cons x xs =>
    rw [List.cons_append, intercalate_singleton_cons, intercalate_singleton_cons]
    simp

theorem cleanElem_pathElem (r : Bool) (b : CleanBuf) (c : List Char) (hc : pathElem c) :
    cleanElem r b c = { b with out := c :: b.out } := by
  unfold cleanElem
  rw [if_neg hc.1, if_neg hc.2.1, if_neg hc.2.2.1]

theorem cleanElem_inv (r : Bool) (b : CleanBuf) (c : List Char) (h : CleanInv r b)
    (hc : '/' ∉ c) : CleanInv r (cleanElem r b c) := by
  obtain ⟨el, ho, hn, hr⟩ := h
  by_cases h1 : c = []
  · unfold cleanElem
    rw [if_pos h1]
    exact ⟨el, ho, hn, hr⟩
  by_cases h2 : c = ['.']
  · unfold cleanElem
    rw [if_neg h1, if_pos h2]
    exact ⟨el, ho, hn, hr⟩
  by_cases h3 : c = ['.', '.']
  · unfold cleanElem
    rw [if_neg h1, if_neg h2, if_pos h3]
    have hlen : b.out.length = el.length + b.dotdot := by
      rw [ho, List.length_append, List.length_replicate]
    by_cases h4 : b.out.length > b.dotdot
    · rw [if_pos h4]
      cases el with
      | nil => simp at hlen; omega
      | cons e es =>
        refine ⟨es, ?_, fun x hx => hn x (List.mem_cons_of_mem _ hx), hr⟩
        show b.out.tail = _
        rw [ho]
        rfl
    · rw [if_neg h4]
      have hel : el = [] := List.length_eq_zero.1 (by omega)
      cases r with
      | false =>
        rw [if_pos rfl]
        refine ⟨[], ?_, by simp, by simp⟩
        show c :: b.out = [] ++ List.replicate (b.out.length + 1) ['.', '.']
        rw [ho, hel, h3]
        simp [List.replicate_succ]
      | true =>
        rw [if_neg (by simp)]
        exact ⟨el, ho, hn, hr⟩
  · rw [cleanElem_pathElem r b c ⟨h1, h2, h3, hc⟩]
    exact ⟨c :: el, by simp [ho], by
      intro x hx
      rcases List.mem_cons.1 hx with rfl | hx
      · exact ⟨h1, h2, h3, hc⟩
      · exact hn x hx, hr⟩

theorem clean_fold_inv (r : Bool) (cs : List (List Char)) (hcs : ∀ c ∈ cs, '/' ∉ c)
    (b : CleanBuf) (h : CleanInv r b) : CleanInv r (cs.foldl (cleanElem r) b) := by
  induction cs generalizing b with
  | nil => exact h
  | cons c cs ih =>
    exact ih (fun x hx => hcs x (List.mem_cons_of_mem _ hx)) _
      (cleanElem_inv r b c h (hcs c (List.mem_cons_self _ _)))

theorem cleanBuf_inv (path : List Char) : CleanInv (cleanRooted path) (cleanBuf path) :=
  clean_fold_inv _ _ (splitOn_mem_no_sep '/' path) _ ⟨[], rfl, by simp, fun _ => rfl⟩

theorem clean_fold_pathElems (r : Bool) (cs : List (List Char)) (h : ∀ c ∈ cs, pathElem c)
    (b : CleanBuf) : cs.foldl (cleanElem r) b = { b with out := cs.reverse ++ b.out } := by
  induction cs generalizing b with
  | nil => rfl
  | cons c cs ih =>
    rw [List.foldl_cons, cleanElem_pathElem r b c (h c (List.mem_cons_self _ _)),
      ih fun x hx => h x (List.mem_cons_of_mem _ hx)]
    simp

theorem clean_fold_dotdots (n k : Nat) :
    (List.replicate n ['.', '.']).foldl (cleanElem false) ⟨List.replicate k ['.', '.'], k⟩ =
      ⟨List.replicate (k + n) ['.', '.'], k + n⟩ := by
  induction n generalizing k with
  | zero => rfl
  | succ n ih =>
    rw [List.replicate_succ, List.foldl_cons]
    have hstep : cleanElem false ⟨List.replicate k ['.', '.'], k⟩ ['.', '.'] =
        ⟨List.replicate (k + 1) ['.', '.'], k + 1⟩ := by
      unfold cleanElem
      rw [if_neg (by decide), if_neg (by decide), if_pos rfl, if_neg (by simp), if_pos rfl]
      simp [List.replicate_succ]
    rw [hstep, ih (k + 1)]
    have : k + 1 + n = k + (n + 1) := by omega
    rw [this]

/-- Cleaning the elements of a buffer again gives the buffer. -/
theorem clean_replay (r : Bool) (b : CleanBuf) (h : CleanInv r b) :
    b.out.reverse.foldl (cleanElem r) ⟨[], 0⟩ = b := by
  obtain ⟨el, ho, hn, hr⟩ := h
  have hdots : (List.replicate b.dotdot ['.', '.']).foldl (cleanElem r) ⟨[], 0⟩ =
      ⟨List.replicate b.dotdot ['.', '.'], b.dotdot⟩ := by
    cases r with
    | false => simpa using clean_fold_dotdots b.dotdot 0
    | true => rw [hr rfl]; rfl
  rw [ho, List.reverse_append, List.reverse_replicate, List.foldl_append, hdots,
    clean_fold_pathElems r el.reverse (fun c hc => hn c (List.mem_reverse.1 hc)),
    List.reverse_reverse]
  cases b
  simp only at ho
  simp [ho]

theorem cleanInv_elems (r : Bool) (b : CleanBuf) (h : CleanInv r b) :
    ∀ c ∈ b.out, c ≠ [] ∧ '/' ∉ c := by
  obtain ⟨el, ho, hn, _⟩ := h
  intro c hc
  rw [ho, List.mem_append] at hc
  rcases hc with hc | hc
  · exact ⟨(hn c hc).1, (hn c hc).2.2.2⟩
  · rw [List.eq_of_mem_replicate hc]
    exact ⟨by decide, by decide⟩

theorem cleanInv_empty (r : Bool) (b : CleanBuf) (h : CleanInv r b) (he : b.out = []) :
    b = ⟨[], 0⟩ := by
  obtain ⟨el, ho, _, _⟩ := h
  cases b with
  | mk out dotdot =>
    simp only at ho he
    subst he
    have hlen := congrArg List.length ho
    simp only [List.length_nil, List.length_append, List.length_replicate] at hlen
    have : dotdot = 0 := by omega
    rw [this]

/-- The elements of a cleaned path, cleaned again, give the buffer it was
written from. -/
theorem clean_render_split (r : Bool) (b : CleanBuf) (h : CleanInv r b) :
    ((cleanRender r b).splitOn '/').foldl (cleanElem r) ⟨[], 0⟩ = b := by
  have hel := cleanInv_elems r b h
  have hsplit : b.out ≠ [] → (['/'].intercalate b.out.reverse).splitOn '/' = b.out.reverse := by
    intro hne
    exact List.splitOn_intercalate _ '/' (fun l hl => (hel l (List.mem_reverse.1 hl)).2)
      (by simpa using hne)
  have hskip : ∀ s : CleanBuf, cleanElem r s [] = s := fun s => by
    unfold cleanElem
    rw [if_pos rfl]
  have hdot : ∀ s : CleanBuf, cleanElem r s ['.'] = s := fun s => by
    unfold cleanElem
    rw [if_neg (by decide), if_pos rfl]
  by_cases hne : b.out = []
  · rw [cleanInv_empty r b h hne]
    cases r with
    | true =>
      show (['/'].splitOn '/').foldl (cleanElem true) ⟨[], 0⟩ = _
      have : ['/'].splitOn '/' = [[], []] := by decide
      rw [this, List.foldl_cons, List.foldl_cons, List.foldl_nil, hskip, hskip]
    | false =>
      show (['.'].splitOn '/').foldl (cleanElem false) ⟨[], 0⟩ = _
      have : ['.'].splitOn '/' = [['.']] := by decide
      rw [this, List.foldl_cons, List.foldl_nil, hdot]
  · cases r with
    | true =>
      have hr : cleanRender true b = [] ++ '/' :: ['/'].intercalate b.out.reverse := by
        unfold cleanRender
        rw [if_pos rfl]
        rfl
      have hnil : ([] : List Char).splitOn '/' = [[]] := by decide
      rw [hr, splitOn_append_sep, hnil, hsplit hne, List.singleton_append, List.foldl_cons,
        hskip]
      exact clean_replay true b h
    | false =>
      have hr : cleanRender false b = ['/'].intercalate b.out.reverse := by
        unfold cleanRender
        rw [if_neg (by decide), if_neg hne]
      rw [hr, hsplit hne]
      exact clean_replay false b h

theorem clean_render_ne_nil (r : Bool) (b : CleanBuf) (h : CleanInv r b) :
    cleanRender r b ≠ [] ∧ cleanRooted (cleanRender r b) = r := by
  have hel := cleanInv_elems r b h
  cases r with
  | true =>
    unfold cleanRender
    rw [if_pos rfl]
    exact ⟨by simp, rfl⟩
  | false =>
    unfold cleanRender
    rw [if_neg (by decide)]
    by_cases hne : b.out = []
    · rw [if_pos hne]
      exact ⟨by simp, by decide⟩
    · rw [if_neg hne]
      cases hrev : b.out.reverse with
      | nil => exact absurd (List.reverse_eq_nil_iff.1 hrev) hne
      | cons c cs =>
        have hc := hel c (List.mem_reverse.1 (hrev ▸ List.mem_cons_self _ _))
        rw [intercalate_singleton_cons]
        cases c with
        | nil => exact absurd rfl hc.1
        | cons x xs =>
          have hx : x ≠ '/' := fun hx => hc.2 (hx ▸ List.mem_cons_self _ _)
          refine ⟨by simp, ?_⟩
          unfold cleanRooted
          simp [hx]

theorem cleanRooted_append (a b : List Char) (h : a ≠ []) :
    cleanRooted (a ++ b) = cleanRooted a := by
  cases a with
  | nil => exact absurd rfl h
  | cons x xs => rfl

/-- Cleaning a path that ends in a plain element writes that element last. -/
theorem cleanBuf_snoc (path d : List Char) (hp : path ≠ []) (hd : pathElem d) :
    cleanRooted (path ++ '/' :: d) = cleanRooted path ∧
    cleanBuf (path ++ '/' :: d) = { cleanBuf path with out := d :: (cleanBuf path).out } := by
  have hr := cleanRooted_append path ('/' :: d) hp
  refine ⟨hr, ?_⟩
  unfold cleanBuf
  rw [hr, splitOn_append_sep, splitOn_plain '/' d hd.2.2.2, List.foldl_append, List.foldl_cons,
    List.foldl_nil, cleanElem_pathElem _ _ d hd]

/-- A cleaned path with at least one element, the separator and a plain
element make a clean path: cleaning it changes nothing. -/
theorem clean_render_elem (r : Bool) (b : CleanBuf) (d : List Char) (h : CleanInv r b)
    (hne : b.out ≠ []) (hd : pathElem d) :
    cleanRooted (cleanRender r b ++ '/' :: d) = r ∧
    cleanBuf (cleanRender r b ++ '/' :: d) = { b with out := d :: b.out } ∧
    cleanRender r { b with out := d :: b.out } = cleanRender r b ++ '/' :: d ∧
    CleanInv r { b with out := d :: b.out } := by
  have h0 := clean_render_ne_nil r b h
  have h1 := cleanBuf_snoc (cleanRender r b) d h0.1 hd
  have hb : cleanBuf (cleanRender r b) = b := by
    unfold cleanBuf
    rw [h0.2]
    exact clean_render_split r b h
  have hinv : CleanInv r { b with out := d :: b.out } := by
    have := cleanElem_inv r b d h hd.2.2.2
    rwa [cleanElem_pathElem r b d hd] at this
  refine ⟨h1.1.trans h0.2, by rw [h1.2, hb], ?_, hinv⟩
  have hrev : b.out.reverse ≠ [] := by simpa using hne
  unfold cleanRender
  cases r with
  | true =>
    rw [if_pos rfl, if_pos rfl]
    show '/' :: ['/'].intercalate (d :: b.out).reverse = _
    rw [List.reverse_cons, intercalate_snoc _ _ _ hrev]
    rfl
  | false =>
    have hd0 : ¬ (d :: b.out = []) := by simp
    simp only [Bool.false_eq_true, if_false, if_neg hne, if_neg hd0]
    rw [List.reverse_cons, intercalate_snoc _ _ _ hrev]

theorem Join_two (s d : String) (hs : s.data ≠ []) :
    filepath.Join [s, d] = filepath.Clean (String.mk (s.data ++ '/' :: d.data)) := by
  unfold filepath.Join
  have hdrop : List.dropWhile (fun e : String => e.data.isEmpty) [s, d] = [s, d] := by
    rw [List.dropWhile_cons_of_neg]
    simpa using hs
  have hi : ['/'].intercalate (List.map String.data [s, d]) = s.data ++ '/' :: d.data := by
    simp [List.intercalate]
  simp only [hdrop, hi]

/-- Joining a cleaned path that has an element with a plain element appends
the separator and the element. -/
theorem Join_clean_elem (r : Bool) (b : CleanBuf) (s d : String) (hs : s.data = cleanRender r b)
    (h : CleanInv r b) (hne : b.out ≠ []) (hd : pathElem d.data) :
    (filepath.Join [s, d]).data = s.data ++ '/' :: d.data ∧
    (filepath.Join [s, d]).data = cleanRender r { b with out := d.data :: b.out } := by
  have h1 := clean_render_elem r b d.data h hne hd
  have hjoin : (filepath.Join [s, d]).data = cleanRender r { b with out := d.data :: b.out } := by
    rw [Join_two s d (hs ▸ (clean_render_ne_nil r b h).1)]
    unfold filepath.Clean
    rw [if_neg (by simp)]
    show cleanRender (cleanRooted (s.data ++ '/' :: d.data)) (cleanBuf (s.data ++ '/' :: d.data)) = _
    rw [hs, h1.1, h1.2.1]
  exact ⟨by rw [hjoin, h1.2.2.1, hs], hjoin⟩

theorem toDigits_pathElem (n : Nat) : pathElem (Nat.toDigits 10 n) := by
  have hdot : '.' ∉ Nat.toDigits 10 n := by
    intro hmem
    have hall := toDigits_all_isDigit n
    rw [List.all_eq_true] at hall
    exact absurd (hall '.' hmem) (by decide)
  refine ⟨toDigits_ne_nil n, ?_, ?_, ?_⟩
  · intro h
    exact hdot (h ▸ List.mem_cons_self _ _)
  · intro h
    exact hdot (h ▸ List.mem_cons_self _ _)
  · exact toDigits_no_char _ _ fun m hm => (digitChar_cases m hm).2.2.2.2.2.2

theorem toDigits_inj (a b : Nat) (h : Nat.toDigits 10 a = Nat.toDigits 10 b) : a = b := by
  have ha := toDigits_value a
  rw [h, toDigits_value b] at ha
  exact ha.symm

theorem string_data_nil (s : String) (h : s.data = []) : s = "" := by
  cases s
  simp only at h
  subst h
  rfl

theorem Join_device (base : String) (hb : base.data ≠ []) :
    device.DevicePath base "1" = filepath.Clean (String.mk
      (((base.data ++ '/' :: "ports".data) ++ '/' :: "interfaces".data) ++ '/' :: "1".data)) := by
  unfold device.DevicePath filepath.Join
  have hdrop : List.dropWhile (fun e : String => e.data.isEmpty)
      [base, "ports", "interfaces", "1"] = [base, "ports", "interfaces", "1"] := by
    rw [List.dropWhile_cons_of_neg]
    simpa using hb
  have hi : ['/'].intercalate (List.map String.data [base, "ports", "interfaces", "1"]) =
      ((base.data ++ '/' :: "ports".data) ++ '/' :: "interfaces".data) ++ '/' :: "1".data := by
    simp [List.intercalate]
  simp only [hdrop, hi]

/-- The device directory is a cleaned path with at least one element. -/
theorem devicePath_clean (base : String) :
    ∃ r b, CleanInv r b ∧ b.out ≠ [] ∧ (device.DevicePath base "1").data = cleanRender r b := by
  by_cases hb : base.data = []
  · rw [string_data_nil base hb]
    exact ⟨cleanRooted "ports/interfaces/1".data, cleanBuf "ports/interfaces/1".data,
      cleanBuf_inv _, by decide, by decide⟩
  · rw [Join_device base hb]
    have hq : (base.data ++ '/' :: "ports".data) ++ '/' :: "interfaces".data ≠ [] := by simp
    have hsnoc := cleanBuf_snoc _ "1".data hq ⟨by decide, by decide, by decide, by decide⟩
    refine ⟨cleanRooted (((base.data ++ '/' :: "ports".data) ++ '/' :: "interfaces".data) ++
      '/' :: "1".data), cleanBuf (((base.data ++ '/' :: "ports".data) ++
      '/' :: "interfaces".data) ++ '/' :: "1".data), cleanBuf_inv _, ?_, ?_⟩
    · rw [hsnoc.2]
      simp
    · unfold filepath.Clean
      rw [if_neg (by simp)]

/-- For a base directory that is a clean path other than `/` and `.`, the
device directory is the base directory followed by `/ports/interfaces/1`. -/
theorem devicePath_of_clean (base : String) (hc : filepath.Clean base = base)
    (h1 : base ≠ "/") (h2 : base ≠ ".") :
    device.DevicePath base "1" = base ++ "/ports/interfaces/1" := by
  have hb : base.data ≠ [] := by
    intro hb
    unfold filepath.Clean at hc
    rw [if_pos hb] at hc
    exact h2 hc.symm
  have hinv := cleanBuf_inv base.data
  have hdata : base.data = cleanRender (cleanRooted base.data) (cleanBuf base.data) := by
    have := congrArg String.data hc
    unfold filepath.Clean at this
    rw [if_neg hb] at this
    exact this.symm
  have hne : (cleanBuf base.data).out ≠ [] := by
    intro he
    have hemp := cleanInv_empty _ _ hinv he
    rw [hemp] at hdata
    cases hr : cleanRooted base.data with
    | true =>
      rw [hr] at hdata
      exact h1 (String.ext hdata)
    | false =>
      rw [hr] at hdata
      exact h2 (String.ext hdata)
  generalize cleanRooted base.data = r at hinv hdata
  generalize cleanBuf base.data = b at hinv hdata hne
  have e1 := clean_render_elem r b "ports".data hinv hne ⟨by decide, by decide, by decide, by decide⟩
  have e2 := clean_render_elem r _ "interfaces".data e1.2.2.2 (by simp)
    ⟨by decide, by decide, by decide, by decide⟩
  have e3 := clean_render_elem r _ "1".data e2.2.2.2 (by simp)
    ⟨by decide, by decide, by decide, by decide⟩
  rw [e2.2.2.1, e1.2.2.1, ← hdata] at e3
  rw [Join_device base hb]
  apply String.ext
  unfold filepath.Clean
  rw [if_neg (by simp)]
  show cleanRender (cleanRooted _) (cleanBuf _) = _
  rw [e3.1, e3.2.1, e3.2.2.1, String.data_append]
  simp

/-- The two paths of a port, as characters, from the device directory. -/
theorem portPaths_data (base : String) (p : Port) :
    (Port.PortPathsFor base p).1.data =
      (device.DevicePath base "1").data ++ '/' :: Nat.toDigits 10 (p / 100) ∧
    (Port.PortPathsFor base p).2.data =
      (Port.PortPathsFor base p).1.data ++ '/' :: Nat.toDigits 10 p := by
  obtain ⟨r, b, hinv, hne, hroot⟩ := devicePath_clean base
  have j1 := Join_clean_elem r b (device.DevicePath base "1") (FormatUint (p / portsPerBlock))
    hroot hinv hne (toDigits_pathElem _)
  have hinv1 : CleanInv r { b with out := (FormatUint (p / portsPerBlock)).data :: b.out } :=
    (clean_render_elem r b _ hinv hne (toDigits_pathElem (p / portsPerBlock))).2.2.2
  have j2 := Join_clean_elem r _ (filepath.Join [device.DevicePath base "1",
    FormatUint (p / portsPerBlock)]) (FormatUint p) j1.2 hinv1 (by simp) (toDigits_pathElem _)
  exact ⟨j1.1, j2.1⟩

theorem append_sep_cancel (sep : Char) (a a2 b b2 : List Char) (ha : sep ∉ a) (ha2 : sep ∉ a2)
    (h : a ++ sep :: b = a2 ++ sep :: b2) : a = a2 ∧ b = b2 := by
  induction a generalizing a2 with
  | nil =>
    cases a2 with
    | nil => exact ⟨rfl, by simpa using h⟩
    | cons y ys =>
      simp only [List.nil_append, List.cons_append, List.cons.injEq] at h
      exact absurd (h.1 ▸ List.mem_cons_self _ _) ha2
  | cons x xs ih =>
    cases a2 with
    | nil =>
      simp only [List.nil_append, List.cons_append, List.cons.injEq] at h
      exact absurd (h.1 ▸ List.mem_cons_self _ _) ha
    | cons y ys =>
      simp only [List.cons_append, List.cons.injEq] at h
      have := ih ys (fun hm => ha (List.mem_cons_of_mem _ hm))
        (fun hm => ha2 (List.mem_cons_of_mem _ hm)) h.2
      exact ⟨by rw [h.1, this.1], this.2⟩

/-- C13: the reservation path scheme. For every base directory and all ports
`p` and `q`, `PortPathsFor p` returns the block directory `<device
directory>/<p / 100>` (decimal) and the leaf path `<block directory>/<p>`,
where the device directory is `<base>/ports/interfaces/1` when the base
directory is a clean path other than `/` and `.`; two ports have the same
block directory exactly when `p / 100 = q / 100`, distinct ports have
distinct leaf paths, and 8099 is in block 80 and 8100 in block 81, two
distinct directories. -/
theorem port_paths_scheme (gearBasePath : String) (p q : Port) :
    (filepath.Clean gearBasePath = gearBasePath → gearBasePath ≠ "/" → gearBasePath ≠ "." →
      device.DevicePath gearBasePath "1" = gearBasePath ++ "/ports/interfaces/1") ∧
    (Port.PortPathsFor gearBasePath p).1 =
      device.DevicePath gearBasePath "1" ++ "/" ++ FormatUint (p / 100) ∧
    (Port.PortPathsFor gearBasePath p).2 =
      (Port.PortPathsFor gearBasePath p).1 ++ "/" ++ FormatUint p ∧
    ((Port.PortPathsFor gearBasePath p).1 = (Port.PortPathsFor gearBasePath q).1 ↔
      p / 100 = q / 100) ∧
    (p ≠ q → (Port.PortPathsFor gearBasePath p).2 ≠ (Port.PortPathsFor gearBasePath q).2) ∧
    (Port.PortPathsFor gearBasePath 8099).1 = device.DevicePath gearBasePath "1" ++ "/80" ∧
    (Port.PortPathsFor gearBasePath 8100).1 = device.DevicePath gearBasePath "1" ++ "/81" ∧
    (Port.PortPathsFor gearBasePath 8099).1 ≠ (Port.PortPathsFor gearBasePath 8100).1 := by
  have hp := portPaths_data gearBasePath p
  have hq := portPaths_data gearBasePath q
  have hblock : ∀ a b : Port, (Port.PortPathsFor gearBasePath a).1 =
      (Port.PortPathsFor gearBasePath b).1 ↔ a / 100 = b / 100 := by
    intro a b
    have ha := (portPaths_data gearBasePath a).1
    have hb := (portPaths_data gearBasePath b).1
    constructor
    · intro h
      have hd := congrArg String.data h
      rw [ha, hb] at hd
      exact toDigits_inj _ _ (List.cons.inj (List.append_cancel_left hd)).2
    · intro h
      apply String.ext
      rw [ha, hb, h]
  have h80 := (portPaths_data gearBasePath 8099).1
  have h81 := (portPaths_data gearBasePath 8100).1
  refine ⟨devicePath_of_clean gearBasePath, ?_, ?_, hblock p q, ?_, ?_, ?_, ?_⟩
  · apply String.ext
    rw [hp.1, String.data_append, String.data_append]
    simp [FormatUint]
  · apply String.ext
    rw [hp.2, String.data_append, String.data_append]
    simp [FormatUint]
  · intro hne h
    have hd := congrArg String.data h
    rw [hp.2, hq.2, hp.1, hq.1, List.append_assoc, List.append_assoc] at hd
    have hd1 := (List.cons.inj (List.append_cancel_left hd)).2
    have hc := append_sep_cancel '/' _ _ _ _ (toDigits_pathElem _).2.2.2
      (toDigits_pathElem _).2.2.2 hd1
    exact hne (toDigits_inj _ _ hc.2)
  · apply String.ext
    rw [h80, String.data_append]
    rfl
  · apply String.ext
    rw [h81, String.data_append]
    rfl
  · intro h
    exact absurd ((hblock 8099 8100).1 h) (by decide)

/-- Evaluation of the path scheme for the base directory `/var/lib/gears`:
the paths of the ports 8099 and 8100. -/
theorem port_paths_scheme_witness :
    Port.PortPathsFor "/var/lib/gears" 8099 =
      ("/var/lib/gears/ports/interfaces/1/80", "/var/lib/gears/ports/interfaces/1/80/8099") ∧
    Port.PortPathsFor "/var/lib/gears" 8100 =
      ("/var/lib/gears/ports/interfaces/1/81", "/var/lib/gears/ports/interfaces/1/81/8100") ∧
    (Port.PortPathsFor "/var/lib/gears" 8099).1 ≠ (Port.PortPathsFor "/var/lib/gears" 8100).1 :=
  ⟨by decide, by decide, (port_paths_scheme "/var/lib/gears" 8099 8100).2.2.2.2.2.2.2⟩

/-! ## The scan cursor and the scan windows (C14, C15) -/

theorem fail_frame (a : portAllocator) (done : Option Nat) :
    (portAllocator.fail a done).a = { a with failures := wrapInt (a.failures + 1) } := by
  unfold portAllocator.fail
  simp only
  split_ifs
  · cases trySend done <;> rfl
  · rfl

theorem scanTaken_frame (taken : List String) (s t : Port) (a1 : portAllocator)
    (done : Option Nat) :
    (scanTaken taken s t a1 done).a.block = a1.block ∧
    (scanTaken taken s t a1 done).a.min = a1.min ∧
    (scanTaken taken s t a1 done).a.max = a1.max := by
  unfold scanTaken
  simp only
  split_ifs
  · exact ⟨rfl, rfl, rfl⟩
  · simp [fail_frame]
  · exact ⟨rfl, rfl, rfl⟩

/-- An iteration of `findPorts` moves the cursor to `nextBlock` and keeps the
bounds, whatever the directory holds. -/
theorem scanBlock_frame (dir : Nat → Listing) (a : portAllocator) (done : Option Nat) :
    (scanBlock dir a done).a.block = nextBlock a ∧
    (scanBlock dir a done).a.min = a.min ∧
    (scanBlock dir a done).a.max = a.max := by
  unfold scanBlock
  simp only
  cases dir (windowStart a / portsPerBlock) with
  | openFailed => exact scanTaken_frame _ _ _ _ _
  | readFailed => simp [fail_frame]
  | names l => exact scanTaken_frame _ _ _ _ _

theorem cursorAfter_congr (a b : portAllocator) (i : Nat) (h1 : a.block = b.block)
    (h2 : a.min = b.min) (h3 : a.max = b.max) : cursorAfter a i = cursorAfter b i := by
  induction i generalizing a b with
  | zero => exact h1
  | succ i ih =>
    have hn : nextBlock a = nextBlock b := by
      unfold nextBlock
      rw [h1, h2, h3]
    exact ih _ _ hn h2 h3

/-- A run of `findPorts` that has not ended after `k` iterations has its cursor
at `cursorAfter` and its bounds unchanged. -/
theorem findPorts_cursor (dirAt : Nat → Nat → Listing) (k t : Nat) (a : portAllocator)
    (done : Option Nat) (h : (portAllocator.findPorts dirAt k t a done).finished = false) :
    (portAllocator.findPorts dirAt k t a done).a.block = cursorAfter a k ∧
    (portAllocator.findPorts dirAt k t a done).a.min = a.min ∧
    (portAllocator.findPorts dirAt k t a done).a.max = a.max := by
  induction k generalizing t a done with
  | zero => exact ⟨rfl, rfl, rfl⟩
  | succ k ih =>
    have hf := scanBlock_frame (dirAt t) a done
    unfold portAllocator.findPorts at h ⊢
    simp only at h ⊢
    by_cases hr : (scanBlock (dirAt t) a done).finished = true
    · rw [if_pos hr] at h
      rw [hr] at h
      exact absurd h (by decide)
    · rw [if_neg hr] at h ⊢
      have ih1 := ih (t + 1) (scanBlock (dirAt t) a done).a (scanBlock (dirAt t) a done).done h
      refine ⟨?_, ih1.2.1.trans hf.2.1, ih1.2.2.trans hf.2.2⟩
      show (portAllocator.findPorts dirAt k (t + 1) _ _).a.block = cursorAfter _ k
      rw [ih1.1]
      exact cursorAfter_congr _ _ k hf.1 hf.2.1 hf.2.2

theorem windowStart_ge (a : portAllocator) : a.min ≤ windowStart a := by
  unfold windowStart
  split_ifs with h
  · exact Nat.le_refl _
  · exact Nat.le_of_not_lt h

theorem windowEnd_le (a : portAllocator) : windowEnd a ≤ a.max := by
  unfold windowEnd
  split_ifs with h
  · exact Nat.le_refl _
  · exact Nat.le_of_not_lt h

/-- An iteration over an empty window counts as a failure. -/
theorem scanBlock_empty_window (dir : Nat → Listing) (a : portAllocator) (done : Option Nat)
    (h : windowEnd a ≤ windowStart a) :
    scanBlock dir a done = portAllocator.fail { a with block := nextBlock a } done := by
  unfold scanBlock
  simp only
  cases dir (windowStart a / portsPerBlock) with
  | openFailed => exact scanTaken_emptyWalk _ _ _ _ _ (scanWindow_empty _ _ _ _ h)
  | readFailed => rfl
  | names l => exact scanTaken_emptyWalk _ _ _ _ _ (scanWindow_empty _ _ _ _ h)

/-- The cursor of a range without overflow, before it wraps: it advances by
one block per iteration. -/
theorem cursorAfter_advance (mn mx : Nat) (hmax : mx < 18446744073709551600) (i j : Nat)
    (a : portAllocator) (hmn : a.min = mn) (hmx : a.max = mx) (hb : a.block = mn / 100 + j)
    (hij : mn / 100 + j + i ≤ mx / 100) : cursorAfter a i = mn / 100 + j + i := by
  induction i generalizing a j with
  | zero => exact hb
  | succ i ih =>
    have hn : nextBlock a = mn / 100 + (j + 1) := by
      unfold nextBlock wrapUint uintSize portsPerBlock
      rw [hb, hmx]
      delta Port
      have h1 : (mn / 100 + j + 1) % 18446744073709551616 = mn / 100 + j + 1 := by omega
      rw [h1]
      have h2 : (mn / 100 + j + 1) * 100 % 18446744073709551616 = (mn / 100 + j + 1) * 100 := by
        omega
      rw [h2, if_neg (by omega)]
      omega
    have := ih (j + 1) { a with block := nextBlock a } hmn hmx hn (by omega)
    show cursorAfter { a with block := nextBlock a } i = _
    rw [this]
    omega

theorem start_fields (mn mx : Port) :
    (StartPortAllocator internalPortAllocator mn mx).block = mn / 100 ∧
    (StartPortAllocator internalPortAllocator mn mx).min = mn ∧
    (StartPortAllocator internalPortAllocator mn mx).max = mx ∧
    (StartPortAllocator internalPortAllocator mn mx).failures = 0 :=
  ⟨rfl, rfl, rfl, rfl⟩

/-- The window and the next cursor of a range without overflow at cursor
`mn / 100 + i`, up to the block of `mx`. -/
theorem window_at (mn mx : Nat) (hmax : mx < 18446744073709551600) (i : Nat)
    (a : portAllocator) (hmn : a.min = mn) (hmx : a.max = mx) (hb : a.block = mn / 100 + i)
    (hi : mn / 100 + i ≤ mx / 100) :
    windowStart a = (if (mn / 100 + i) * 100 < mn then mn else (mn / 100 + i) * 100) ∧
    windowEnd a = (if mn / 100 + i < mx / 100 then (mn / 100 + i + 1) * 100 else mx) ∧
    nextBlock a = (if mn / 100 + i < mx / 100 then mn / 100 + i + 1 else mn / 100) := by
  have h0 : (mn / 100 + i) * 100 % 18446744073709551616 = (mn / 100 + i) * 100 := by omega
  have h1 : (mn / 100 + i + 1) % 18446744073709551616 = mn / 100 + i + 1 := by omega
  have h2 : (mn / 100 + i + 1) * 100 % 18446744073709551616 = (mn / 100 + i + 1) * 100 := by
    omega
  unfold windowStart windowEnd nextBlock wrapUint uintSize portsPerBlock
  rw [hb, hmn, hmx]
  delta Port
  rw [h0, h1, h2]
  refine ⟨rfl, ?_, ?_⟩
  · by_cases hlt : mn / 100 + i < mx / 100
    · rw [if_pos hlt, if_neg (by omega)]
    · rw [if_neg hlt, if_pos (by omega)]
  · by_cases hlt : mn / 100 + i < mx / 100
    · rw [if_pos hlt, if_neg (by omega)]
    · rw [if_neg hlt, if_pos (by omega)]

theorem window_after (mn mx : Nat) (hmax : mx < 18446744073709551600) (i : Nat)
    (hi : mn / 100 + i ≤ mx / 100) :
    windowStart (allocatorAfter (StartPortAllocator internalPortAllocator mn mx) i) =
      (if (mn / 100 + i) * 100 < mn then mn else (mn / 100 + i) * 100) ∧
    windowEnd (allocatorAfter (StartPortAllocator internalPortAllocator mn mx) i) =
      (if mn / 100 + i < mx / 100 then (mn / 100 + i + 1) * 100 else mx) ∧
    nextBlock (allocatorAfter (StartPortAllocator internalPortAllocator mn mx) i) =
      (if mn / 100 + i < mx / 100 then mn / 100 + i + 1 else mn / 100) := by
  have hc := cursorAfter_advance mn mx hmax i 0 (StartPortAllocator internalPortAllocator mn mx)
    rfl rfl rfl (by omega)
  exact window_at mn mx hmax i _ rfl rfl (by
    show cursorAfter _ i = _
    rw [hc]
    omega) hi

/-- C14: the scan-cursor invariant fails for every range whose upper bound is
a multiple of 100. Started with `mn < mx` (`mn` zero or not), `mx` a multiple
of 100 (and below 2^64 - 16), the worker has after `mx / 100 - mn / 100` iterations its
cursor at block `mx / 100`, and `mx / 100 * 100 < mx` is false: the block holds
no port of the range. The iteration at that cursor has the empty window from
`mx` to `mx`, counts as a failure and only then resets the cursor to
`mn / 100`. -/
theorem cursor_leaves_range_at_block_boundary (mn mx : Port) (hlt : mn < mx)
    (hmul : mx % 100 = 0) (hmax : mx < 18446744073709551600) :
    (∀ (dirAt : Nat → Nat → Listing) (t : Nat) (done : Option Nat),
      (portAllocator.findPorts dirAt (mx / 100 - mn / 100) t
        (StartPortAllocator internalPortAllocator mn mx) done).finished = false →
      (portAllocator.findPorts dirAt (mx / 100 - mn / 100) t
        (StartPortAllocator internalPortAllocator mn mx) done).a.block = mx / 100) ∧
    ¬ (mx / 100 * 100 < mx) ∧ mn / 100 ≤ mx / 100 ∧
    (∀ (a : portAllocator) (dir : Nat → Listing) (done : Option Nat),
      a.min = mn → a.max = mx → a.block = mx / 100 →
      windowStart a = mx ∧ windowEnd a = mx ∧
      scanBlock dir a done = portAllocator.fail { a with block := mn / 100 } done) := by
  delta Port at *
  have hN : mn / 100 + (mx / 100 - mn / 100) = mx / 100 := by omega
  refine ⟨?_, by omega, by omega, ?_⟩
  · intro dirAt t done hfin
    rw [(findPorts_cursor dirAt _ t _ done hfin).1,
      cursorAfter_advance mn mx hmax (mx / 100 - mn / 100) 0 _ rfl rfl rfl (by omega)]
    omega
  · intro a dir done hmn hmx hb
    have hw := window_at mn mx hmax (mx / 100 - mn / 100) a hmn hmx (by omega) (by omega)
    rw [hN] at hw
    rw [if_neg (by omega)] at hw
    rw [if_neg (by omega), if_neg (by omega)] at hw
    have hs : windowStart a = mx := by
      rw [hw.1]
      exact Nat.div_mul_cancel (Nat.dvd_of_mod_eq_zero hmul)
    refine ⟨hs, hw.2.1, ?_⟩
    rw [scanBlock_empty_window dir a done (by rw [hs, hw.2.1]), hw.2.2]

/-- Witness of `cursor_leaves_range_at_block_boundary`: the range from 9000 to
9100. With no block directory on disk, the first iteration offers the hundred
ports and leaves the cursor at block 91; the second has the empty window from
9100 to 9100, offers nothing and counts one failure. -/
theorem cursor_leaves_range_at_block_boundary_witness :
    (scanBlock (fun _ => Listing.openFailed)
      (StartPortAllocator internalPortAllocator 9000 9100) none).a =
      { block := 91, failures := 0, min := 9000, max := 9100 } ∧
    ¬ (91 * 100 < 9100) ∧
    scanBlock (fun _ => Listing.openFailed)
      { block := 91, failures := 0, min := 9000, max := 9100 } none =
      { a := { block := 90, failures := 1, min := 9000, max := 9100 }, offered := [],
        done := none, finished := false } ∧
    ∀ (a : portAllocator) (dir : Nat → Listing) (done : Option Nat),
      a.min = 9000 → a.max = 9100 → a.block = 9100 / 100 →
      windowStart a = 9100 ∧ windowEnd a = 9100 ∧
      scanBlock dir a done = portAllocator.fail { a with block := 9000 / 100 } done :=
  ⟨by decide, by decide, by decide,
    (cursor_leaves_range_at_block_boundary 9000 9100 (by decide) (by decide)
      (by decide)).2.2.2⟩

theorem walkReserved_offered (reserved ns : List Port) (e : Port) (o : Nat) (done : Option Nat) :
    (∀ q ∈ (walkReserved reserved ns e o done).offered, q ∈ ns) ∧
    (walkReserved reserved ns e o done).foundInBlock =
      (walkReserved reserved ns e o done).offered.length := by
  induction ns generalizing e o done with
  | nil => simp [walkReserved]
  | cons n rest ih =>
    unfold walkReserved
    by_cases he : e = n
    · rw [if_pos he]
      by_cases ho : o < reserved.length
      · rw [if_pos ho]
        exact ⟨fun q hq => List.mem_cons_of_mem _ ((ih _ _ _).1 q hq), (ih _ _ _).2⟩
      · rw [if_neg ho]
        exact ⟨fun q hq => List.mem_cons_of_mem _ ((ih _ _ _).1 q hq), (ih _ _ _).2⟩
    · rw [if_neg he]
      cases hs : trySend done with
      | none => simp
      | some done1 =>
        simp only [List.mem_cons, List.length_cons]
        refine ⟨?_, by rw [(ih e o done1).2]⟩
        intro q hq
        rcases hq with rfl | hq
        · exact Or.inl rfl
        · exact Or.inr ((ih _ _ _).1 q hq)

theorem walkFree_offered (ns : List Port) (done : Option Nat) :
    (∀ q ∈ (walkFree ns done).offered, q ∈ ns) ∧
    (walkFree ns done).foundInBlock = (walkFree ns done).offered.length := by
  induction ns generalizing done with
  | nil => simp [walkFree]
  | cons n rest ih =>
    unfold walkFree
    cases hs : trySend done with
    | none => simp
    | some done1 =>
      simp only [List.mem_cons, List.length_cons]
      refine ⟨?_, by rw [(ih done1).2]⟩
      intro q hq
      rcases hq with rfl | hq
      · exact Or.inl rfl
      · exact Or.inr ((ih _).1 q hq)

/-- The window walk offers ports of the window only, and counts them. -/
theorem scanWindow_offered (taken : List String) (s t : Nat) (done : Option Nat) :
    (∀ q ∈ (scanWindow taken s t done).offered, s ≤ q ∧ q < t) ∧
    (scanWindow taken s t done).foundInBlock = (scanWindow taken s t done).offered.length := by
  have hr : ∀ q : Nat, q ∈ List.range' s (t - s) → s ≤ q ∧ q < t := by
    intro q hq
    rw [List.mem_range'_1] at hq
    omega
  unfold scanWindow
  simp only
  split_ifs
  · exact ⟨fun q hq => hr q ((walkReserved_offered _ _ _ _ _).1 q hq),
      (walkReserved_offered _ _ _ _ _).2⟩
  · exact ⟨fun q hq => hr q ((walkFree_offered _ _).1 q hq), (walkFree_offered _ _).2⟩

theorem fail_offered (a : portAllocator) (done : Option Nat) :
    ∀ q ∈ (portAllocator.fail a done).offered,
      q = 0 ∧ (portAllocator.fail a done).a.failures > maxReadFailures := by
  unfold portAllocator.fail
  simp only
  split_ifs with h
  · cases trySend done with
    | none => simp
    | some d =>
      intro q hq
      exact ⟨by simpa using hq, h⟩
  · simp

theorem scanTaken_offered (taken : List String) (s t : Nat) (a1 : portAllocator)
    (done : Option Nat) :
    ∀ q ∈ (scanTaken taken s t a1 done).offered, q = 0 ∨ (s ≤ q ∧ q < t) := by
  have hw := (scanWindow_offered taken s t done).1
  unfold scanTaken
  simp only
  split_ifs
  · exact fun q hq => Or.inr (hw q hq)
  · intro q hq
    rcases List.mem_append.1 hq with h | h
    · exact Or.inr (hw q h)
    · exact Or.inl (fail_offered _ _ q h).1
  · exact fun q hq => Or.inr (hw q hq)

/-- An iteration offers the sentinel 0 or ports of its window, which lies in
the range. -/
theorem scanBlock_offered (dir : Nat → Listing) (a : portAllocator) (done : Option Nat) :
    ∀ q ∈ (scanBlock dir a done).offered, q = 0 ∨ (a.min ≤ q ∧ q < a.max) := by
  have hs := windowStart_ge a
  have he := windowEnd_le a
  have hin : ∀ q : Nat, (q = 0 ∨ (windowStart a ≤ q ∧ q < windowEnd a)) →
      (q = 0 ∨ (a.min ≤ q ∧ q < a.max)) := by
    intro q hq
    rcases hq with h | h
    · exact Or.inl h
    · exact Or.inr ⟨Nat.le_trans hs h.1, Nat.lt_of_lt_of_le h.2 he⟩
  unfold scanBlock
  simp only
  cases dir (windowStart a / portsPerBlock) with
  | openFailed => exact fun q hq => hin q (scanTaken_offered _ _ _ _ _ q hq)
  | readFailed => exact fun q hq => Or.inl (fail_offered _ _ q hq).1
  | names l => exact fun q hq => hin q (scanTaken_offered _ _ _ _ _ q hq)

theorem findPorts_offered (dirAt : Nat → Nat → Listing) (k t : Nat) (a : portAllocator)
    (done : Option Nat) :
    ∀ q ∈ (portAllocator.findPorts dirAt k t a done).offered, q = 0 ∨ (a.min ≤ q ∧ q < a.max) := by
  induction k generalizing t a done with
  | zero => simp [portAllocator.findPorts]
  | succ k ih =>
    have hf := scanBlock_frame (dirAt t) a done
    have hb := scanBlock_offered (dirAt t) a done
    unfold portAllocator.findPorts
    simp only
    split_ifs
    · exact hb
    · intro q hq
      rcases List.mem_append.1 hq with h | h
      · exact hb q h
      · have := ih (t + 1) _ _ q h
        rwa [hf.2.1, hf.2.2] at this

/-! ## The worker on a range whose every port has a marker (C9) -/

theorem window_congr (a b : portAllocator) (h1 : a.block = b.block) (h2 : a.min = b.min)
    (h3 : a.max = b.max) :
    windowStart a = windowStart b ∧ windowEnd a = windowEnd b ∧ nextBlock a = nextBlock b := by
  unfold windowStart windowEnd nextBlock
  rw [h1, h2, h3]
  exact ⟨rfl, rfl, rfl⟩

/-- The cursor after one more iteration is `nextBlock` at the cursor before
it. -/
theorem cursorAfter_succ (a : portAllocator) (i : Nat) :
    cursorAfter a (i + 1) = nextBlock (allocatorAfter a i) := by
  induction i generalizing a with
  | zero => rfl
  | succ i ih =>
    have h := ih { a with block := nextBlock a }
    have hc : nextBlock (allocatorAfter { a with block := nextBlock a } i) =
        nextBlock (allocatorAfter a (i + 1)) :=
      (window_congr _ _ rfl rfl rfl).2.2
    show cursorAfter { a with block := nextBlock a } (i + 1) = _
    rw [h, hc]

/-- Without a shutdown signal a failure does not end the worker, and offers
nothing but the sentinel. -/
theorem fail_none_unfinished (a : portAllocator) :
    (portAllocator.fail a none).finished = false ∧ (portAllocator.fail a none).done = none ∧
    ∀ q ∈ (portAllocator.fail a none).offered, q = 0 := by
  refine ⟨?_, ?_, fun q hq => (fail_offered a none q hq).1⟩
  · unfold portAllocator.fail
    simp only
    split_ifs <;> rfl
  · unfold portAllocator.fail
    simp only
    split_ifs <;> rfl

theorem walkReserved_none (reserved ns : List Port) (e : Port) (o : Nat) :
    (walkReserved reserved ns e o none).finished = false ∧
    (walkReserved reserved ns e o none).done = none := by
  induction ns generalizing e o with
  | nil => exact ⟨rfl, rfl⟩
  | cons n rest ih =>
    unfold walkReserved
    split_ifs
    · exact ih _ _
    · exact ih _ _
    · exact ih e o

theorem walkFree_none (ns : List Port) :
    (walkFree ns none).finished = false ∧ (walkFree ns none).done = none := by
  induction ns with
  | nil => exact ⟨rfl, rfl⟩
  | cons n rest ih =>
    unfold walkFree
    exact ih

/-- Without a shutdown signal an iteration does not end the worker. -/
theorem scanBlock_none (dir : Nat → Listing) (a : portAllocator) :
    (scanBlock dir a none).finished = false ∧ (scanBlock dir a none).done = none := by
  have hW : ∀ (l : List String) (s t : Nat),
      (scanWindow l s t none).finished = false ∧ (scanWindow l s t none).done = none := by
    intro l s t
    unfold scanWindow
    simp only
    split_ifs
    · exact walkReserved_none _ _ _ _
    · exact walkFree_none _
  have hT : ∀ (l : List String) (s t : Nat) (a1 : portAllocator),
      (scanTaken l s t a1 none).finished = false ∧ (scanTaken l s t a1 none).done = none := by
    intro l s t a1
    have hw := hW l s t
    have hf := fail_none_unfinished a1
    unfold scanTaken
    simp only
    rw [hw.1, hw.2, if_neg (by decide)]
    by_cases hz : (scanWindow l s t none).foundInBlock = 0
    · rw [if_pos hz]
      exact ⟨hf.1, hf.2.1⟩
    · rw [if_neg hz]
      exact ⟨rfl, rfl⟩
  unfold scanBlock
  simp only
  cases dir (windowStart a / portsPerBlock) with
  | openFailed => exact hT _ _ _ _
  | readFailed => exact ⟨(fail_none_unfinished _).1, (fail_none_unfinished _).2.1⟩
  | names l => exact hT _ _ _ _

/-- Without a shutdown signal the worker never ends. -/
theorem findPorts_none (dirAt : Nat → Nat → Listing) (k t : Nat) (a : portAllocator) :
    (portAllocator.findPorts dirAt k t a none).finished = false := by
  induction k generalizing t a with
  | zero => rfl
  | succ k ih =>
    have hs := scanBlock_none (dirAt t) a
    unfold portAllocator.findPorts
    simp only
    rw [if_neg (by rw [hs.1]; decide), hs.2]
    exact ih _ _

/-- The state the worker has reached after `t` iterations without a shutdown
signal has the cursor `cursorAfter` and the bounds of the start, hence the
window at that cursor. -/
theorem run_state (dirAt : Nat → Nat → Listing) (mn mx : Port) (t : Nat) :
    windowStart (portAllocator.findPorts dirAt t 0
        (StartPortAllocator internalPortAllocator mn mx) none).a =
      windowStart (allocatorAfter (StartPortAllocator internalPortAllocator mn mx) t) ∧
    windowEnd (portAllocator.findPorts dirAt t 0
        (StartPortAllocator internalPortAllocator mn mx) none).a =
      windowEnd (allocatorAfter (StartPortAllocator internalPortAllocator mn mx) t) := by
  have hc := findPorts_cursor dirAt t 0 (StartPortAllocator internalPortAllocator mn mx) none
    (findPorts_none dirAt t 0 _)
  have hw := window_congr
    (portAllocator.findPorts dirAt t 0 (StartPortAllocator internalPortAllocator mn mx) none).a
    (allocatorAfter (StartPortAllocator internalPortAllocator mn mx) t) hc.1 hc.2.1 hc.2.2
  exact ⟨hw.1, hw.2.1⟩

/-- A run without a shutdown signal all of whose windows are taken does not
end and offers nothing but the sentinel, however long it runs. -/
theorem findPorts_taken_unfinished (dirAt : Nat → Nat → Listing)
    (inv : Nat → portAllocator → Prop)
    (hkeep : ∀ (t : Nat) (a : portAllocator) (f : Int), inv t a →
      inv (t + 1) { block := nextBlock a, failures := f, min := a.min, max := a.max })
    (htaken : ∀ (t : Nat) (a : portAllocator), inv t a → windowStart a < windowEnd a →
      ∃ l extra, dirAt t (windowStart a / portsPerBlock) = Listing.names l ∧
        namesToPorts l = List.range' (windowStart a) (windowEnd a - windowStart a) ++ extra)
    (k t : Nat) (a : portAllocator) (h0 : inv t a) :
    (portAllocator.findPorts dirAt k t a none).finished = false ∧
    ∀ q ∈ (portAllocator.findPorts dirAt k t a none).offered, q = 0 := by
  induction k generalizing t a with
  | zero => simp [portAllocator.findPorts]
  | succ k ih =>
    have hstep := scanBlock_taken (dirAt t) a none (htaken t a h0)
    have hf := fail_none_unfinished { a with block := nextBlock a }
    have hfr := fail_frame { a with block := nextBlock a } none
    have ih1 := ih (t + 1) (portAllocator.fail { a with block := nextBlock a } none).a (by
      rw [hfr]
      exact hkeep t a _ h0)
    unfold portAllocator.findPorts
    simp only
    rw [hstep, if_neg (by rw [hf.1]; decide), hf.2.1]
    refine ⟨ih1.1, ?_⟩
    intro q hq
    rcases List.mem_append.1 hq with h | h
    · exact hf.2.2 q h
    · exact ih1.2 q h

/-- The cursor of a range without overflow stays between the block of the
lower bound and the block of the upper bound. -/
theorem cursor_in_range (mn mx : Nat) (hle : mn ≤ mx) (hmax : mx < 18446744073709551600)
    (t : Nat) :
    mn / 100 ≤ cursorAfter (StartPortAllocator internalPortAllocator mn mx) t ∧
    cursorAfter (StartPortAllocator internalPortAllocator mn mx) t ≤ mx / 100 := by
  induction t with
  | zero =>
    show mn / 100 ≤ mn / 100 ∧ mn / 100 ≤ mx / 100
    omega
  | succ t ih =>
    have hw := window_at mn mx hmax
      (cursorAfter (StartPortAllocator internalPortAllocator mn mx) t - mn / 100)
      (allocatorAfter (StartPortAllocator internalPortAllocator mn mx) t) rfl rfl
      (by
        show cursorAfter (StartPortAllocator internalPortAllocator mn mx) t = _
        omega)
      (by omega)
    rw [cursorAfter_succ, hw.2.2]
    split_ifs <;> omega

theorem intToPort_nat (n : Nat) (h : n < 18446744073709551616) : intToPort (n : Int) = n := by
  unfold intToPort
  delta Port
  omega

/-- The decimal names of an ascending list of ports between 1 and 2^63 - 1
parse back to the list. -/
theorem namesToPorts_decimal (l : List Nat) (hs : List.Sorted (fun a b => a ≤ b) l)
    (hl : ∀ q ∈ l, 0 < q ∧ q < 9223372036854775808) :
    namesToPorts (l.map fun q => String.mk (Nat.toDigits 10 q)) = l := by
  cases l with
  | nil => rfl
  | cons x xs =>
    have hconv : convertNames ((x :: xs).map fun q => String.mk (Nat.toDigits 10 q)) =
        x :: xs := by
      unfold convertNames
      rw [List.map_map]
      have : ∀ q ∈ x :: xs, ((fun name => match Atoi name with
          | some v => intToPort v
          | none => 0) ∘ fun q => String.mk (Nat.toDigits 10 q)) q = id q := by
        intro q hq
        have hq1 := hl q hq
        show (match Atoi (String.mk (Nat.toDigits 10 q)) with
          | some v => intToPort v
          | none => 0) = q
        rw [Atoi_toDigits q hq1.2]
        exact intToPort_nat q (by omega)
      exact (List.map_congr_left this).trans (List.map_id _)
    have hany : (((x :: xs).map fun q => String.mk (Nat.toDigits 10 q)).any
        fun name => (Atoi name).isSome) = true := by
      rw [List.map_cons, List.any_cons, Atoi_toDigits x (hl x (List.mem_cons_self _ _)).2]
      rfl
    unfold namesToPorts
    rw [if_neg (by simp)]
    simp only
    have hx : x ≠ 0 := Nat.pos_iff_ne_zero.1 (hl x (List.mem_cons_self _ _)).1
    rw [if_pos hany, hconv, List.Sorted.insertionSort_eq hs,
      List.dropWhile_cons_of_neg (by simpa using hx)]

/-- A range between 1 and 2^63 whose every port has a marker, and no other
marker on disk, is exhausted. -/
theorem markedDir_exhausted (mn mx : Nat) (h0 : 0 < mn) (hlt : mn < mx)
    (hmx : mx ≤ 9223372036854775808) : Exhausted (markedDir mn mx) mn mx := by
  intro t hst
  have hrs := run_state (markedDir mn mx) mn mx t
  rw [hrs.1, hrs.2] at hst ⊢
  have hc := cursor_in_range mn mx (by omega) (by omega) t
  have hw := window_at mn mx (by omega)
    (cursorAfter (StartPortAllocator internalPortAllocator mn mx) t - mn / 100)
    (allocatorAfter (StartPortAllocator internalPortAllocator mn mx) t) rfl rfl
    (by
      show cursorAfter (StartPortAllocator internalPortAllocator mn mx) t = _
      omega)
    (by omega)
  generalize cursorAfter (StartPortAllocator internalPortAllocator mn mx) t = b at hc hw
  have hb : mn / 100 + (b - mn / 100) = b := by omega
  rw [hb] at hw
  rw [hw.1, hw.2.1] at hst ⊢
  have hdiv : (if b * 100 < mn then mn else b * 100) / portsPerBlock = b := by
    unfold portsPerBlock
    split_ifs at hst ⊢ <;> omega
  have hend : (if mx < (b + 1) * 100 then mx else (b + 1) * 100) =
      (if b < mx / 100 then (b + 1) * 100 else mx) := by
    split_ifs <;> omega
  refine ⟨(List.range' (if b * 100 < mn then mn else b * 100)
    ((if b < mx / 100 then (b + 1) * 100 else mx) -
      (if b * 100 < mn then mn else b * 100))).map fun q => String.mk (Nat.toDigits 10 q),
    [], ?_, ?_⟩
  · rw [hdiv]
    unfold markedDir
    rw [hend]
  · rw [List.append_nil]
    apply namesToPorts_decimal
    · exact List.pairwise_le_range' _ _
    · intro q hq
      rw [List.mem_range'_1] at hq
      split_ifs at hq hst <;> omega

/-- C9 (amended): for an allocator started on a range whose every scan window
is taken (at every iteration the directory of the scanned block lists, in
ascending order of the parsed names, exactly the ports of the worker's window
followed by any further ports) and with no shutdown signal, the worker is
still running after `k` iterations, for every `k`, and has offered no port of
the range, only the sentinel 0; for `k` below 2^63, while the 64-bit failure
counter has not wrapped, it has offered the sentinel once for the fourth and
once for every later scan failure, `k - 3` times in all. -/
theorem exhausted_range_offers_zero_forever (dirAt : Nat → Nat → Listing) (min max : Port)
    (hfull : Exhausted dirAt min max) (k : Nat) :
    (portAllocator.findPorts dirAt k 0 (StartPortAllocator internalPortAllocator min max)
      none).finished = false ∧
    (∀ q ∈ (portAllocator.findPorts dirAt k 0 (StartPortAllocator internalPortAllocator min max)
      none).offered, q = 0) ∧
    (k < 9223372036854775808 →
      (portAllocator.findPorts dirAt k 0 (StartPortAllocator internalPortAllocator min max)
        none).offered = List.replicate (k - 3) 0) := by
  have hkeep : ∀ (t : Nat) (a : portAllocator) (f : Int),
      (a.block = cursorAfter (StartPortAllocator internalPortAllocator min max) t ∧
        a.min = min ∧ a.max = max) →
      (({ block := nextBlock a, failures := f, min := a.min, max := a.max } :
          portAllocator).block =
          cursorAfter (StartPortAllocator internalPortAllocator min max) (t + 1) ∧
        ({ block := nextBlock a, failures := f, min := a.min, max := a.max } :
          portAllocator).min = min ∧
        ({ block := nextBlock a, failures := f, min := a.min, max := a.max } :
          portAllocator).max = max) := by
    intro t a f h
    refine ⟨?_, h.2.1, h.2.2⟩
    rw [cursorAfter_succ]
    exact (window_congr a _ h.1 h.2.1 h.2.2).2.2
  have htaken : ∀ (t : Nat) (a : portAllocator),
      (a.block = cursorAfter (StartPortAllocator internalPortAllocator min max) t ∧
        a.min = min ∧ a.max = max) → windowStart a < windowEnd a →
      ∃ l extra, dirAt t (windowStart a / portsPerBlock) = Listing.names l ∧
        namesToPorts l = List.range' (windowStart a) (windowEnd a - windowStart a) ++ extra := by
    intro t a h hst
    have hcg := window_congr a
      (allocatorAfter (StartPortAllocator internalPortAllocator min max) t) h.1 h.2.1 h.2.2
    have hrs := run_state dirAt min max t
    rw [hcg.1, hcg.2.1, ← hrs.1, ← hrs.2] at hst ⊢
    exact hfull t hst
  have hany := findPorts_taken_unfinished dirAt _ hkeep htaken k 0
    (StartPortAllocator internalPortAllocator min max) ⟨rfl, rfl, rfl⟩
  refine ⟨hany.1, hany.2, ?_⟩
  intro hk
  have h := findPorts_taken dirAt _ hkeep htaken k 0
    (StartPortAllocator internalPortAllocator min max) ⟨rfl, rfl, rfl⟩ 0 rfl (by omega)
  simp only [Nat.zero_add, Nat.zero_sub, Nat.sub_zero] at h
  exact h.1

/-- Witness of `exhausted_range_offers_zero_forever`: the range from 4000 to
60000 with the marker of every port of the range on disk, a thousand
iterations. -/
theorem exhausted_range_offers_zero_forever_witness :
    Exhausted (markedDir 4000 60000) 4000 60000 ∧
    (portAllocator.findPorts (markedDir 4000 60000) 1000 0
      (StartPortAllocator internalPortAllocator 4000 60000) none).finished = false ∧
    (portAllocator.findPorts (markedDir 4000 60000) 1000 0
      (StartPortAllocator internalPortAllocator 4000 60000) none).offered =
      List.replicate (1000 - 3) 0 :=
  ⟨markedDir_exhausted 4000 60000 (by decide) (by decide) (by decide),
    (exhausted_range_offers_zero_forever (markedDir 4000 60000) 4000 60000
      (markedDir_exhausted 4000 60000 (by decide) (by decide) (by decide)) 1000).1,
    (exhausted_range_offers_zero_forever (markedDir 4000 60000) 4000 60000
      (markedDir_exhausted 4000 60000 (by decide) (by decide) (by decide)) 1000).2.2
      (by decide)⟩

/-! ## The scan windows of a run (C15) -/

/-- A run that has not ended after `k + 1` iterations had not ended after
`k`. -/
theorem findPorts_unfinished_pred (dirAt : Nat → Nat → Listing) (k t : Nat) (a : portAllocator)
    (done : Option Nat) (h : (portAllocator.findPorts dirAt (k + 1) t a done).finished = false) :
    (portAllocator.findPorts dirAt k t a done).finished = false := by
  induction k generalizing t a done with
  | zero => rfl
  | succ k ih =>
    have hstep : ∀ n, portAllocator.findPorts dirAt (n + 1) t a done =
        if (scanBlock (dirAt t) a done).finished then scanBlock (dirAt t) a done
        else { portAllocator.findPorts dirAt n (t + 1) (scanBlock (dirAt t) a done).a
                 (scanBlock (dirAt t) a done).done with
               offered := (scanBlock (dirAt t) a done).offered ++
                 (portAllocator.findPorts dirAt n (t + 1) (scanBlock (dirAt t) a done).a
                   (scanBlock (dirAt t) a done).done).offered } := by
      intro n
      rw [portAllocator.findPorts]
    by_cases hr : (scanBlock (dirAt t) a done).finished = true
    · rw [hstep, if_pos hr, hr] at h
      exact absurd h (by decide)
    · rw [hstep, if_neg hr] at h
      rw [hstep, if_neg hr]
      exact ih (t + 1) _ _ h

theorem findPorts_unfinished_le (dirAt : Nat → Nat → Listing) (k t : Nat) (a : portAllocator)
    (done : Option Nat) (h : (portAllocator.findPorts dirAt k t a done).finished = false)
    (i : Nat) (hi : i ≤ k) : (portAllocator.findPorts dirAt i t a done).finished = false := by
  induction k with
  | zero =>
    have : i = 0 := by omega
    rw [this]
    rfl
  | succ k ih =>
    by_cases hik : i = k + 1
    · rw [hik]
      exact h
    · exact ih (findPorts_unfinished_pred dirAt k t a done h) (by omega)

/-- What an iteration offers is the sentinel 0 or a port of its window. -/
theorem scanBlock_offered_window (dir : Nat → Listing) (a : portAllocator)
    (done : Option Nat) :
    ∀ q ∈ (scanBlock dir a done).offered, q = 0 ∨ (windowStart a ≤ q ∧ q < windowEnd a) := by
  unfold scanBlock
  simp only
  cases dir (windowStart a / portsPerBlock) with
  | openFailed => exact fun q hq => scanTaken_offered _ _ _ _ _ q hq
  | readFailed => exact fun q hq => Or.inl (fail_offered _ _ q hq).1
  | names l => exact fun q hq => scanTaken_offered _ _ _ _ _ q hq

/-- The window and the next cursor of the worker after `i` iterations, for a
range without overflow and up to the iteration that resets the cursor. -/
theorem run_window (mn mx : Nat) (hmax : mx < 18446744073709551600)
    (dirAt : Nat → Nat → Listing) (t : Nat) (done : Option Nat) (i : Nat)
    (hi : mn / 100 + i ≤ mx / 100)
    (hrun : (portAllocator.findPorts dirAt i t
      (StartPortAllocator internalPortAllocator mn mx) done).finished = false) :
    windowStart (portAllocator.findPorts dirAt i t
        (StartPortAllocator internalPortAllocator mn mx) done).a =
      (if (mn / 100 + i) * 100 < mn then mn else (mn / 100 + i) * 100) ∧
    windowEnd (portAllocator.findPorts dirAt i t
        (StartPortAllocator internalPortAllocator mn mx) done).a =
      (if mn / 100 + i < mx / 100 then (mn / 100 + i + 1) * 100 else mx) ∧
    (scanBlock (dirAt (t + i)) (portAllocator.findPorts dirAt i t
        (StartPortAllocator internalPortAllocator mn mx) done).a
      (portAllocator.findPorts dirAt i t
        (StartPortAllocator internalPortAllocator mn mx) done).done).a.block =
      (if mn / 100 + i < mx / 100 then mn / 100 + i + 1 else mn / 100) ∧
    (portAllocator.findPorts dirAt i t
        (StartPortAllocator internalPortAllocator mn mx) done).a.block = mn / 100 + i := by
  have hc := findPorts_cursor dirAt i t (StartPortAllocator internalPortAllocator mn mx) done hrun
  have hadv := cursorAfter_advance mn mx hmax i 0
    (StartPortAllocator internalPortAllocator mn mx) rfl rfl rfl (by omega)
  have hb : (portAllocator.findPorts dirAt i t
      (StartPortAllocator internalPortAllocator mn mx) done).a.block = mn / 100 + i := by
    rw [hc.1, hadv]
    omega
  have hw := window_at mn mx hmax i _ hc.2.1 hc.2.2 hb hi
  exact ⟨hw.1, hw.2.1, by rw [(scanBlock_frame _ _ _).1, hw.2.2], hb⟩

/-- C15, the claim as stated fails near the top of `uint`: started with the
range from 18446744073709551500 to 18446744073709551615, with no block
directory on disk and no shutdown signal, the worker's first window runs from
the lower bound to 18446744073709551600, the end of its second window wraps
to 84, so that the second window is empty, and its third window runs from the
lower bound to 184 and is empty too. The windows are not consecutive, the
three iterations offer the hundred ports of the first window and nothing
else, so that port 18446744073709551600 of the range is in no window, and no
iteration resets the cursor: with this upper bound every iteration moves the
cursor to the next block. -/
theorem scan_windows_wrap_near_uint_max :
    (0 : Port) < 18446744073709551500 ∧ (18446744073709551500 : Port) < 18446744073709551615 ∧
    (List.range 3).map (fun i =>
      (windowStart (portAllocator.findPorts (fun _ _ => Listing.openFailed) i 0
        (StartPortAllocator internalPortAllocator 18446744073709551500 18446744073709551615)
        none).a,
       windowEnd (portAllocator.findPorts (fun _ _ => Listing.openFailed) i 0
        (StartPortAllocator internalPortAllocator 18446744073709551500 18446744073709551615)
        none).a))
      = [(18446744073709551500, 18446744073709551600), (18446744073709551600, 84),
         (18446744073709551500, 184)] ∧
    (portAllocator.findPorts (fun _ _ => Listing.openFailed) 3 0
      (StartPortAllocator internalPortAllocator 18446744073709551500 18446744073709551615)
      none).offered = List.range' 18446744073709551500 100 ∧
    ∀ (a : portAllocator) (dir : Nat → Listing) (done : Option Nat),
      a.max = 18446744073709551615 →
      (scanBlock dir a done).a.block = wrapUint (a.block + 1) := by
  refine ⟨by decide, by decide, by decide, by decide, ?_⟩
  intro a dir done ha
  rw [(scanBlock_frame dir a done).1]
  unfold nextBlock
  rw [if_neg]
  rw [ha]
  have := Nat.mod_lt (wrapUint (a.block + 1) * portsPerBlock) (by decide : 0 < uintSize)
  unfold wrapUint uintSize at *
  delta Port at *
  omega

/-- C15 (amended). In every run of the worker, for any bounds, every port
offered is 0 or a port from `mn` up to, not including, `mx`. And for a range
without overflow, `mn < mx` and `mx` below 2^64 - 16, in every run that has
not been shut down before its iteration number `mx / 100 - mn / 100`, the
windows that the iterations 0 to `mx / 100 - mn / 100` compute from the
worker's state are consecutive (the first starts at `mn`, each ends where the
next starts, the last ends at `mx`), the last of these iterations is the
first to reset the cursor to `mn / 100`, every port of the range lies in one
of these windows and in one only, and each of these iterations offers only
the sentinel 0 or ports of its own window. -/
theorem scan_windows_partition (mn mx : Port) :
    (∀ (dirAt : Nat → Nat → Listing) (fuel t : Nat) (done : Option Nat),
      ∀ q ∈ (portAllocator.findPorts dirAt fuel t
        (StartPortAllocator internalPortAllocator mn mx) done).offered,
        q = 0 ∨ (mn ≤ q ∧ q < mx)) ∧
    (mn < mx → mx < 18446744073709551600 →
      ∀ (dirAt : Nat → Nat → Listing) (t : Nat) (done : Option Nat),
      (portAllocator.findPorts dirAt (mx / 100 - mn / 100) t
        (StartPortAllocator internalPortAllocator mn mx) done).finished = false →
      windowStart (portAllocator.findPorts dirAt 0 t
        (StartPortAllocator internalPortAllocator mn mx) done).a = mn ∧
      windowEnd (portAllocator.findPorts dirAt (mx / 100 - mn / 100) t
        (StartPortAllocator internalPortAllocator mn mx) done).a = mx ∧
      (scanBlock (dirAt (t + (mx / 100 - mn / 100)))
        (portAllocator.findPorts dirAt (mx / 100 - mn / 100) t
          (StartPortAllocator internalPortAllocator mn mx) done).a
        (portAllocator.findPorts dirAt (mx / 100 - mn / 100) t
          (StartPortAllocator internalPortAllocator mn mx) done).done).a.block = mn / 100 ∧
      (∀ i, i < mx / 100 - mn / 100 →
        windowEnd (portAllocator.findPorts dirAt i t
            (StartPortAllocator internalPortAllocator mn mx) done).a =
          windowStart (portAllocator.findPorts dirAt (i + 1) t
            (StartPortAllocator internalPortAllocator mn mx) done).a ∧
        (scanBlock (dirAt (t + i))
          (portAllocator.findPorts dirAt i t
            (StartPortAllocator internalPortAllocator mn mx) done).a
          (portAllocator.findPorts dirAt i t
            (StartPortAllocator internalPortAllocator mn mx) done).done).a.block =
          (portAllocator.findPorts dirAt i t
            (StartPortAllocator internalPortAllocator mn mx) done).a.block + 1) ∧
      (∀ i, i ≤ mx / 100 - mn / 100 →
        windowStart (portAllocator.findPorts dirAt i t
            (StartPortAllocator internalPortAllocator mn mx) done).a ≤
          windowEnd (portAllocator.findPorts dirAt i t
            (StartPortAllocator internalPortAllocator mn mx) done).a) ∧
      (∀ q : Port, (mn ≤ q ∧ q < mx) ↔ ∃ i, i ≤ mx / 100 - mn / 100 ∧
        windowStart (portAllocator.findPorts dirAt i t
          (StartPortAllocator internalPortAllocator mn mx) done).a ≤ q ∧
        q < windowEnd (portAllocator.findPorts dirAt i t
          (StartPortAllocator internalPortAllocator mn mx) done).a) ∧
      (∀ (q : Port) (i j : Nat), i ≤ mx / 100 - mn / 100 → j ≤ mx / 100 - mn / 100 →
        windowStart (portAllocator.findPorts dirAt i t
          (StartPortAllocator internalPortAllocator mn mx) done).a ≤ q →
        q < windowEnd (portAllocator.findPorts dirAt i t
          (StartPortAllocator internalPortAllocator mn mx) done).a →
        windowStart (portAllocator.findPorts dirAt j t
          (StartPortAllocator internalPortAllocator mn mx) done).a ≤ q →
        q < windowEnd (portAllocator.findPorts dirAt j t
          (StartPortAllocator internalPortAllocator mn mx) done).a →
        i = j) ∧
      (∀ i, i ≤ mx / 100 - mn / 100 →
        ∀ q ∈ (scanBlock (dirAt (t + i))
          (portAllocator.findPorts dirAt i t
            (StartPortAllocator internalPortAllocator mn mx) done).a
          (portAllocator.findPorts dirAt i t
            (StartPortAllocator internalPortAllocator mn mx) done).done).offered,
          q = 0 ∨
          (windowStart (portAllocator.findPorts dirAt i t
            (StartPortAllocator internalPortAllocator mn mx) done).a ≤ q ∧
          q < windowEnd (portAllocator.findPorts dirAt i t
            (StartPortAllocator internalPortAllocator mn mx) done).a))) := by
  refine ⟨fun dirAt fuel t done q hq => findPorts_offered dirAt fuel t _ done q hq, ?_⟩
  intro hlt hmax dirAt t done hrun
  delta Port at *
  have hw := fun i (hi : i ≤ mx / 100 - mn / 100) =>
    run_window mn mx hmax dirAt t done i (by omega)
      (findPorts_unfinished_le dirAt _ t _ done hrun i hi)
  refine ⟨?_, ?_, ?_, ?_, ?_, ?_, ?_, ?_⟩
  · rw [(hw 0 (by omega)).1]
    split_ifs <;> omega
  · rw [(hw _ (Nat.le_refl _)).2.1]
    split_ifs <;> omega
  · rw [(hw _ (Nat.le_refl _)).2.2.1]
    split_ifs <;> omega
  · intro i hi
    rw [(hw i (by omega)).2.1, (hw (i + 1) (by omega)).1, (hw i (by omega)).2.2.1,
      (hw i (by omega)).2.2.2]
    constructor <;> split_ifs <;> omega
  · intro i hi
    rw [(hw i hi).1, (hw i hi).2.1]
    split_ifs <;> omega
  · intro q
    constructor
    · intro hq
      by_cases hlast : q / 100 < mx / 100
      · refine ⟨q / 100 - mn / 100, by omega, ?_, ?_⟩
        · rw [(hw _ (by omega)).1]
          split_ifs <;> omega
        · rw [(hw _ (by omega)).2.1]
          split_ifs <;> omega
      · refine ⟨mx / 100 - mn / 100, by omega, ?_, ?_⟩
        · rw [(hw _ (by omega)).1]
          split_ifs <;> omega
        · rw [(hw _ (by omega)).2.1]
          split_ifs <;> omega
    · rintro ⟨i, hi, h1, h2⟩
      rw [(hw i hi).1] at h1
      rw [(hw i hi).2.1] at h2
      split_ifs at h1 h2 <;> omega
  · intro q i j hi hj h1 h2 h3 h4
    rw [(hw i hi).1] at h1
    rw [(hw i hi).2.1] at h2
    rw [(hw j hj).1] at h3
    rw [(hw j hj).2.1] at h4
    split_ifs at h1 h2 h3 h4 <;> omega
  · intro i _ q hq
    exact scanBlock_offered_window _ _ _ q hq

/-- Witness of `scan_windows_partition`: the range from 9050 to 9250 with no
block directory on disk and no shutdown signal. The worker's first three
windows are 9050 to 9100, 9100 to 9200 and 9200 to 9250, and the third
iteration puts the cursor back at block 90. -/
theorem scan_windows_partition_witness :
    (List.range 3).map (fun i =>
      (windowStart (portAllocator.findPorts (fun _ _ => Listing.openFailed) i 0
        (StartPortAllocator internalPortAllocator 9050 9250) none).a,
       windowEnd (portAllocator.findPorts (fun _ _ => Listing.openFailed) i 0
        (StartPortAllocator internalPortAllocator 9050 9250) none).a))
      = [(9050, 9100), (9100, 9200), (9200, 9250)] ∧
    (portAllocator.findPorts (fun _ _ => Listing.openFailed) 3 0
      (StartPortAllocator internalPortAllocator 9050 9250) none).a.block = 90 ∧
    ∀ q : Port, (9050 ≤ q ∧ q < 9250) ↔ ∃ i, i ≤ 9250 / 100 - 9050 / 100 ∧
      windowStart (portAllocator.findPorts (fun _ _ => Listing.openFailed) i 0
        (StartPortAllocator internalPortAllocator 9050 9250) none).a ≤ q ∧
      q < windowEnd (portAllocator.findPorts (fun _ _ => Listing.openFailed) i 0
        (StartPortAllocator internalPortAllocator 9050 9250) none).a :=
  ⟨by decide, by decide,
    ((scan_windows_partition 9050 9250).2 (by decide) (by decide)
      (fun _ _ => Listing.openFailed) 0 none (by decide)).2.2.2.2.2.1⟩

/-! ## The failure counter (C16) -/

theorem takeWhile_append_all (p : List Port → Bool) (l m : List (List Port)) :
    (l ++ m).takeWhile p = if l.all p then l ++ m.takeWhile p else l.takeWhile p := by
  induction l with
  | nil => simp
  | cons x xs ih =>
    by_cases hx : p x = true
    · rw [List.cons_append, List.takeWhile_cons_of_pos hx, ih, List.takeWhile_cons_of_pos hx]
      simp only [List.all_cons, hx, Bool.true_and]
      split_ifs <;> rfl
    · rw [List.cons_append, List.takeWhile_cons_of_neg hx, List.takeWhile_cons_of_neg hx]
      simp [hx]

theorem failuresSince_cons (y : List Port) (ys : List (List Port)) :
    failuresSince (y :: ys) =
      if ys.all (fun z => z.isEmpty) then ys.length + (if y.isEmpty then 1 else 0)
      else failuresSince ys := by
  unfold failuresSince
  rw [List.reverse_cons, takeWhile_append_all, List.all_reverse]
  by_cases hall : ys.all (fun z => z.isEmpty) = true
  · rw [if_pos hall, if_pos hall, List.length_append, List.length_reverse]
    by_cases hy : y.isEmpty = true
    · rw [List.takeWhile_cons_of_pos hy, if_pos hy]
      rfl
    · rw [List.takeWhile_cons_of_neg hy, if_neg hy]
      rfl
  · rw [if_neg hall, if_neg hall]

theorem failuresSince_all (ys : List (List Port)) (h : ys.all (fun z => z.isEmpty) = true) :
    failuresSince ys = ys.length := by
  unfold failuresSince
  rw [List.takeWhile_eq_self_iff.2, List.length_reverse]
  intro z hz
  exact List.all_eq_true.1 h z (List.mem_reverse.1 hz)

theorem failuresSince_le (ys : List (List Port)) : failuresSince ys ≤ ys.length := by
  unfold failuresSince
  have := (List.takeWhile_sublist (fun y : List Port => y.isEmpty) (l := ys.reverse)).length_le
  simpa using this

/-- What an iteration that does not end the worker does to the counter: one
more after a window that yielded nothing, zero after a window that yielded a
port. -/
theorem scanBlock_counter (dir : Nat → Listing) (a : portAllocator) (done : Option Nat)
    (h : (scanBlock dir a done).finished = false) :
    (scanBlock dir a done).a.failures =
      if (windowYield dir a done).isEmpty then wrapInt (a.failures + 1) else 0 := by
  have hT : ∀ l : List String,
      (scanTaken l (windowStart a) (windowEnd a) { a with block := nextBlock a } done).finished
        = false →
      (scanTaken l (windowStart a) (windowEnd a) { a with block := nextBlock a } done).a.failures
        = if (scanWindow l (windowStart a) (windowEnd a) done).offered.isEmpty then
            wrapInt (a.failures + 1) else 0 := by
    intro l hl
    have hlen := (scanWindow_offered l (windowStart a) (windowEnd a) done).2
    unfold scanTaken at hl ⊢
    simp only at hl ⊢
    by_cases hfin : (scanWindow l (windowStart a) (windowEnd a) done).finished = true
    · rw [if_pos hfin] at hl
      exact absurd hl (by simp)
    · rw [if_neg hfin]
      by_cases hz : (scanWindow l (windowStart a) (windowEnd a) done).foundInBlock = 0
      · rw [if_pos hz]
        have he : (scanWindow l (windowStart a) (windowEnd a) done).offered = [] :=
          List.length_eq_zero.1 (hlen ▸ hz)
        rw [he]
        simp [fail_frame]
      · rw [if_neg hz]
        have he : (scanWindow l (windowStart a) (windowEnd a) done).offered ≠ [] := by
          intro he
          rw [he] at hlen
          exact hz hlen
        have hno : (scanWindow l (windowStart a) (windowEnd a) done).offered.isEmpty = false := by
          cases hc : (scanWindow l (windowStart a) (windowEnd a) done).offered with
          | nil => exact absurd hc he
          | cons x xs => rfl
        rw [hno]
        rfl
  unfold scanBlock windowYield at *
  simp only at h ⊢
  cases hd : dir (windowStart a / portsPerBlock) with
  | openFailed =>
    rw [hd] at h
    exact hT [] h
  | readFailed => simp [fail_frame]
  | names l =>
    rw [hd] at h
    exact hT l h

/-- An iteration of a range above 0 offers a 0 only as the sentinel: its
window yielded nothing, the counter is then above 3, and the worker goes
on. -/
theorem scanBlock_sentinel (dir : Nat → Listing) (a : portAllocator) (done : Option Nat)
    (hmin : 0 < a.min) (h0 : (0 : Port) ∈ (scanBlock dir a done).offered) :
    windowYield dir a done = [] ∧ (scanBlock dir a done).a.failures > maxReadFailures ∧
    (scanBlock dir a done).finished = false := by
  have hs := windowStart_ge a
  have hF : ∀ (a1 : portAllocator) (d : Option Nat),
      (0 : Port) ∈ (portAllocator.fail a1 d).offered →
      (portAllocator.fail a1 d).a.failures > maxReadFailures ∧
      (portAllocator.fail a1 d).finished = false := by
    intro a1 d hmem
    refine ⟨(fail_offered a1 d 0 hmem).2, ?_⟩
    unfold portAllocator.fail at hmem ⊢
    simp only at hmem ⊢
    split_ifs at hmem ⊢ with hc
    · cases ht : trySend d with
      | none =>
        rw [ht] at hmem
        simp at hmem
      | some d1 => rfl
    · rfl
  have hT : ∀ l : List String,
      (0 : Port) ∈ (scanTaken l (windowStart a) (windowEnd a)
        { a with block := nextBlock a } done).offered →
      (scanWindow l (windowStart a) (windowEnd a) done).offered = [] ∧
      (scanTaken l (windowStart a) (windowEnd a)
        { a with block := nextBlock a } done).a.failures > maxReadFailures ∧
      (scanTaken l (windowStart a) (windowEnd a)
        { a with block := nextBlock a } done).finished = false := by
    intro l hmem
    have hw := scanWindow_offered l (windowStart a) (windowEnd a) done
    have hnot : (0 : Port) ∉ (scanWindow l (windowStart a) (windowEnd a) done).offered := by
      intro hin
      exact absurd (Nat.le_trans hs (hw.1 0 hin).1) (Nat.not_le.2 hmin)
    unfold scanTaken at hmem ⊢
    simp only at hmem ⊢
    by_cases hfin : (scanWindow l (windowStart a) (windowEnd a) done).finished = true
    · rw [if_pos hfin] at hmem
      exact absurd hmem hnot
    · rw [if_neg hfin] at hmem ⊢
      by_cases hz : (scanWindow l (windowStart a) (windowEnd a) done).foundInBlock = 0
      · rw [if_pos hz] at hmem ⊢
        have he : (scanWindow l (windowStart a) (windowEnd a) done).offered = [] :=
          List.length_eq_zero.1 (hw.2 ▸ hz)
        have hmem1 : (0 : Port) ∈ (portAllocator.fail { a with block := nextBlock a }
            (scanWindow l (windowStart a) (windowEnd a) done).done).offered := by
          rcases List.mem_append.1 hmem with h | h
          · exact absurd h hnot
          · exact h
        exact ⟨he, hF _ _ hmem1⟩
      · rw [if_neg hz] at hmem
        exact absurd hmem hnot
  unfold scanBlock windowYield at *
  simp only at h0 ⊢
  cases hd : dir (windowStart a / portsPerBlock) with
  | openFailed =>
    rw [hd] at h0
    exact hT [] h0
  | readFailed =>
    rw [hd] at h0
    exact ⟨rfl, hF _ _ h0⟩
  | names l =>
    rw [hd] at h0
    exact hT l h0

/-- The counter of a run that has not ended, from the counter at its start. -/
theorem findPorts_counter (dirAt : Nat → Nat → Listing) (k t : Nat) (a : portAllocator)
    (done : Option Nat) (c : Nat) (hc : a.failures = c) (hk : c + k < 9223372036854775808)
    (h : (portAllocator.findPorts dirAt k t a done).finished = false) :
    (yields dirAt k t a done).length = k ∧
    (portAllocator.findPorts dirAt k t a done).a.failures =
      ((failuresSince (yields dirAt k t a done) +
        (if (yields dirAt k t a done).all (fun z => z.isEmpty) then c else 0) : Nat) : Int) := by
  induction k generalizing t a done c with
  | zero =>
    unfold portAllocator.findPorts yields
    simp [failuresSince, hc]
  | succ k ih =>
    unfold portAllocator.findPorts at h ⊢
    unfold yields
    simp only at h ⊢
    by_cases hr : (scanBlock (dirAt t) a done).finished = true
    · rw [if_pos hr] at h
      rw [hr] at h
      exact absurd h (by decide)
    · rw [if_neg hr] at h ⊢
      rw [if_neg hr]
      have hcnt := scanBlock_counter (dirAt t) a done (by simpa using hr)
      by_cases hy : (windowYield (dirAt t) a done).isEmpty = true
      · rw [if_pos hy, hc] at hcnt
        have hw : wrapInt ((c : Int) + 1) = ((c + 1 : Nat) : Int) := by
          unfold wrapInt
          omega
        rw [hw] at hcnt
        have ih1 := ih (t + 1) _ _ (c + 1) hcnt (by omega) h
        refine ⟨by rw [List.length_cons, ih1.1], ?_⟩
        show (portAllocator.findPorts dirAt k (t + 1) _ _).a.failures = _
        rw [ih1.2, failuresSince_cons, List.all_cons, hy, Bool.true_and]
        by_cases hall : (yields dirAt k (t + 1) (scanBlock (dirAt t) a done).a
            (scanBlock (dirAt t) a done).done).all (fun z => z.isEmpty) = true
        · rw [if_pos hall, if_pos hall, if_pos hall, failuresSince_all _ hall, if_pos rfl]
          push_cast
          omega
        · rw [if_neg hall, if_neg hall, if_neg hall]
      · rw [if_neg hy] at hcnt
        have ih1 := ih (t + 1) _ _ 0 (by rw [hcnt]; rfl) (by omega) h
        refine ⟨by rw [List.length_cons, ih1.1], ?_⟩
        show (portAllocator.findPorts dirAt k (t + 1) _ _).a.failures = _
        have hyf : (windowYield (dirAt t) a done).isEmpty = false := by simpa using hy
        rw [ih1.2, failuresSince_cons, List.all_cons, hyf, Bool.false_and]
        by_cases hall : (yields dirAt k (t + 1) (scanBlock (dirAt t) a done).a
            (scanBlock (dirAt t) a done).done).all (fun z => z.isEmpty) = true
        · rw [if_pos hall, if_pos hall, failuresSince_all _ hall]
          simp
        · rw [if_neg hall, if_neg hall]
          simp

/-- A run that has not ended after `k` iterations goes on with the iteration
on its state. -/
theorem findPorts_succ (dirAt : Nat → Nat → Listing) (k t : Nat) (a : portAllocator)
    (done : Option Nat) (h : (portAllocator.findPorts dirAt k t a done).finished = false) :
    portAllocator.findPorts dirAt (k + 1) t a done =
      { a := (scanBlock (dirAt (t + k)) (portAllocator.findPorts dirAt k t a done).a
          (portAllocator.findPorts dirAt k t a done).done).a,
        offered := (portAllocator.findPorts dirAt k t a done).offered ++
          (scanBlock (dirAt (t + k)) (portAllocator.findPorts dirAt k t a done).a
            (portAllocator.findPorts dirAt k t a done).done).offered,
        done := (scanBlock (dirAt (t + k)) (portAllocator.findPorts dirAt k t a done).a
          (portAllocator.findPorts dirAt k t a done).done).done,
        finished := (scanBlock (dirAt (t + k)) (portAllocator.findPorts dirAt k t a done).a
          (portAllocator.findPorts dirAt k t a done).done).finished } := by
  induction k generalizing t a done with
  | zero =>
    unfold portAllocator.findPorts
    simp only [portAllocator.findPorts, Nat.add_zero, List.nil_append, List.append_nil]
    cases hs : scanBlock (dirAt t) a done with
    | mk sa so sd sf =>
      cases sf <;> simp
  | succ k ih =>
    have hstep : portAllocator.findPorts dirAt (k + 1) t a done =
        if (scanBlock (dirAt t) a done).finished then scanBlock (dirAt t) a done
        else { portAllocator.findPorts dirAt k (t + 1) (scanBlock (dirAt t) a done).a
                 (scanBlock (dirAt t) a done).done with
               offered := (scanBlock (dirAt t) a done).offered ++
                 (portAllocator.findPorts dirAt k (t + 1) (scanBlock (dirAt t) a done).a
                   (scanBlock (dirAt t) a done).done).offered } := by
      rw [portAllocator.findPorts]
    have hstep2 : portAllocator.findPorts dirAt (k + 1 + 1) t a done =
        if (scanBlock (dirAt t) a done).finished then scanBlock (dirAt t) a done
        else { portAllocator.findPorts dirAt (k + 1) (t + 1) (scanBlock (dirAt t) a done).a
                 (scanBlock (dirAt t) a done).done with
               offered := (scanBlock (dirAt t) a done).offered ++
                 (portAllocator.findPorts dirAt (k + 1) (t + 1) (scanBlock (dirAt t) a done).a
                   (scanBlock (dirAt t) a done).done).offered } := by
      rw [portAllocator.findPorts]
    by_cases hr : (scanBlock (dirAt t) a done).finished = true
    · rw [hstep, if_pos hr, hr] at h
      exact absurd h (by decide)
    · rw [hstep, if_neg hr] at h
      have ih1 := ih (t + 1) (scanBlock (dirAt t) a done).a (scanBlock (dirAt t) a done).done h
      have ht : t + 1 + k = t + (k + 1) := by omega
      rw [hstep2, if_neg hr, ih1, hstep, if_neg hr, ht]
      simp

/-- One more failure on a taken range wraps a counter that stands at
2^63 - 1. -/
theorem counter_wraps (r : Run) (t : Nat) (hf : r.a.failures = 9223372036854775807)
    (hmin : r.a.min = 9000) (hmax : r.a.max = 9002) :
    (scanBlock (takenDir t) r.a none).a.failures = -9223372036854775808 := by
  rw [scanBlock_taken (takenDir t) r.a none (takenDir_taken t r.a hmin hmax), fail_frame]
  dsimp only
  rw [hf]
  unfold wrapInt
  norm_num

/-- C16, the claim as stated fails in two ways. A worker started on a range
that begins at 0 offers the value 0 as the first port of the first window,
before any failure. And the counter is a 64-bit `int`: on the range from 9000
to 9002 with both markers on disk, the worker is still running after
2^63 - 1 iterations, all failures, with the counter at 2^63 - 1, and the next
failure makes the counter -2^63, not the number of failures. -/
theorem sentinel_value_offered_without_failure :
    scanBlock (fun _ => Listing.openFailed) (StartPortAllocator internalPortAllocator 0 2) none =
      { a := { block := 0, failures := 0, min := 0, max := 2 }, offered := [0, 1],
        done := none, finished := false } ∧
    (portAllocator.findPorts takenDir 9223372036854775807 0
      (StartPortAllocator internalPortAllocator 9000 9002) none).finished = false ∧
    (portAllocator.findPorts takenDir 9223372036854775807 0
      (StartPortAllocator internalPortAllocator 9000 9002) none).a.failures =
        9223372036854775807 ∧
    (scanBlock (takenDir 9223372036854775807)
      (portAllocator.findPorts takenDir 9223372036854775807 0
        (StartPortAllocator internalPortAllocator 9000 9002) none).a none).a.failures =
        -9223372036854775808 := by
  have h := findPorts_taken takenDir (fun _ a => a.min = 9000 ∧ a.max = 9002)
    (fun _ _ _ h => h) (fun t a h hst => takenDir_taken t a h.1 h.2 hst) 9223372036854775807 0
    (StartPortAllocator internalPortAllocator 9000 9002) ⟨rfl, rfl⟩ 0 rfl (by norm_num)
  have hc := findPorts_cursor takenDir 9223372036854775807 0
    (StartPortAllocator internalPortAllocator 9000 9002) none h.2.1
  have hf : (portAllocator.findPorts takenDir 9223372036854775807 0
      (StartPortAllocator internalPortAllocator 9000 9002) none).a.failures =
        9223372036854775807 := by
    rw [h.2.2]
    norm_num
  have h1 : scanBlock (fun _ => Listing.openFailed)
      (StartPortAllocator internalPortAllocator 0 2) none =
      { a := { block := 0, failures := 0, min := 0, max := 2 }, offered := [0, 1],
        done := none, finished := false } := by decide
  exact ⟨h1, h.2.1, hf, counter_wraps _ _ hf hc.2.1 hc.2.2⟩

/-- C16 for a range above 0 and fewer than 2^63 - 1 iterations. In a run of
the worker started with the counter at 0 that has not ended after `k`
iterations, the counter equals the number of iterations since the last one
whose window yielded a port (all `k` when none did) whose window yielded
nothing; the run goes on with the iteration on that state, and this iteration
offers a 0 only when its window yields nothing and the counter, one more than
before, is then above 3. -/
theorem failure_counter_counts_streak (dirAt : Nat → Nat → Listing) (k t : Nat)
    (a : portAllocator) (done : Option Nat) (hmin : 0 < a.min) (hzero : a.failures = 0)
    (hk : k + 1 < 9223372036854775808)
    (hrun : (portAllocator.findPorts dirAt k t a done).finished = false) :
    (yields dirAt k t a done).length = k ∧
    (portAllocator.findPorts dirAt k t a done).a.failures =
      ((failuresSince (yields dirAt k t a done) : Nat) : Int) ∧
    (portAllocator.findPorts dirAt (k + 1) t a done).offered =
      (portAllocator.findPorts dirAt k t a done).offered ++
        (scanBlock (dirAt (t + k)) (portAllocator.findPorts dirAt k t a done).a
          (portAllocator.findPorts dirAt k t a done).done).offered ∧
    ((0 : Port) ∈ (scanBlock (dirAt (t + k)) (portAllocator.findPorts dirAt k t a done).a
        (portAllocator.findPorts dirAt k t a done).done).offered →
      windowYield (dirAt (t + k)) (portAllocator.findPorts dirAt k t a done).a
        (portAllocator.findPorts dirAt k t a done).done = [] ∧
      (scanBlock (dirAt (t + k)) (portAllocator.findPorts dirAt k t a done).a
        (portAllocator.findPorts dirAt k t a done).done).a.failures =
        ((failuresSince (yields dirAt k t a done) + 1 : Nat) : Int) ∧
      3 < failuresSince (yields dirAt k t a done) + 1) := by
  have hcnt := findPorts_counter dirAt k t a done 0 (by rw [hzero]; rfl) (by omega) hrun
  have hfail : (portAllocator.findPorts dirAt k t a done).a.failures =
      ((failuresSince (yields dirAt k t a done) : Nat) : Int) := by
    rw [hcnt.2]
    simp
  have hle := failuresSince_le (yields dirAt k t a done)
  rw [hcnt.1] at hle
  refine ⟨hcnt.1, hfail, by rw [findPorts_succ dirAt k t a done hrun], ?_⟩
  intro h0
  have hmin1 : 0 < (portAllocator.findPorts dirAt k t a done).a.min := by
    rw [(findPorts_cursor dirAt k t a done hrun).2.1]
    exact hmin
  have hs := scanBlock_sentinel _ _ _ hmin1 h0
  have hc := scanBlock_counter _ _ _ hs.2.2
  rw [hs.1] at hc
  have hw : wrapInt (((failuresSince (yields dirAt k t a done) : Nat) : Int) + 1) =
      ((failuresSince (yields dirAt k t a done) + 1 : Nat) : Int) := by
    unfold wrapInt
    omega
  rw [hfail] at hc
  have hc1 : (scanBlock (dirAt (t + k)) (portAllocator.findPorts dirAt k t a done).a
      (portAllocator.findPorts dirAt k t a done).done).a.failures =
      ((failuresSince (yields dirAt k t a done) + 1 : Nat) : Int) := by
    rw [hc, if_pos (by rfl), hw]
  refine ⟨hs.1, hc1, ?_⟩
  have h3 := hs.2.1
  rw [hc1] at h3
  unfold maxReadFailures at h3
  omega

/-- Witness of `failure_counter_counts_streak`: the range from 9000 to 9002,
no block directory during the first iteration and both markers on disk from
then on. The first window yields the two ports, the next four yield nothing:
the counter is 4 after five iterations and the sentinel was offered once, and
the sixth iteration offers it again. -/
theorem failure_counter_counts_streak_witness :
    yields (fun t => if t = 0 then fun _ => Listing.openFailed else takenDir t) 5 0
      (StartPortAllocator internalPortAllocator 9000 9002) none =
      [[9000, 9001], [], [], [], []] ∧
    (portAllocator.findPorts (fun t => if t = 0 then fun _ => Listing.openFailed else takenDir t)
      5 0 (StartPortAllocator internalPortAllocator 9000 9002) none).offered =
      [9000, 9001, 0] ∧
    (portAllocator.findPorts (fun t => if t = 0 then fun _ => Listing.openFailed else takenDir t)
      5 0 (StartPortAllocator internalPortAllocator 9000 9002) none).a.failures =
      ((failuresSince (yields
        (fun t => if t = 0 then fun _ => Listing.openFailed else takenDir t) 5 0
        (StartPortAllocator internalPortAllocator 9000 9002) none) : Nat) : Int) ∧
    failuresSince (yields (fun t => if t = 0 then fun _ => Listing.openFailed else takenDir t)
      5 0 (StartPortAllocator internalPortAllocator 9000 9002) none) = 4 :=
  ⟨by decide, by decide,
    (failure_counter_counts_streak
      (fun t => if t = 0 then fun _ => Listing.openFailed else takenDir t) 5 0
      (StartPortAllocator internalPortAllocator 9000 9002) none (by decide) rfl (by decide)
      (by decide)).2.1, by decide⟩

/-! ## Occupied ports of a block directory (C17) -/

theorem dropWhile_zero_sorted (l : List Nat) (h : List.Sorted (fun a b => a ≤ b) l) :
    l.dropWhile (fun port => port == 0) = l.filter (fun port => decide (port ≠ 0)) := by
  induction l with
  | nil => rfl
  | cons x xs ih =>
    have hs := List.sorted_cons.1 h
    by_cases hx : x = 0
    · subst hx
      rw [List.dropWhile_cons_of_pos (by simp), List.filter_cons_of_neg (by simp)]
      exact ih hs.2
    · rw [List.dropWhile_cons_of_neg (by simpa using hx)]
      symm
      rw [List.filter_eq_self]
      intro a ha
      rcases List.mem_cons.1 ha with rfl | ha
      · simpa using hx
      · have := hs.1 a ha
        have hne : a ≠ 0 := by omega
        simpa using hne

theorem convertNames_nonzero (names : List String) :
    (convertNames names).filter (fun port => decide (port ≠ 0)) =
      (names.filterMap fun s => (Atoi s).map intToPort).filter (fun port => decide (port ≠ 0)) := by
  unfold convertNames
  induction names with
  | nil => rfl
  | cons s rest ih =>
    rw [List.map_cons, List.filterMap_cons]
    cases hs : Atoi s with
    | none =>
      simp only [Option.map_none']
      rw [List.filter_cons_of_neg (by simp)]
      exact ih
    | some v =>
      simp only [Option.map_some']
      rw [List.filter_cons, List.filter_cons, ih]

/-- C17: for every list of directory entry names, `namesToPorts` returns a list
that is sorted in ascending order, does not contain 0, and is a permutation
of the non-zero port values of the names that parse as decimal integers; it
is empty when no name parses. -/
theorem namesToPorts_sorted_nonzero (names : List String) :
    List.Sorted (fun a b => a ≤ b) (namesToPorts names) ∧
    (0 : Port) ∉ namesToPorts names ∧
    List.Perm (namesToPorts names)
      ((names.filterMap fun s => (Atoi s).map intToPort).filter
        (fun port => decide (port ≠ 0))) ∧
    ((∀ name ∈ names, Atoi name = none) → namesToPorts names = []) := by
  have hsort : List.Sorted (fun a b : Nat => a ≤ b)
      ((convertNames names).insertionSort (fun a b => a ≤ b)) :=
    List.sorted_insertionSort (fun a b : Nat => a ≤ b) (convertNames names)
  have hnone : (names.any fun name => (Atoi name).isSome) = false →
      (names.filterMap fun s => (Atoi s).map intToPort) = [] := by
    intro hany
    rw [List.filterMap_eq_nil_iff]
    intro s hs
    have := List.any_eq_false.1 hany s hs
    cases ha : Atoi s with
    | none => rfl
    | some v => rw [ha] at this; simp at this
  have heq : namesToPorts names =
      ((names.filterMap fun s => (Atoi s).map intToPort).filter
        (fun port => decide (port ≠ 0))) ∨
      (namesToPorts names =
        ((convertNames names).insertionSort (fun a b => a ≤ b)).filter
          (fun port => decide (port ≠ 0))) := by
    unfold namesToPorts
    by_cases h0 : names.length = 0
    · rw [if_pos h0, List.length_eq_zero.1 h0]
      exact Or.inl rfl
    · rw [if_neg h0]
      simp only
      by_cases hc : (names.any fun name => (Atoi name).isSome) = true
      · rw [if_pos hc]
        exact Or.inr (dropWhile_zero_sorted _ hsort)
      · rw [if_neg hc, hnone (by simpa using hc)]
        exact Or.inl rfl
  have hperm : List.Perm (namesToPorts names)
      ((names.filterMap fun s => (Atoi s).map intToPort).filter
        (fun port => decide (port ≠ 0))) := by
    rcases heq with h | h
    · rw [h]
    · rw [h, ← convertNames_nonzero]
      exact (List.perm_insertionSort _ _).filter _
  have hsorted : List.Sorted (fun a b => a ≤ b) (namesToPorts names) := by
    rcases heq with h | h
    · unfold namesToPorts at h ⊢
      by_cases h0 : names.length = 0
      · rw [if_pos h0]
        exact List.sorted_nil
      · rw [if_neg h0]
        simp only
        by_cases hc : (names.any fun name => (Atoi name).isSome) = true
        · rw [if_pos hc]
          exact hsort.sublist (List.dropWhile_suffix _).sublist
        · rw [if_neg hc]
          exact List.sorted_nil
    · rw [h]
      exact hsort.sublist (List.filter_sublist _)
  refine ⟨hsorted, ?_, hperm, ?_⟩
  · intro hmem
    have := hperm.subset hmem
    simp at this
  · intro hall
    have hnil : (names.filterMap fun s => (Atoi s).map intToPort) = [] := by
      rw [List.filterMap_eq_nil_iff]
      intro s hs
      rw [hall s hs]
      rfl
    rw [hnil] at hperm
    exact List.Perm.eq_nil hperm

/-- Evaluation of `namesToPorts` on the names `9010`, `tmp`, `0`, `80` and
`-1`: the name `-1` parses and gives the port 2^64 - 1. -/
theorem namesToPorts_sorted_nonzero_witness :
    namesToPorts ["9010", "tmp", "0", "80", "-1"] = [80, 9010, 18446744073709551615] ∧
    List.Perm (namesToPorts ["9010", "tmp", "0", "80", "-1"])
      ((["9010", "tmp", "0", "80", "-1"].filterMap fun s => (Atoi s).map intToPort).filter
        (fun port => decide (port ≠ 0))) :=
  ⟨by decide, (namesToPorts_sorted_nonzero ["9010", "tmp", "0", "80", "-1"]).2.2.1⟩

/-! ## Shape of a successful result (C19) -/

theorem settles_get {ds qs : PortPairs} (h : List.Forall₂ Settles ds qs) (i : Nat)
    (d : PortPair) (hi : ds[i]? = some d) : ∃ q, qs[i]? = some q ∧ Settles d q := by
  induction h generalizing i with
  | nil => simp at hi
  | cons hxy _ ih =>
    cases i with
    | zero =>
      simp only [List.getElem?_cons_zero, Option.some.injEq] at hi
      subst hi
      exact ⟨_, by simp, hxy⟩
    | succ k =>
      simp only [List.getElem?_cons_succ] at hi ⊢
      exact ih k hi

/-- C19: for every call of `AtomicReserveExternalPorts` that returns without
error, the returned pairs are as many as the desired pairs, and at every
index the returned pair has the internal port of the desired pair, an external
port other than 0, and the desired external port when that is not 0. The
working set the passes write to is the copy made by `PortPairs.reserve`; the
desired pairs are a value of the call that no pass writes to. -/
theorem successful_result_shape (path : String) (ds existing : PortPairs) (fs : Markers)
    (chan : List Port) (h : (AtomicReserveExternalPorts path ds existing fs chan).err = none) :
    (AtomicReserveExternalPorts path ds existing fs chan).pairs.length = ds.length ∧
    (∀ (i : Nat) (d : PortPair), ds[i]? = some d →
      ∃ q, (AtomicReserveExternalPorts path ds existing fs chan).pairs[i]? = some q ∧
        q.Internal = d.Internal ∧ q.External ≠ 0 ∧ (d.External ≠ 0 → q.External = d.External)) ∧
    (PortPairs.reserve ds).map (fun res => res.toPortPair) = ds := by
  have hs := atomic_ok_settles path ds existing fs chan h
  refine ⟨hs.length_eq.symm, ?_, ?_⟩
  · intro i d hi
    obtain ⟨q, hq, hset⟩ := settles_get hs i d hi
    exact ⟨q, hq, hset⟩
  · unfold PortPairs.reserve
    rw [List.map_map]
    exact List.map_id _

/-- Witness of `successful_result_shape`: the desired pairs 80:0 and 443:8443
with no existing pairs, no marker on disk and the port 9000 on the
allocator's channel. -/
theorem successful_result_shape_witness :
    (AtomicReserveExternalPorts "u" [⟨80, 0⟩, ⟨443, 8443⟩] [] (markersOf []) [9000]).err = none ∧
    (AtomicReserveExternalPorts "u" [⟨80, 0⟩, ⟨443, 8443⟩] [] (markersOf []) [9000]).pairs =
      [⟨80, 9000⟩, ⟨443, 8443⟩] ∧
    (AtomicReserveExternalPorts "u" [⟨80, 0⟩, ⟨443, 8443⟩] [] (markersOf [])
      [9000]).pairs.length = ([⟨80, 0⟩, ⟨443, 8443⟩] : PortPairs).length :=
  ⟨by decide, by decide,
    (successful_result_shape "u" [⟨80, 0⟩, ⟨443, 8443⟩] [] (markersOf []) [9000]
      (by decide)).1⟩

/-! ## Frame of a reservation call (C20) -/

theorem symlink_some (fs fs1 : Markers) (path : String) (port : Port)
    (h : symlink fs path port = some fs1) :
    fs port = none ∧ fs1 = fun q => if q = port then some path else fs q := by
  unfold symlink at h
  cases hp : fs port with
  | none =>
    rw [hp] at h
    exact ⟨rfl, (Option.some.inj h).symm⟩
  | some t =>
    rw [hp] at h
    exact absurd h (by simp)

theorem remove_some (fs fs1 : Markers) (port : Port) (h : remove fs port = some fs1) :
    fs1 = fun q => if q = port then none else fs q := by
  unfold remove at h
  cases hp : fs port with
  | none =>
    rw [hp] at h
    exact absurd h (by simp)
  | some t =>
    rw [hp] at h
    exact (Option.some.inj h).symm

/-- The persist loop leaves a marker as it is or creates it, pointing at the
owner path, for an external port of the working set. -/
theorem reserveLinks_fs (path : String) (p : portReservations) (fs : Markers) (q : Port) :
    (reserveLinks path p fs).2 q = fs q ∨
    (fs q = none ∧ (reserveLinks path p fs).2 q = some path ∧
      q ∈ p.map fun x => x.External) := by
  induction p generalizing fs with
  | nil => exact Or.inl rfl
  | cons res rest ih =>
    unfold reserveLinks
    by_cases hex : res.exists_ = true
    · simp only [hex, Bool.not_true, Bool.false_eq_true, if_false]
      rcases ih fs with h | h
      · exact Or.inl h
      · exact Or.inr ⟨h.1, h.2.1, List.mem_cons_of_mem _ h.2.2⟩
    · have hex1 : res.exists_ = false := by simpa using hex
      simp only [hex1, Bool.not_false, if_true]
      cases hs : symlink fs path res.External with
      | none => exact Or.inl rfl
      | some fs1 =>
        obtain ⟨hnone, hfs1⟩ := symlink_some fs fs1 path res.External hs
        simp only
        by_cases hq : q = res.External
        · have hfq : fs q = none := by rw [hq]; exact hnone
          have h1q : fs1 q = some path := by rw [hfs1]; simp [hq]
          right
          refine ⟨hfq, ?_, by simp [hq]⟩
          rcases ih fs1 with h | h
          · rw [h, h1q]
          · exact h.2.1
        · have h1q : fs1 q = fs q := by rw [hfs1]; simp [hq]
          rcases ih fs1 with h | h
          · exact Or.inl (h.trans h1q)
          · exact Or.inr ⟨h1q ▸ h.1, h.2.1, List.mem_cons_of_mem _ h.2.2⟩

/-- The release loop leaves a marker as it is or removes it, for a port of the
unreserve list. -/
theorem releasePorts_fs (l : List Port) (fs : Markers) (q : Port) :
    releasePorts l fs q = fs q ∨ (releasePorts l fs q = none ∧ q ∈ l) := by
  induction l generalizing fs with
  | nil => exact Or.inl rfl
  | cons port rest ih =>
    unfold releasePorts
    cases hr : remove fs port with
    | none =>
      simp only
      rcases ih fs with h | h
      · exact Or.inl h
      · exact Or.inr ⟨h.1, List.mem_cons_of_mem _ h.2⟩
    | some fs1 =>
      simp only
      have hfs1 := remove_some fs fs1 port hr
      by_cases hq : q = port
      · have h1q : fs1 q = none := by rw [hfs1]; simp [hq]
        right
        refine ⟨?_, by simp [hq]⟩
        rcases ih fs1 with h | h
        · rw [h, h1q]
        · exact h.1
      · have h1q : fs1 q = fs q := by rw [hfs1]; simp [hq]
        rcases ih fs1 with h | h
        · exact Or.inl (h.trans h1q)
        · exact Or.inr ⟨h.1, List.mem_cons_of_mem _ h.2⟩

theorem reuseInner_unreserve_mem (ex : PortPair) (p : portReservations) (u : List Port)
    (m : Bool) : ∀ q ∈ (reuseInner ex p u m).unreserve, q ∈ u ∨ q = ex.External := by
  induction p generalizing u m with
  | nil => exact fun q hq => Or.inl hq
  | cons res rest ih =>
    unfold reuseInner
    split_ifs
    · exact fun q hq => Or.inl hq
    · exact fun q hq => ih _ _ q hq
    · intro q hq
      rcases ih _ _ q hq with h | h
      · rcases List.mem_append.1 h with h1 | h1
        · exact Or.inl h1
        · exact Or.inr (by simpa using h1)
      · exact Or.inr h
    · exact fun q hq => ih _ _ q hq
    · exact fun q hq => ih _ _ q hq

theorem reuseExisting_unreserve_mem (exs : PortPairs) (p : portReservations) (u : List Port) :
    ∀ q ∈ (reuseExisting exs p u).unreserve, q ∈ u ∨ q ∈ exs.map fun ex => ex.External := by
  induction exs generalizing p u with
  | nil => exact fun q hq => Or.inl hq
  | cons ex rest ih =>
    have hin := reuseInner_unreserve_mem ex p u false
    unfold reuseExisting
    simp only
    cases he : (reuseInner ex p u false).err with
    | some e =>
      intro q hq
      rcases hin q hq with h | h
      · exact Or.inl h
      · exact Or.inr (by simp [h])
    | none =>
      simp only
      split_ifs
      · intro q hq
        rcases ih _ _ q hq with h | h
        · rcases List.mem_append.1 h with h1 | h1
          · rcases hin q h1 with h2 | h2
            · exact Or.inl h2
            · exact Or.inr (by simp [h2])
          · exact Or.inr (by
              have : q = ex.External := by simpa using h1
              simp [this])
        · exact Or.inr (List.mem_cons_of_mem _ h)
      · intro q hq
        rcases ih _ _ q hq with h | h
        · rcases hin q h with h2 | h2
          · exact Or.inl h2
          · exact Or.inr (by simp [h2])
        · exact Or.inr (List.mem_cons_of_mem _ h)

theorem reuse_unreserve_mem (p : portReservations) (existing : PortPairs) (chan : List Port) :
    ∀ q ∈ (portReservations.reuse p existing chan).unreserve,
      q ∈ existing.map fun ex => ex.External := by
  have h := reuseExisting_unreserve_mem existing p []
  unfold portReservations.reuse
  simp only
  cases he : (reuseExisting existing p []).err with
  | some e =>
    intro q hq
    rcases h q hq with h1 | h1
    · simp at h1
    · exact h1
  | none =>
    intro q hq
    rcases h q hq with h1 | h1
    · simp at h1
    · exact h1

/-- The markers after a call, whatever its result. -/
theorem atomic_fs (path : String) (ds existing : PortPairs) (fs : Markers) (chan : List Port) :
    ((AtomicReserveExternalPorts path ds existing fs chan).fs = fs ∧
      (AtomicReserveExternalPorts path ds existing fs chan).err ≠ none) ∨
    ((AtomicReserveExternalPorts path ds existing fs chan).fs =
      releasePorts (portReservations.reuse (PortPairs.reserve ds) existing chan).unreserve
        (reserveLinks path (portReservations.reuse (PortPairs.reserve ds) existing chan).p fs).2 ∧
      (AtomicReserveExternalPorts path ds existing fs chan).unreserve =
        (portReservations.reuse (PortPairs.reserve ds) existing chan).unreserve) := by
  cases he : (AtomicReserveExternalPorts path ds existing fs chan).err with
  | none =>
    right
    rw [atomic_ok path ds existing fs chan he]
    exact ⟨rfl, rfl⟩
  | some e =>
    left
    refine ⟨?_, by simp⟩
    rw [atomic_err] at he
    unfold AtomicReserveExternalPorts
    simp [he]

/-- C20: for every call of `AtomicReserveExternalPorts`, with or without
error, and every port `q`: when `q` is neither an external port of the working
set after the allocation pass nor an external port of the existing pairs, its
marker after the call is its marker before the call; a marker that was there
before the call is afterwards there with the same target or removed; and the
marker of `q` is unchanged, or was absent and now points at the owner path
(and `q` is an external port of the working set), or is removed (and `q` is on
the unreserve list, which holds external ports of the existing pairs). -/
theorem reservation_call_frame (path : String) (ds existing : PortPairs) (fs : Markers)
    (chan : List Port) (q : Port) :
    (q ∉ ((portReservations.reuse (PortPairs.reserve ds) existing chan).p.map
        fun x => x.External) →
      q ∉ (existing.map fun ex => ex.External) →
      (AtomicReserveExternalPorts path ds existing fs chan).fs q = fs q) ∧
    (∀ target, fs q = some target →
      (AtomicReserveExternalPorts path ds existing fs chan).fs q = some target ∨
      (AtomicReserveExternalPorts path ds existing fs chan).fs q = none) ∧
    ((AtomicReserveExternalPorts path ds existing fs chan).fs q = fs q ∨
      (fs q = none ∧ (AtomicReserveExternalPorts path ds existing fs chan).fs q = some path ∧
        q ∈ ((portReservations.reuse (PortPairs.reserve ds) existing chan).p.map
          fun x => x.External)) ∨
      ((AtomicReserveExternalPorts path ds existing fs chan).fs q = none ∧
        q ∈ (AtomicReserveExternalPorts path ds existing fs chan).unreserve ∧
        q ∈ (existing.map fun ex => ex.External))) := by
  have hcases : (AtomicReserveExternalPorts path ds existing fs chan).fs q = fs q ∨
      (fs q = none ∧ (AtomicReserveExternalPorts path ds existing fs chan).fs q = some path ∧
        q ∈ ((portReservations.reuse (PortPairs.reserve ds) existing chan).p.map
          fun x => x.External)) ∨
      ((AtomicReserveExternalPorts path ds existing fs chan).fs q = none ∧
        q ∈ (AtomicReserveExternalPorts path ds existing fs chan).unreserve ∧
        q ∈ (existing.map fun ex => ex.External)) := by
    rcases atomic_fs path ds existing fs chan with h | h
    · exact Or.inl (by rw [h.1])
    · rw [h.1, h.2]
      rcases releasePorts_fs (portReservations.reuse (PortPairs.reserve ds) existing chan).unreserve
        (reserveLinks path (portReservations.reuse (PortPairs.reserve ds) existing chan).p fs).2 q
        with hr | hr
      · rcases reserveLinks_fs path (portReservations.reuse (PortPairs.reserve ds) existing chan).p
          fs q with hl | hl
        · exact Or.inl (hr.trans hl)
        · exact Or.inr (Or.inl ⟨hl.1, hr.trans hl.2.1, hl.2.2⟩)
      · exact Or.inr (Or.inr ⟨hr.1, hr.2, reuse_unreserve_mem _ _ _ q hr.2⟩)
  refine ⟨?_, ?_, hcases⟩
  · intro hw hx
    rcases hcases with h | h | h
    · exact h
    · exact absurd h.2.2 hw
    · exact absurd h.2.2 hx
  · intro target ht
    rcases hcases with h | h | h
    · exact Or.inl (h.trans ht)
    · rw [h.1] at ht
      exact absurd ht (by simp)
    · exact Or.inr h.1

/-- Evaluation of the frame on the call for 80:0 with the existing pair
22:2200 and port 9000 on the channel, while the markers of 2200 (this
workload) and 7000 (another one) are on disk: the marker of 9000 is created,
that of 2200 is removed, that of 7000 is as before. -/
theorem reservation_call_frame_witness :
    (AtomicReserveExternalPorts "u" [⟨80, 0⟩] [⟨22, 2200⟩]
      (markersOf [(2200, "u"), (7000, "other")]) [9000]).fs 9000 = some "u" ∧
    (AtomicReserveExternalPorts "u" [⟨80, 0⟩] [⟨22, 2200⟩]
      (markersOf [(2200, "u"), (7000, "other")]) [9000]).fs 2200 = none ∧
    (AtomicReserveExternalPorts "u" [⟨80, 0⟩] [⟨22, 2200⟩]
      (markersOf [(2200, "u"), (7000, "other")]) [9000]).fs 7000 =
      markersOf [(2200, "u"), (7000, "other")] 7000 :=
  ⟨by decide, by decide,
    (reservation_call_frame "u" [⟨80, 0⟩] [⟨22, 2200⟩]
      (markersOf [(2200, "u"), (7000, "other")]) [9000] 7000).1 (by decide) (by decide)⟩

/-! ## The unit-file reader: lines out of range (C12) -/

theorem Itoa_chars (v : Int) :
    ∀ c ∈ (Itoa v).data, c = '-' ∨ ∃ m, m < 10 ∧ c = Nat.digitChar m := by
  intro c hc
  unfold Itoa at hc
  split_ifs at hc
  · rcases List.mem_cons.1 hc with h | h
    · exact Or.inl h
    · exact Or.inr (toDigits_mem _ c h)
  · exact Or.inr (toDigits_mem _ c hc)

/-- A line `X-PortMapping=<i>,<e>` holds no newline and no carriage return. -/
theorem mappingText_plain (i e : Int) :
    '\n' ∉ (mappingText i e).data ∧
    dropCR (mappingText i e).data = (mappingText i e).data := by
  have hno : ∀ (v : Int) (c : Char), (c = '\n' ∨ c = '\r') → c ∉ (Itoa v).data := by
    intro v c hc hmem
    rcases Itoa_chars v c hmem with h | ⟨m, hm, h⟩
    · rcases hc with h1 | h1 <;> rw [h1] at h <;> exact absurd h (by decide)
    · have hp := digitChar_plain m hm
      rcases hc with h1 | h1
      · exact hp.2.1 (h ▸ h1)
      · exact hp.2.2.1 (h ▸ h1)
  have hall : ∀ c : Char, (c = '\n' ∨ c = '\r') → c ∉ (mappingText i e).data := by
    intro c hc hmem
    unfold mappingText at hmem
    simp only [List.mem_append, List.mem_cons] at hmem
    rcases hmem with h1 | h2 | h3 | h4
    · rcases hc with h | h <;> rw [h] at h1 <;> exact absurd h1 (by decide)
    · exact hno i c hc h2
    · rcases hc with h | h <;> rw [h] at h3 <;> exact absurd h3 (by decide)
    · exact hno e c hc h4
  refine ⟨hall '\n' (Or.inl rfl), ?_⟩
  unfold dropCR
  rw [if_neg]
  intro hc
  exact hall '\r' (Or.inr rfl) (List.mem_of_getLast?_eq_some hc)

/-- A segment that is followed by further segments is a line of the scanner,
unless it is too long. -/
theorem scanTokens_cons (seg : List Char) (rest : List (List Char)) (h : rest ≠ []) :
    scanTokens (seg :: rest) =
      if utf8Len seg ≥ maxScanTokenSize then ([], some ScanError.tooLong)
      else ((String.mk (dropCR seg)) :: (scanTokens rest).1, (scanTokens rest).2) := by
  cases rest with
  | nil => exact absurd rfl h
  | cons x xs =>
    rw [scanTokens]
    simp

/-- Two lists of segments that are read alike are read alike after the same
segments. -/
theorem scanTokens_same (front xs ys : List (List Char)) (hx : xs ≠ []) (hy : ys ≠ [])
    (herr : (scanTokens xs).2 = (scanTokens ys).2)
    (hread : ∀ acc, (scanTokens xs).1.foldl readLine acc = (scanTokens ys).1.foldl readLine acc) :
    (scanTokens (front ++ xs)).2 = (scanTokens (front ++ ys)).2 ∧
    ∀ acc, (scanTokens (front ++ xs)).1.foldl readLine acc =
      (scanTokens (front ++ ys)).1.foldl readLine acc := by
  induction front with
  | nil => exact ⟨herr, hread⟩
  | cons seg rest ih =>
    rw [List.cons_append, List.cons_append, scanTokens_cons seg _ (by simp [hx]),
      scanTokens_cons seg _ (by simp [hy])]
    by_cases hlong : utf8Len seg ≥ maxScanTokenSize
    · rw [if_pos hlong, if_pos hlong]
      exact ⟨rfl, fun _ => rfl⟩
    · rw [if_neg hlong, if_neg hlong]
      refine ⟨ih.1, ?_⟩
      intro acc
      rw [List.foldl_cons, List.foldl_cons]
      exact ih.2 _

theorem splitOn_ne_nil (xs : List Char) : xs.splitOn '\n' ≠ [] := by
  unfold List.splitOn
  exact List.splitOnP_ne_nil _ _

theorem utf8Len_ge_length (l : List Char) : l.length ≤ utf8Len l := by
  induction l with
  | nil => exact Nat.le_refl _
  | cons c cs ih =>
    have hc := Char.utf8Size_pos c
    simp only [utf8Len, List.map_cons, List.sum_cons, List.length_cons] at ih ⊢
    omega

theorem digits_value_lt (l : List Char) (hl : ∀ c ∈ l, c.toNat - 48 < 10) (acc : Nat) :
    l.foldl (fun acc ch => acc * 10 + (ch.toNat - 48)) acc < (acc + 1) * 10 ^ l.length := by
  induction l generalizing acc with
  | nil => simp
  | cons c cs ih =>
    have hc := hl c (List.mem_cons_self _ _)
    have h1 := ih (fun x hx => hl x (List.mem_cons_of_mem _ hx)) (acc * 10 + (c.toNat - 48))
    have h2 : acc * 10 + (c.toNat - 48) + 1 ≤ (acc + 1) * 10 := by omega
    calc (c :: cs).foldl (fun acc ch => acc * 10 + (ch.toNat - 48)) acc
        < (acc * 10 + (c.toNat - 48) + 1) * 10 ^ cs.length := h1
      _ ≤ (acc + 1) * 10 * 10 ^ cs.length := Nat.mul_le_mul_right _ h2
      _ = (acc + 1) * 10 ^ (c :: cs).length := by
        rw [List.length_cons, Nat.pow_succ, Nat.mul_assoc, Nat.mul_comm 10]

/-- A number of at least `10 ^ e` has more than `e` decimal digits. -/
theorem toDigits_length_gt (n e : Nat) (h : 10 ^ e ≤ n) : e < (Nat.toDigits 10 n).length := by
  have hv := toDigits_value n
  have hlt := digits_value_lt (Nat.toDigits 10 n) (by
    intro c hc
    obtain ⟨m, hm, rfl⟩ := toDigits_mem n c hc
    rw [(digitChar_cases m hm).2.1]
    exact hm) 0
  rw [hv, Nat.zero_add, Nat.one_mul] at hlt
  exact (Nat.pow_lt_pow_iff_right (by decide : 1 < 10)).1 (Nat.lt_of_le_of_lt h hlt)

/-- A line `X-PortMapping=<10^j>,<e>` with `j` at least 65535 is longer than
the largest token, and `10 ^ j` is not below 65536. -/
theorem long_line (j : Nat) (hj : 65535 ≤ j) (e : Int) :
    utf8Len (mappingText ((10 ^ j : Nat) : Int) e).data ≥ maxScanTokenSize ∧
    ¬ (((10 ^ j : Nat) : Int) < 65536) := by
  have hI : (Itoa ((10 ^ j : Nat) : Int)).data = Nat.toDigits 10 (10 ^ j) := by
    unfold Itoa
    rw [if_neg (not_lt.2 (Int.ofNat_zero_le _)), Int.natAbs_ofNat]
  have hd := toDigits_length_gt (10 ^ j) j (Nat.le_refl _)
  have hlen := utf8Len_ge_length
    (mappingPrefix ++ (Nat.toDigits 10 (10 ^ j) ++ ',' :: (Itoa e).data))
  simp only [List.length_append, List.length_cons] at hlen
  constructor
  · unfold mappingText
    rw [hI]
    show utf8Len (mappingPrefix ++ (Nat.toDigits 10 (10 ^ j) ++ ',' :: (Itoa e).data)) ≥
      maxScanTokenSize
    unfold maxScanTokenSize
    omega
  · have h5 : (10 : Nat) ^ 5 ≤ 10 ^ j := Nat.pow_le_pow_right (by decide) (by omega)
    generalize (10 : Nat) ^ j = big at h5
    omega

/-- C12, the claim as stated fails for a line of 65536 bytes or more: the
line `X-PortMapping=<i>,5` with `i = 10 ^ 65535`, outside (0, 65536), stops
the scanner with `bufio.ErrTooLong`, and the mapping line after it, which
alone gives the pair 80:8080, is not read. -/
theorem long_mapping_line_ends_scan :
    ¬ (((10 ^ 65535 : Nat) : Int) < 65536) ∧
    ReadPortsFromUnitFile (String.mk ((mappingText ((10 ^ 65535 : Nat) : Int) 5).data ++
      '\n' :: "X-PortMapping=80,8080\n".data)) = ([], some ScanError.tooLong) ∧
    ReadPortsFromUnitFile "X-PortMapping=80,8080\n" = ([⟨80, 8080⟩], none) := by
  have hbig := long_line 65535 (Nat.le_refl _) 5
  refine ⟨hbig.2, ?_, by decide⟩
  · have hlong := hbig.1
    have hplain := (mappingText_plain ((10 ^ 65535 : Nat) : Int) 5).1
    generalize mappingText ((10 ^ 65535 : Nat) : Int) 5 = line at hlong hplain
    unfold ReadPortsFromUnitFile
    simp only
    rw [splitOn_append_sep, splitOn_plain '\n' line.data hplain, List.singleton_append,
      scanTokens_cons _ _ (splitOn_ne_nil _), if_pos hlong]
    rfl

/-- C12 (amended): every pair the unit-file reader returns for a text has its
internal and its external port in (0, 65536); and a line
`X-PortMapping=<i>,<e>` with `i` or `e` outside (0, 65536) that is shorter
than 65536 bytes contributes no pair and does not stop later lines from
being read: for the text `before`, empty or ending in a newline, and any text
`after`, the reader returns for `before`, the line, a newline and `after`
the pairs and the error it returns for `before` and `after` without the
line, and likewise when the line ends the text without a newline. -/
theorem reader_skips_out_of_range (before after : List Char) (i e : Int)
    (hstart : before = [] ∨ ∃ front, before = front ++ ['\n'])
    (hshort : utf8Len (mappingText i e).data < maxScanTokenSize)
    (hout : ¬ (0 < i ∧ i < 65536 ∧ 0 < e ∧ e < 65536)) :
    (∀ text : String, ∀ q ∈ (ReadPortsFromUnitFile text).1,
      0 < q.Internal ∧ q.Internal < 65536 ∧ 0 < q.External ∧ q.External < 65536) ∧
    ReadPortsFromUnitFile (String.mk (before ++ (mappingText i e).data ++ '\n' :: after)) =
      ReadPortsFromUnitFile (String.mk (before ++ after)) ∧
    ReadPortsFromUnitFile (String.mk (before ++ (mappingText i e).data)) =
      ReadPortsFromUnitFile (String.mk before) := by
  have hplain := mappingText_plain i e
  have hbad : ∀ acc, readLine acc (mappingText i e) = acc := by
    intro acc
    rw [readLine_mappingText, if_neg (by omega)]
  have hne : (mappingText i e).data ≠ [] := by
    unfold mappingText mappingPrefix
    simp
  have hnot : ¬ utf8Len (mappingText i e).data ≥ maxScanTokenSize := by omega
  -- the line followed by further segments, against those segments alone
  have hmid : ∀ rest : List (List Char), rest ≠ [] →
      (scanTokens ((mappingText i e).data :: rest)).2 = (scanTokens rest).2 ∧
      ∀ acc, (scanTokens ((mappingText i e).data :: rest)).1.foldl readLine acc =
        (scanTokens rest).1.foldl readLine acc := by
    intro rest hrest
    rw [scanTokens_cons _ _ hrest, if_neg hnot, hplain.2]
    refine ⟨rfl, fun acc => ?_⟩
    show List.foldl readLine acc (mappingText i e :: (scanTokens rest).1) = _
    rw [List.foldl_cons, hbad]
  -- the line as the last segment, against the empty last segment
  have hlast : (scanTokens [(mappingText i e).data]).2 = (scanTokens [[]]).2 ∧
      ∀ acc, (scanTokens [(mappingText i e).data]).1.foldl readLine acc =
        (scanTokens [[]]).1.foldl readLine acc := by
    have hemp : (mappingText i e).data.isEmpty = false := by
      cases hd : (mappingText i e).data with
      | nil => exact absurd hd hne
      | cons x xs => rfl
    have h1 : scanTokens [(mappingText i e).data] = ([mappingText i e], none) := by
      rw [scanTokens, hemp, if_neg (by decide), if_neg hnot, hplain.2]
    rw [h1]
    refine ⟨rfl, fun acc => ?_⟩
    show List.foldl readLine acc [mappingText i e] = List.foldl readLine acc []
    rw [List.foldl_cons, hbad]
  have hread : ∀ xs ys : List (List Char),
      ((scanTokens xs).2 = (scanTokens ys).2 ∧
        ∀ acc, (scanTokens xs).1.foldl readLine acc = (scanTokens ys).1.foldl readLine acc) →
      ((scanTokens xs).1.foldl readLine [], (scanTokens xs).2) =
        ((scanTokens ys).1.foldl readLine [], (scanTokens ys).2) := by
    intro xs ys h
    rw [h.1, h.2]
  refine ⟨fun text => readLines_in_range _, ?_, ?_⟩
  · unfold ReadPortsFromUnitFile
    simp only
    apply hread
    rcases hstart with h | ⟨front, h⟩
    · rw [h, List.nil_append, List.nil_append, splitOn_append_sep,
        splitOn_plain '\n' _ hplain.1, List.singleton_append]
      exact hmid _ (splitOn_ne_nil _)
    · have e1 : before ++ (mappingText i e).data ++ '\n' :: after =
          front ++ '\n' :: ((mappingText i e).data ++ '\n' :: after) := by
        rw [h]
        simp only [List.append_assoc, List.singleton_append, List.cons_append, List.nil_append]
      have e2 : before ++ after = front ++ '\n' :: after := by
        rw [h]
        simp only [List.append_assoc, List.singleton_append, List.cons_append, List.nil_append]
      rw [e1, e2, splitOn_append_sep, splitOn_append_sep '\n' front after,
        splitOn_append_sep '\n' (mappingText i e).data after,
        splitOn_plain '\n' _ hplain.1, List.singleton_append]
      exact scanTokens_same _ _ _ (by simp) (splitOn_ne_nil _)
        (hmid _ (splitOn_ne_nil _)).1 (hmid _ (splitOn_ne_nil _)).2
  · unfold ReadPortsFromUnitFile
    simp only
    apply hread
    rcases hstart with h | ⟨front, h⟩
    · rw [h, List.nil_append, splitOn_plain '\n' _ hplain.1]
      exact hlast
    · have hnil : ([] : List Char).splitOn '\n' = [[]] := by decide
      have e1 : before ++ (mappingText i e).data = front ++ '\n' :: (mappingText i e).data := by
        rw [h]
        simp only [List.append_assoc, List.singleton_append, List.cons_append, List.nil_append]
      have hb : (front ++ ['\n']).splitOn '\n' = front.splitOn '\n' ++ [[]] := by
        rw [splitOn_append_sep, hnil]
      rw [e1, splitOn_append_sep, splitOn_plain '\n' _ hplain.1, h, hb]
      exact scanTokens_same _ _ _ (by simp) (by simp) hlast.1 hlast.2

/-- Witness of `reader_skips_out_of_range`: three mapping lines, the second
with the internal port 70000. -/
theorem reader_skips_out_of_range_witness :
    ReadPortsFromUnitFile
      "X-PortMapping=80,8080\nX-PortMapping=70000,5\nX-PortMapping=443,8443\n" =
      ([⟨80, 8080⟩, ⟨443, 8443⟩], none) ∧
    ReadPortsFromUnitFile (String.mk ("X-PortMapping=80,8080\n".data ++
      (mappingText 70000 5).data ++ '\n' :: "X-PortMapping=443,8443\n".data)) =
      ReadPortsFromUnitFile (String.mk ("X-PortMapping=80,8080\n".data ++
        "X-PortMapping=443,8443\n".data)) :=
  ⟨by decide,
    (reader_skips_out_of_range "X-PortMapping=80,8080\n".data "X-PortMapping=443,8443\n".data
      70000 5 (Or.inr ⟨"X-PortMapping=80,8080".data, by decide⟩) (by decide) (by decide)).2.1⟩

end Gears
